import Mathlib

/-!
# BaconScore (`bacon.c`): a shallow embedding and its verified properties

The heap of `bacon.c` is modelled by two tables.  `Actor*` and `Movie*` values
are indices into them (the index is the order of allocation); the `next`-linked
registry `actors` visits the cells from the most recently allocated one down to
the first, so a scan of the registry is a scan of the reversed table.  The
linked lists `mlist` and `alist` are lists of indices in list order (head
first).  Standard output is the sequence of executed `printf` calls with their
arguments, `Printed.render` gives the text of each.  `int level` is a natural
number: a level never exceeds the number of allocated actors.

`findOrAddActor` leaves `visited` and `parent` of a new cell unassigned; the
content of the allocated block is a parameter (`fresh`, `heap`).  Loops whose
termination is not structural (`bfsLoop`, `printPath`) carry an iteration budget
and return `none` when it runs out or when a reference is dangling;
`calc_total` shows that neither happens on a heap the process can reach.
-/

namespace Bacon

/-! ## Data model -/

/-- The struct `Actor`: `movies` is the `mlist` chain, `parent` a nullable `Actor*`. -/
structure Actor where
  name : String
  movies : List Nat
  visited : Bool
  parent : Option Nat
deriving DecidableEq, Repr

/-- The struct `Movie`: `cast` is the `alist` chain. -/
structure Movie where
  title : String
  cast : List Nat
deriving DecidableEq, Repr

/-- The struct `Queue`: one node of the frontier. -/
structure Queue where
  actor : Nat
  parent : Option Nat
  level : Nat
deriving DecidableEq, Repr

/-- The heap reachable from the two registries of `parseMovieFile`. -/
structure Graph where
  actors : List Actor
  movies : List Movie
deriving DecidableEq, Repr

/-- One executed `printf` on standard output. -/
inductive Printed where
  | score (level : Nat)
  | noBacon
  | kevinBacon
  | hop (actorName movieTitle : String)
deriving DecidableEq, Repr

/-- The text a `printf` call writes. -/
def Printed.render : Printed → String
  | .score level => "Score: " ++ toString level ++ "\n"
  | .noBacon => "Score: No Bacon!\n"
  | .kevinBacon => "Kevin Bacon\n"
  | .hop a m => a ++ "\nwas in " ++ m ++ " with\n"

/-- The text of a sequence of `printf` calls. -/
def renderAll (ps : List Printed) : String :=
  String.join (ps.map Printed.render)

/-- The line `fprintf(stderr, "No actor named %s entered\n", name)` writes. -/
def noActorMsg (name : String) : String :=
  "No actor named " ++ name ++ " entered\n"

/-! ## Graph store -/

/-- The loop `while (current) { if (strcmp(current->name, name) == 0) ... }` over
registry cells given head first; the head of `k + 1` cells is the actor `k`. -/
def scanName (name : String) : List Actor → Option Nat
  | [] => none
  | a :: rest => if a.name = name then some rest.length else scanName name rest

/-- Lookup by name in the registry (first match from the head of the list). -/
def findActor (actors : List Actor) (name : String) : Option Nat :=
  scanName name actors.reverse

/-- The function `findOrAddActor`: `fresh` is the content of the block `malloc` returns, of
which only `name` and `movies` are assigned. -/
def findOrAddActor (actors : List Actor) (name : String) (fresh : Actor) :
    List Actor × Nat :=
  match findActor actors name with
  | some i => (actors, i)
  | none => (actors ++ [{ fresh with name := name, movies := [] }], actors.length)

/-- The function `linkActorMovie`: a new `mlist` head on the actor, a new `alist` head on the movie. -/
def linkActorMovie (g : Graph) (actor movie : Nat) : Graph :=
  { actors := List.modify (fun a => { a with movies := movie :: a.movies }) actor g.actors
    movies := List.modify (fun m => { m with cast := actor :: m.cast }) movie g.movies }

/-- The function `actorExists`. -/
def actorExists (actors : List Actor) (name : String) : Bool :=
  (findActor actors name).isSome

/-- Locals of the first loop of `parseMovieFile`. -/
structure ParseState where
  g : Graph
  lastMovie : Option Nat
deriving DecidableEq, Repr

/-- The test `strncmp(line, "Movie: ", 7) == 0`. -/
def isMovieLine (line : String) : Bool :=
  line.toList.take 7 = "Movie: ".toList

/-- A line of the input file that is neither blank nor a movie declaration. -/
def isActorLine (line : String) : Bool :=
  line.length ≠ 0 && !isMovieLine line

/-- One iteration of the first loop of `parseMovieFile` on a line whose newline
has been removed. -/
def parseLine (heap : Nat → Actor) (st : ParseState) (line : String) : ParseState :=
  if line.length = 0 then st
  else if isMovieLine line then
    { g := { st.g with movies := st.g.movies ++ [{ title := String.mk (line.toList.drop 7), cast := [] }] }
      lastMovie := some st.g.movies.length }
  else
    let r := findOrAddActor st.g.actors line (heap st.g.actors.length)
    let g1 : Graph := { st.g with actors := r.1 }
    match st.lastMovie with
    | some m => { st with g := linkActorMovie g1 r.2 m }
    | none => { st with g := g1 }

/-- The first loop of `parseMovieFile`: the graph built from the lines of the file. -/
def buildGraph (heap : Nat → Actor) (lines : List String) : Graph :=
  (lines.foldl (parseLine heap) { g := { actors := [], movies := [] }, lastMovie := none }).g

/-! ## BFS engine -/

/-- The function `enqueue`: walk to the last node and append. -/
def enqueue (queue : List Queue) (actor : Nat) (parent : Option Nat) (level : Nat) :
    List Queue :=
  queue ++ [{ actor := actor, parent := parent, level := level }]

/-- The function `dequeue`. -/
def dequeue : List Queue → Option (Queue × List Queue)
  | [] => none
  | e :: rest => some (e, rest)

/-- The function `isQueueEmpty`. -/
def isQueueEmpty (queue : List Queue) : Bool := queue.isEmpty

/-- The function `resetVisited`, also the first loop of `calculateBaconScore`. -/
def resetVisited (actors : List Actor) : List Actor :=
  actors.map (fun a => { a with visited := false })

/-- The second reset loop of `calculateBaconScore`. -/
def resetSearch (actors : List Actor) : List Actor :=
  actors.map (fun a => { a with visited := false, parent := none })

/-- Body of the innermost loop of the expansion; `none` is a dangling reference. -/
def visitLinked (currentActor currentLevel : Nat) (s : List Actor × List Queue)
    (linkedActor : Nat) : Option (List Actor × List Queue) :=
  match s.1[linkedActor]? with
  | none => none
  | some a =>
    if a.visited then some s
    else some (s.1.set linkedActor { a with visited := true, parent := some currentActor },
               enqueue s.2 linkedActor (some currentActor) (currentLevel + 1))

/-- The loop over one movie's `alist`. -/
def visitCast (currentActor currentLevel : Nat) :
    List Nat → List Actor × List Queue → Option (List Actor × List Queue)
  | [], s => some s
  | i :: rest, s =>
    match visitLinked currentActor currentLevel s i with
    | none => none
    | some s1 => visitCast currentActor currentLevel rest s1

/-- The loop over the current actor's `mlist`. -/
def visitMovies (movies : List Movie) (currentActor currentLevel : Nat) :
    List Nat → List Actor × List Queue → Option (List Actor × List Queue)
  | [], s => some s
  | m :: rest, s =>
    match movies[m]? with
    | none => none
    | some mv =>
      match visitCast currentActor currentLevel mv.cast s with
      | none => none
      | some s1 => visitMovies movies currentActor currentLevel rest s1

/-- How the `while (!isQueueEmpty(queue))` loop is left. -/
inductive Search where
  | found (actor level : Nat)
  | exhausted
deriving DecidableEq, Repr

/-- The `while (!isQueueEmpty(queue))` loop; `none` when the iteration budget
runs out or a reference is dangling. -/
def bfsLoop (movies : List Movie) (queryActorName : String) :
    Nat → List Actor → List Queue → Option (List Actor × Search)
  | _, actors, [] => some (actors, .exhausted)
  | 0, _, _ :: _ => none
  | fuel + 1, actors, e :: queue =>
    match actors[e.actor]? with
    | none => none
    | some cur =>
      if cur.name = queryActorName then some (actors, .found e.actor e.level)
      else
        match visitMovies movies e.actor e.level cur.movies (actors, queue) with
        | none => none
        | some s => bfsLoop movies queryActorName fuel s.1 s.2

/-! ## Path reconstructor -/

/-- The two nested loops of `printPath`: the first movie of the parent's `mlist`
whose cast holds `actor`. -/
def connectingMovie (movies : List Movie) (actor : Nat) : List Nat → Option (Option Movie)
  | [] => some none
  | m :: rest =>
    match movies[m]? with
    | none => none
    | some mv => if actor ∈ mv.cast then some (some mv) else connectingMovie movies actor rest

/-- The function `printPath`; `none` when the recursion budget runs out or a reference is dangling. -/
def printPath (g : Graph) : Nat → Option Nat → Option (List Printed)
  | _, none => some []
  | 0, some _ => none
  | fuel + 1, some i =>
    match g.actors[i]? with
    | none => none
    | some a =>
      match a.parent with
      | none => some []
      | some p =>
        match g.actors[p]? with
        | none => none
        | some pa =>
          match connectingMovie g.movies i pa.movies with
          | none => none
          | some none => some []
          | some (some mv) =>
            match printPath g fuel (some p) with
            | none => none
            | some rest => some (Printed.hop a.name mv.title :: rest)

/-! ## Query -/

/-- What one call of `calculateBaconScore` leaves behind: the heap, what it wrote
to standard output and to the error stream, and the global `errRet`. -/
structure Result where
  g : Graph
  out : List Printed
  err : List String
  errRet : Int
deriving DecidableEq, Repr

/-- The function `calculateBaconScore`; `none` when the search or the path printing is undefined. -/
def calculateBaconScore (g : Graph) (errRet : Int) (queryActorName : String)
    (lFlag : Bool) : Option Result :=
  let actors1 := resetVisited g.actors
  if queryActorName = "Kevin Bacon" then
    some { g := { g with actors := actors1 }
           out := Printed.score 0 :: (if lFlag then [Printed.kevinBacon] else [])
           err := [], errRet := errRet }
  else
    match findActor actors1 queryActorName with
    | none =>
      some { g := { g with actors := actors1 }, out := []
             err := [noActorMsg queryActorName], errRet := 1 }
    | some _ =>
      let actors2 := resetSearch actors1
      match findActor actors2 "Kevin Bacon" with
      | none =>
        some { g := { g with actors := actors2 }, out := [Printed.noBacon]
               err := [], errRet := errRet }
      | some kb =>
        match actors2[kb]? with
        | none => none
        | some a =>
          let queue := enqueue [] kb none 0
          let actors3 := actors2.set kb { a with visited := true }
          match bfsLoop g.movies queryActorName actors3.length actors3 queue with
          | none => none
          | some (actors4, .exhausted) =>
            some { g := { g with actors := actors4 }, out := [Printed.noBacon]
                   err := [], errRet := errRet }
          | some (actors4, .found actor level) =>
            let g4 : Graph := { g with actors := actors4 }
            if lFlag then
              match printPath g4 actors4.length (some actor) with
              | none => none
              | some path =>
                some { g := g4, out := Printed.score level :: (path ++ [Printed.kevinBacon])
                       err := [], errRet := errRet }
            else
              some { g := g4, out := [Printed.score level], err := [], errRet := errRet }

/-! ## Query loop and exit status -/

/-- State of the process while the second loop of `parseMovieFile` runs. -/
structure World where
  g : Graph
  out : List Printed
  err : List String
  errRet : Int
deriving DecidableEq, Repr

/-- The second loop of `parseMovieFile` over the lines of standard input. -/
def queryLoop (lFlag : Bool) : List String → World → Option World
  | [], w => some w
  | query :: rest, w =>
    if query = "exit" then some w
    else
      match calculateBaconScore w.g w.errRet query lFlag with
      | none => none
      | some r =>
        queryLoop lFlag rest
          { g := r.g, out := w.out ++ r.out, err := w.err ++ r.err, errRet := r.errRet }

/-- The function `parseMovieFile` after a successful `fopen`, with `errRet` initially `0`. -/
def parseMovieFile (heap : Nat → Actor) (lFlag : Bool) (fileLines stdinLines : List String) :
    Option World :=
  queryLoop lFlag stdinLines
    { g := buildGraph heap fileLines, out := [], err := [], errRet := 0 }

/-- The value `main` returns once the input file is open. -/
def exitStatus (heap : Nat → Actor) (lFlag : Bool) (fileLines stdinLines : List String) :
    Option Int :=
  (parseMovieFile heap lFlag fileLines stdinLines).map World.errRet

/-! ## Specification vocabulary -/

/-- Two actors appear in the cast of a common movie. -/
def SharesMovie (movies : List Movie) (a b : Nat) : Prop :=
  ∃ mv ∈ movies, a ∈ mv.cast ∧ b ∈ mv.cast

instance (movies : List Movie) (a b : Nat) : Decidable (SharesMovie movies a b) := by
  unfold SharesMovie
  infer_instance

/-- Chains of hops, `Hops movies s n t`: there are actors `s = x₀, x₁, …, xₙ = t` such that each
consecutive pair appears in the cast of a common movie. -/
inductive Hops (movies : List Movie) (s : Nat) : Nat → Nat → Prop
  | base : Hops movies s 0 s
  | snoc {n u v : Nat} : Hops movies s n u → SharesMovie movies u v → Hops movies s (n + 1) v

/-- Name of the actor at a reference. -/
def nameAt (g : Graph) (i : Nat) : Option String :=
  g.actors[i]?.map Actor.name

/-- A chain of `n` shared-movie hops from an actor named "Kevin Bacon" to an actor named `q`. -/
def BaconChain (g : Graph) (q : String) (n : Nat) : Prop :=
  ∃ s t, nameAt g s = some "Kevin Bacon" ∧ nameAt g t = some q ∧ Hops g.movies s n t

/-- The name `q` is the name of a registered actor. -/
def Registered (g : Graph) (q : String) : Prop :=
  ∃ a ∈ g.actors, a.name = q

instance (g : Graph) (q : String) : Decidable (Registered g q) := by
  unfold Registered
  infer_instance

/-- The actor name that follows the hop at the head of `rest`: the next emitted
name, or the closing line when no hop is left. -/
def nextName (rest : List (String × String)) (last : String) : String :=
  match rest with
  | [] => last
  | h :: _ => h.1

/-- Some movie titled `m` has an actor named `a` and an actor named `b` in its cast. -/
def CoStar (g : Graph) (a m b : String) : Prop :=
  ∃ mv ∈ g.movies, mv.title = m ∧
    (∃ i ∈ mv.cast, nameAt g i = some a) ∧ (∃ j ∈ mv.cast, nameAt g j = some b)

/-- Every hop `(a, m)` of the printed chain is backed by a movie titled `m` whose
cast holds `a` and the actor printed next. -/
def GenuineChain (g : Graph) (last : String) : List (String × String) → Prop
  | [] => True
  | h :: rest => CoStar g h.1 h.2 (nextName rest last) ∧ GenuineChain g last rest

/-- The `printf` calls of a list of hops `(actorName, movieTitle)`. -/
def hopLines (hops : List (String × String)) : List Printed :=
  hops.map (fun h => Printed.hop h.1 h.2)

/-- A `printf` that reports a score: `Score: <n>` or `Score: No Bacon!`. -/
def Printed.isScoreLine : Printed → Bool
  | .score _ => true
  | .noBacon => true
  | _ => false

/-- The three ways a query can be answered. -/
inductive Outcome where
  | score
  | noBacon
  | unknownActor
deriving DecidableEq, Repr

/-- The kind of answer a call produced, read off what it wrote. -/
def Result.outcome (r : Result) : Outcome :=
  match r.out with
  | .score _ :: _ => .score
  | .noBacon :: _ => .noBacon
  | _ => .unknownActor

/-- Content of freshly allocated blocks used in the examples. -/
def heap0 : Nat → Actor :=
  fun _ => { name := "", movies := [], visited := true, parent := some 7 }

/-- The input file of the specification's example. -/
def exLines : List String :=
  ["Movie: Apollo 13", "Kevin Bacon", "Tom Hanks", "Movie: Forrest Gump", "Tom Hanks",
   "Sally Field"]

/-- The graph of the specification's example. -/
def exGraph : Graph := buildGraph heap0 exLines

/-- An input file with an actor line above the first movie line. -/
def orphanLines : List String := ["Orphan", "Movie: Footloose", "Kevin Bacon"]

/-- The query lines the loop processes: those above the first `exit` line. -/
def processed (stdinLines : List String) : List String :=
  stdinLines.takeWhile (fun q => decide (q ≠ "exit"))

/-- What a query writes to standard output and to the error stream on a heap. -/
def answer (g : Graph) (lFlag : Bool) (q : String) : List Printed × List String :=
  match calculateBaconScore g 0 q lFlag with
  | some r => (r.out, r.err)
  | none => ([], [])

/-- A query name that is neither "Kevin Bacon" nor the name of a registered actor. -/
def IsUnknown (g : Graph) (q : String) : Prop :=
  q ≠ "Kevin Bacon" ∧ ¬ Registered g q

instance (g : Graph) (q : String) : Decidable (IsUnknown g q) := by
  unfold IsUnknown
  infer_instance

/-- The heaps `calculateBaconScore` can be called on: the graph built from some
input file, after any queries already answered. -/
def Reached (g : Graph) : Prop :=
  ∃ (heap : Nat → Actor) (lFlag : Bool) (fileLines stdinLines : List String) (w : World),
    parseMovieFile heap lFlag fileLines stdinLines = some w ∧ w.g = g

/-- The fields of an actor cell that no query writes. -/
def Actor.shape (a : Actor) : String × List Nat := (a.name, a.movies)

/-- Well-formed heap: references are in range, the two membership lists mirror
each other, and no two registered actors have the same name. -/
structure WF (actors : List Actor) (movies : List Movie) : Prop where
  movie_lt : ∀ (i : Nat) (a : Actor), actors[i]? = some a → ∀ m ∈ a.movies, m < movies.length
  actor_lt : ∀ (m : Nat) (mv : Movie), movies[m]? = some mv → ∀ i ∈ mv.cast, i < actors.length
  mirror : ∀ (i : Nat) (a : Actor) (m : Nat) (mv : Movie), actors[i]? = some a →
    movies[m]? = some mv → (m ∈ a.movies ↔ i ∈ mv.cast)
  name_inj : ∀ (i j : Nat) (a b : Actor), actors[i]? = some a → actors[j]? = some b →
    a.name = b.name → i = j

/-! ## Search state and invariants (proof vocabulary)

`lev` is a ghost map: the level with which each visited actor was enqueued.
`busy` exempts the actor under expansion from the closure requirement. -/

/-- The actor at `v` has its `visited` flag set. -/
def Vis (actors : List Actor) (v : Nat) : Prop :=
  ∃ a, actors[v]? = some a ∧ a.visited = true

/-- Number of actors whose `visited` flag is clear. -/
def unvisited (actors : List Actor) : Nat :=
  actors.countP (fun a => !a.visited)

/-- Facts that hold at every point of the search. -/
structure Core (movies : List Movie) (q : String) (src n μ : Nat) (busy : Nat → Prop)
    (lev : Nat → Nat) (actors : List Actor) (queue : List Queue) : Prop where
  wf : WF actors movies
  len : actors.length = n
  src_vis : Vis actors src
  src_lev : lev src = 0
  q_vis : ∀ e ∈ queue, Vis actors e.actor ∧ lev e.actor = e.level
  sorted : queue.Pairwise (fun a b => a.level ≤ b.level)
  tree : ∀ (v : Nat) (a : Actor), actors[v]? = some a → a.visited = true →
    (v = src ∧ a.parent = none) ∨
    (∃ p, a.parent = some p ∧ Vis actors p ∧ SharesMovie movies p v ∧ lev v = lev p + 1)
  budget : ∀ v, Vis actors v → lev v + unvisited actors < n
  measure : unvisited actors + queue.length = μ
  closed : ∀ u, Vis actors u → (∀ e ∈ queue, e.actor ≠ u) → ¬ busy u →
    ∀ v, SharesMovie movies u v → Vis actors v ∧ lev v ≤ lev u + 1
  done_name : ∀ (u : Nat) (a : Actor), actors[u]? = some a → a.visited = true →
    (∀ e ∈ queue, e.actor ≠ u) → a.name ≠ q

/-- Invariant of the expansion loops, while the actor `cur` dequeued with level `l` is expanded. -/
structure Mid (movies : List Movie) (q : String) (src n μ cur l : Nat)
    (lev : Nat → Nat) (actors : List Actor) (queue : List Queue) : Prop where
  core : Core movies q src n μ (fun u => u = cur) lev actors queue
  cur_vis : Vis actors cur
  cur_lev : lev cur = l
  range : ∀ e ∈ queue, l ≤ e.level ∧ e.level ≤ l + 1
  lev_le : ∀ v, Vis actors v → lev v ≤ l + 1

/-- Invariant of the `while (!isQueueEmpty(queue))` loop. -/
structure Outer (movies : List Movie) (q : String) (src n μ : Nat)
    (lev : Nat → Nat) (actors : List Actor) (queue : List Queue) : Prop where
  core : Core movies q src n μ (fun _ => False) lev actors queue
  near : ∀ e ∈ queue, ∀ e' ∈ queue, e'.level ≤ e.level + 1
  lev_le : ∀ e ∈ queue, ∀ v, Vis actors v → lev v ≤ e.level + 1

/-- What the invariant says when the loop is left. -/
def Final (movies : List Movie) (q : String) (src n : Nat) (actors : List Actor) :
    Search → Prop
  | .exhausted => ∃ lev μ, Outer movies q src n μ lev actors []
  | .found t l => ∃ lev μ par rest a,
      Outer movies q src n μ lev actors ({ actor := t, parent := par, level := l } :: rest) ∧
      actors[t]? = some a ∧ a.name = q

/-- What the search yields, in terms of the heap it started from. -/
def SearchPost (movies : List Movie) (q : String) (kb : Nat) (kbName : String)
    (actors2 actors4 : List Actor) : Search → Prop
  | .exhausted => ∀ (k v : Nat) (b : Actor), Hops movies kb k v → actors2[v]? = some b → b.name ≠ q
  | .found t l => ∃ b, actors2[t]? = some b ∧ b.name = q ∧ Hops movies kb l t ∧
      (∀ k, Hops movies kb k t → l ≤ k) ∧
      ∃ hops : List (String × String),
        printPath { actors := actors4, movies := movies } actors4.length (some t)
          = some (hopLines hops) ∧
        hops.length = l ∧
        GenuineChain { actors := actors4, movies := movies } kbName hops ∧
        nextName hops kbName = q

/-- Invariant of the first loop of `parseMovieFile`. -/
structure ParseInv (st : ParseState) : Prop where
  wf : WF st.g.actors st.g.movies
  last_lt : ∀ m, st.lastMovie = some m → m < st.g.movies.length

/-! ## Vocabulary of the graph store, the file format and the query loop -/

/-- The heap of the examples with other content in the search fields. -/
def exGraphAlt : Graph :=
  buildGraph (fun _ => { name := "", movies := [], visited := false, parent := none }) exLines

/-- Calls of `calculateBaconScore` on each line of a list, once each and in order. -/
def runAll (lFlag : Bool) : List String → World → Option World
  | [], w => some w
  | query :: rest, w =>
    match calculateBaconScore w.g w.errRet query lFlag with
    | none => none
    | some r =>
      runAll lFlag rest
        { g := r.g, out := w.out ++ r.out, err := w.err ++ r.err, errRet := r.errRet }

/-- A sequence of `findOrAddActor` calls on a registry, one per name. -/
def addActors (heap : Nat → Actor) (names : List String) (actors : List Actor) : List Actor :=
  names.foldl (fun acc name => (findOrAddActor acc name (heap acc.length)).1) actors

/-- A heap with one actor and one movie, not yet linked. -/
def pairGraph : Graph :=
  { actors := [{ name := "Kevin Bacon", movies := [], visited := false, parent := none }]
    movies := [{ title := "Footloose", cast := [] }] }

/-- The movie list of the actor at a reference (empty when there is no such actor). -/
def moviesOf (g : Graph) (i : Nat) : List Nat :=
  (g.actors[i]?.map Actor.movies).getD []

/-- The cast list of the movie at a reference (empty when there is no such movie). -/
def castOf (g : Graph) (m : Nat) : List Nat :=
  (g.movies[m]?.map Movie.cast).getD []

/-- The two membership lists hold each actor-movie pair equally often. -/
def CountsAgree (g : Graph) : Prop :=
  ∀ i m : Nat, (moviesOf g i).count m = (castOf g m).count i

/-- Name of the actor at a reference (empty when there is no such actor). -/
def nameD (g : Graph) (i : Nat) : String :=
  (nameAt g i).getD ""

/-- The movies of a heap in registration order, each as its title and the names of
its cast in list order. -/
def castNames (g : Graph) : List (String × List String) :=
  g.movies.map (fun mv => (mv.title, mv.cast.map (nameD g)))

/-- The remainder of a line after its first seven characters. -/
def lineTitle (line : String) : String :=
  String.mk (line.toList.drop 7)

/-- The file format in the specification's words, one line at a time: a blank line
is ignored; a line with the prefix `Movie: ` starts a new movie titled with the
remainder of the line; any other line is an actor name attached to the most
recently declared movie, or to nothing when no movie is declared yet. -/
def blockStep (bs : List (String × List String)) (line : String) :
    List (String × List String) :=
  if line.length = 0 then bs
  else if isMovieLine line then bs ++ [(lineTitle line, [])]
  else List.modify (fun b => (b.1, line :: b.2)) (bs.length - 1) bs

/-- The movie blocks an input file declares, in file order, each with the names
listed under it, the most recently listed first. -/
def blocks (lines : List String) : List (String × List String) :=
  lines.foldl blockStep []

/-- The parser state after a prefix of the input file. -/
def parsePrefix (heap : Nat → Actor) (lines : List String) : ParseState :=
  lines.foldl (parseLine heap) { g := { actors := [], movies := [] }, lastMovie := none }

/-- Invariant of the first loop of `parseMovieFile` against the blocks read so far. -/
structure BlockInv (st : ParseState) (bs : List (String × List String)) : Prop where
  inv : ParseInv st
  names : castNames st.g = bs
  last : st.lastMovie =
    if st.g.movies.length = 0 then none else some (st.g.movies.length - 1)

/-- What one run of the search loop did: the heap and the result it left, the
entries it took from the queue in order, the expansions it performed (the entry
expanded with the heap and the rest of the queue at that moment), and the entries
still waiting in the queue when it stopped. -/
structure Run where
  actors : List Actor
  search : Search
  dequeued : List Queue
  expanded : List (Queue × List Actor × List Queue)
  waiting : List Queue

/-- The loop `bfsLoop` with a record of its iterations. -/
def bfsRun (movies : List Movie) (queryActorName : String) :
    Nat → List Actor → List Queue → Option Run
  | _, actors, [] =>
    some { actors := actors, search := .exhausted, dequeued := [], expanded := [], waiting := [] }
  | 0, _, _ :: _ => none
  | fuel + 1, actors, e :: queue =>
    match actors[e.actor]? with
    | none => none
    | some cur =>
      if cur.name = queryActorName then
        some { actors := actors, search := .found e.actor e.level, dequeued := [e],
               expanded := [], waiting := queue }
      else
        match visitMovies movies e.actor e.level cur.movies (actors, queue) with
        | none => none
        | some s =>
          match bfsRun movies queryActorName fuel s.1 s.2 with
          | none => none
          | some r =>
            some { r with dequeued := e :: r.dequeued
                          expanded := (e, actors, queue) :: r.expanded }

/-- The heap and the queue with which `calculateBaconScore` enters its search loop:
search fields reset, the actor named "Kevin Bacon" marked and enqueued at level 0;
`none` when no such actor is registered. -/
def searchStart (g : Graph) : Option (List Actor × List Queue) :=
  match findActor (resetSearch (resetVisited g.actors)) "Kevin Bacon" with
  | none => none
  | some kb =>
    match (resetSearch (resetVisited g.actors))[kb]? with
    | none => none
    | some a =>
      some ((resetSearch (resetVisited g.actors)).set kb { a with visited := true },
        enqueue [] kb none 0)

/-- How an expansion changes the state: entries are appended to the queue, one per
newly marked actor; cells of visited actors and of actors left unvisited are kept. -/
structure Grows (cur lvl : Nat) (s s1 : List Actor × List Queue) : Prop where
  added : ∃ added : List Queue, s1.2 = s.2 ++ added ∧ (added.map Queue.actor).Nodup ∧
    ∀ x ∈ added, ¬ Vis s.1 x.actor ∧ Vis s1.1 x.actor ∧ x.level = lvl + 1
  mono : ∀ v, Vis s.1 v → Vis s1.1 v
  frozen : ∀ (v : Nat) (a : Actor), s.1[v]? = some a → a.visited = true → s1.1[v]? = some a
  fresh : ∀ (v : Nat) (b : Actor), s1.1[v]? = some b → ¬ Vis s.1 v → b.visited = true →
    b.parent = some cur
  untouched : ∀ (v : Nat) (b : Actor), s1.1[v]? = some b → b.visited = false →
    s.1[v]? = some b

/-- What a recorded run guarantees, relative to the state it started from. -/
structure RunPost (actors : List Actor) (queue : List Queue) (run : Run) :
    Prop where
  added : ∃ added : List Queue, run.dequeued ++ run.waiting = queue ++ added ∧
    (added.map Queue.actor).Nodup ∧
    ∀ x ∈ added, ¬ Vis actors x.actor ∧ Vis run.actors x.actor
  sorted : (run.dequeued ++ run.waiting).Pairwise (fun a b => a.level ≤ b.level)
  above : ∀ x ∈ run.dequeued ++ run.waiting, ∀ lo : Nat, (∀ y ∈ queue, lo ≤ y.level) →
    lo ≤ x.level
  mono : ∀ v, Vis actors v → Vis run.actors v
  frozen : ∀ (v : Nat) (a : Actor), actors[v]? = some a → a.visited = true →
    run.actors[v]? = some a
  untouched : ∀ (v : Nat) (b : Actor), run.actors[v]? = some b → b.visited = false →
    actors[v]? = some b

/-- The heap and the queue of the example graph when the search loop is entered. -/
def exStart : List Actor × List Queue :=
  ([{ name := "Kevin Bacon", movies := [0], visited := true, parent := none },
    { name := "Tom Hanks", movies := [1, 0], visited := false, parent := none },
    { name := "Sally Field", movies := [1], visited := false, parent := none }],
   [{ actor := 0, parent := none, level := 0 }])

/-- One execution of the body of `if (!linkedActor->visited)` in the search loop:
the actor that was marked, the actor under expansion that was written in its
parent field, and the movie whose cast the inner loop was iterating. -/
structure Discovery where
  actor : Nat
  parent : Nat
  movie : Nat
deriving DecidableEq, Repr

/-- Body of the innermost loop of the expansion, as `visitLinked`, keeping a log of
the executions of its `if` body; `movie` is the movie of the `mlist` node the
outer loop is at. -/
def visitLinkedLog (currentActor currentLevel movie : Nat)
    (s : (List Actor × List Queue) × List Discovery) (linkedActor : Nat) :
    Option ((List Actor × List Queue) × List Discovery) :=
  match s.1.1[linkedActor]? with
  | none => none
  | some a =>
    if a.visited then some s
    else some ((s.1.1.set linkedActor { a with visited := true, parent := some currentActor },
                enqueue s.1.2 linkedActor (some currentActor) (currentLevel + 1)),
               s.2 ++ [{ actor := linkedActor, parent := currentActor, movie := movie }])

/-- The loop over one movie's `alist`, with the log. -/
def visitCastLog (currentActor currentLevel movie : Nat) :
    List Nat → (List Actor × List Queue) × List Discovery →
      Option ((List Actor × List Queue) × List Discovery)
  | [], s => some s
  | i :: rest, s =>
    match visitLinkedLog currentActor currentLevel movie s i with
    | none => none
    | some s1 => visitCastLog currentActor currentLevel movie rest s1

/-- The loop over the current actor's `mlist`, with the log. -/
def visitMoviesLog (movies : List Movie) (currentActor currentLevel : Nat) :
    List Nat → (List Actor × List Queue) × List Discovery →
      Option ((List Actor × List Queue) × List Discovery)
  | [], s => some s
  | m :: rest, s =>
    match movies[m]? with
    | none => none
    | some mv =>
      match visitCastLog currentActor currentLevel m mv.cast s with
      | none => none
      | some s1 => visitMoviesLog movies currentActor currentLevel rest s1

/-- What one run of the search loop left and did: the heap and the result, the
actors it expanded, in dequeue order, and the discoveries, in the order in which
they happened. -/
structure Trace where
  actors : List Actor
  search : Search
  expanded : List Nat
  log : List Discovery

/-- The `while (!isQueueEmpty(queue))` loop, as `bfsLoop`, with the log of its
expansions and of the discoveries made in them. -/
def bfsTrace (movies : List Movie) (queryActorName : String) :
    Nat → List Actor → List Queue → Option Trace
  | _, actors, [] => some { actors := actors, search := .exhausted, expanded := [], log := [] }
  | 0, _, _ :: _ => none
  | fuel + 1, actors, e :: queue =>
    match actors[e.actor]? with
    | none => none
    | some cur =>
      if cur.name = queryActorName then
        some { actors := actors, search := .found e.actor e.level, expanded := [], log := [] }
      else
        match visitMoviesLog movies e.actor e.level cur.movies ((actors, queue), []) with
        | none => none
        | some s =>
          match bfsTrace movies queryActorName fuel s.1.1 s.1.2 with
          | none => none
          | some r =>
            some { actors := r.actors, search := r.search, expanded := e.actor :: r.expanded,
                   log := s.2 ++ r.log }

/-- The actor `A` is in the cast of the movie `m`, and in the cast of no movie that
comes before `m` in the list `ml`. -/
def FirstWith (movies : List Movie) (A : Nat) (ml : List Nat) (m : Nat) : Prop :=
  ∃ (pre post : List Nat) (mv : Movie), ml = pre ++ m :: post ∧ movies[m]? = some mv ∧
    A ∈ mv.cast ∧ ∀ m1 ∈ pre, ∃ mv1, movies[m1]? = some mv1 ∧ A ∉ mv1.cast

/-- No movie of the list `ml` has the actor `A` in its cast. -/
def NoneWith (movies : List Movie) (A : Nat) (ml : List Nat) : Prop :=
  ∀ m1 ∈ ml, ∃ mv1, movies[m1]? = some mv1 ∧ A ∉ mv1.cast

/-- What the log of one expansion holds, from the state `s` to the state `s1`. -/
structure ExpandLog (movies : List Movie) (cur : Nat) (ml : List Nat)
    (s s1 : List Actor × List Queue) (new : List Discovery) : Prop where
  nodup : (new.map Discovery.actor).Nodup
  events : ∀ d ∈ new, d.parent = cur ∧ ¬ Vis s.1 d.actor ∧ Vis s1.1 d.actor ∧
    FirstWith movies d.actor ml d.movie
  complete : ∀ v, ¬ Vis s.1 v → Vis s1.1 v → ∃ d ∈ new, d.actor = v
  covers : ∀ v, ¬ Vis s1.1 v → NoneWith movies v ml

/-- What a traced run guarantees, relative to the heap it started from. -/
structure TracePost (movies : List Movie) (actors : List Actor) (tr : Trace) : Prop where
  nodup : (tr.log.map Discovery.actor).Nodup
  frozen : ∀ (v : Nat) (a : Actor), actors[v]? = some a → a.visited = true →
    tr.actors[v]? = some a
  complete : ∀ (A : Nat) (b : Actor), tr.actors[A]? = some b → b.visited = true →
    ¬ Vis actors A → ∃ d ∈ tr.log, d.actor = A
  events : ∀ d ∈ tr.log, ¬ Vis actors d.actor ∧
    ∃ (a pa : Actor), tr.actors[d.actor]? = some a ∧ a.parent = some d.parent ∧
      tr.actors[d.parent]? = some pa ∧ d.parent ∈ tr.expanded ∧
      FirstWith movies d.actor pa.movies d.movie ∧
      ∀ (pre1 post1 : List Nat), tr.expanded = pre1 ++ d.parent :: post1 → d.parent ∉ pre1 →
        ∀ P1 ∈ pre1, ∀ c, tr.actors[P1]? = some c → NoneWith movies d.actor c.movies

/-- An input file in which Kevin Bacon and one other actor share two movies. -/
def twoMovieLines : List String :=
  ["Movie: First", "Kevin Bacon", "Ann", "Movie: Second", "Kevin Bacon", "Ann"]

/-- The graph of `twoMovieLines`. -/
def twoMovieGraph : Graph := buildGraph heap0 twoMovieLines

/-- The heap and the queue of `twoMovieGraph` when the search loop is entered. -/
def twoMovieStart : List Actor × List Queue :=
  ([{ name := "Kevin Bacon", movies := [1, 0], visited := true, parent := none },
    { name := "Ann", movies := [1, 0], visited := false, parent := none }],
   [{ actor := 0, parent := none, level := 0 }])

/-! ## Registry lookup -/

theorem findActor_append (l : List Actor) (a : Actor) (name : String) :
    findActor (l ++ [a]) name = if a.name = name then some l.length else findActor l name := by
  simp [findActor, scanName]

theorem findActor_nil (name : String) : findActor [] name = none := rfl

theorem findActor_some {l : List Actor} {name : String} {i : Nat}
    (h : findActor l name = some i) : ∃ a, l[i]? = some a ∧ a.name = name := by
  induction l using List.reverseRecOn with
  | nil => simp [findActor_nil] at h
  | append_singleton l a ih =>
    rw [findActor_append] at h
    split at h
    · rename_i hn
      cases h
      exact ⟨a, by simp, hn⟩
    · obtain ⟨b, hb, hbn⟩ := ih h
      have hi : i < l.length := (List.getElem?_eq_some.mp hb).1
      exact ⟨b, by rw [List.getElem?_append_left hi]; exact hb, hbn⟩

theorem findActor_none {l : List Actor} {name : String} :
    findActor l name = none ↔ ∀ a ∈ l, a.name ≠ name := by
  induction l using List.reverseRecOn with
  | nil => simp [findActor_nil]
  | append_singleton l a ih =>
    rw [findActor_append]
    by_cases hn : a.name = name
    · simp [hn]
      exact ⟨a, Or.inr rfl, hn⟩
    · simp only [hn, if_false, ih, List.mem_append, List.mem_singleton]
      constructor
      · rintro h b (hb | rfl)
        · exact h b hb
        · exact hn
      · intro h b hb
        exact h b (Or.inl hb)

theorem findActor_names {l l' : List Actor} (name : String)
    (h : l.map Actor.name = l'.map Actor.name) : findActor l name = findActor l' name := by
  induction l using List.reverseRecOn generalizing l' with
  | nil =>
    have : l' = [] := by simpa using h.symm
    rw [this]
  | append_singleton l a ih =>
    rcases List.eq_nil_or_concat l' with rfl | ⟨l2, b, rfl⟩
    · simp at h
    · simp only [List.concat_eq_append, List.map_append, List.map_cons, List.map_nil] at h
      have hlen : (l.map Actor.name).length = (l2.map Actor.name).length := by
        have := congrArg List.length h
        simpa using this
      obtain ⟨h1, h2⟩ := List.append_inj h hlen
      have h3 : a.name = b.name := by simpa using h2
      have h4 : l.length = l2.length := by simpa using hlen
      rw [List.concat_eq_append, findActor_append, findActor_append, ih h1, h3, h4]

theorem findActor_of_mem {l : List Actor} {movies : List Movie} (hwf : WF l movies)
    {i : Nat} {a : Actor} (h : l[i]? = some a) : findActor l a.name = some i := by
  cases hf : findActor l a.name with
  | none =>
    exact absurd rfl (findActor_none.mp hf a (List.mem_iff_getElem?.mpr ⟨i, h⟩))
  | some j =>
    obtain ⟨b, hb, hbn⟩ := findActor_some hf
    rw [hwf.name_inj j i b a hb h hbn]

/-! ## Well-formedness of every heap the parser builds -/

theorem getElem?_snoc_cases {α : Type} {l : List α} {x a : α} {i : Nat}
    (h : (l ++ [x])[i]? = some a) : l[i]? = some a ∨ (i = l.length ∧ a = x) := by
  rw [List.getElem?_append] at h
  split at h
  · exact Or.inl h
  · rename_i hlt
    have hi : i - l.length = 0 := by
      by_contra hne
      have : 1 ≤ i - l.length := Nat.one_le_iff_ne_zero.mpr hne
      rw [List.getElem?_eq_none (by simpa using this)] at h
      cases h
    rw [hi] at h
    simp at h
    exact Or.inr ⟨by omega, h.symm⟩

theorem getElem?_modify_cases {α : Type} {f : α → α} {l : List α} {a : α} {i j : Nat}
    (h : (List.modify f i l)[j]? = some a) :
    ∃ a0, l[j]? = some a0 ∧ a = if i = j then f a0 else a0 := by
  rw [List.getElem?_modify] at h
  cases hl : l[j]? with
  | none => rw [hl] at h; cases h
  | some a0 =>
    rw [hl] at h
    refine ⟨a0, rfl, ?_⟩
    simpa using h.symm

theorem lt_of_getElem? {α : Type} {l : List α} {i : Nat} {a : α} (h : l[i]? = some a) :
    i < l.length := (List.getElem?_eq_some.mp h).1

theorem WF_nil : WF [] [] where
  movie_lt := by intro i a h; simp at h
  actor_lt := by intro m mv h; simp at h
  mirror := by intro i a m mv h; simp at h
  name_inj := by intro i j a b h; simp at h

theorem WF_addMovie {actors : List Actor} {movies : List Movie} (h : WF actors movies)
    (title : String) : WF actors (movies ++ [{ title := title, cast := [] }]) where
  movie_lt := by
    intro i a ha m hm
    have := h.movie_lt i a ha m hm
    simp only [List.length_append, List.length_singleton]
    omega
  actor_lt := by
    intro m mv hmv i hi
    rcases getElem?_snoc_cases hmv with h1 | ⟨_, rfl⟩
    · exact h.actor_lt m mv h1 i hi
    · simp at hi
  mirror := by
    intro i a m mv ha hmv
    rcases getElem?_snoc_cases hmv with h1 | ⟨hm, rfl⟩
    · exact h.mirror i a m mv ha h1
    · constructor
      · intro hmem
        have := h.movie_lt i a ha m hmem
        omega
      · intro hmem
        simp at hmem
  name_inj := h.name_inj

theorem WF_addActor {actors : List Actor} {movies : List Movie} (h : WF actors movies)
    (fresh : Actor) {name : String} (hnew : ∀ a ∈ actors, a.name ≠ name) :
    WF (actors ++ [{ fresh with name := name, movies := [] }]) movies where
  movie_lt := by
    intro i a ha m hm
    rcases getElem?_snoc_cases ha with h1 | ⟨_, rfl⟩
    · exact h.movie_lt i a h1 m hm
    · simp at hm
  actor_lt := by
    intro m mv hmv i hi
    have := h.actor_lt m mv hmv i hi
    simp only [List.length_append, List.length_singleton]
    omega
  mirror := by
    intro i a m mv ha hmv
    rcases getElem?_snoc_cases ha with h1 | ⟨hi, rfl⟩
    · exact h.mirror i a m mv h1 hmv
    · constructor
      · intro hmem
        simp at hmem
      · intro hmem
        have := h.actor_lt m mv hmv i hmem
        omega
  name_inj := by
    intro i j a b ha hb hab
    rcases getElem?_snoc_cases ha with h1 | ⟨hi, rfl⟩
    · rcases getElem?_snoc_cases hb with h2 | ⟨hj, rfl⟩
      · exact h.name_inj i j a b h1 h2 hab
      · exact absurd hab (hnew a (List.mem_iff_getElem?.mpr ⟨i, h1⟩))
    · rcases getElem?_snoc_cases hb with h2 | ⟨hj, rfl⟩
      · exact absurd hab.symm (hnew b (List.mem_iff_getElem?.mpr ⟨j, h2⟩))
      · omega

theorem WF_link {actors : List Actor} {movies : List Movie} (h : WF actors movies)
    {i0 m0 : Nat} (hi0 : i0 < actors.length) (hm0 : m0 < movies.length) :
    WF (linkActorMovie { actors := actors, movies := movies } i0 m0).actors
      (linkActorMovie { actors := actors, movies := movies } i0 m0).movies where
  movie_lt := by
    intro i a ha m hm
    simp only [linkActorMovie, List.length_modify] at ha ⊢
    obtain ⟨a0, ha0, rfl⟩ := getElem?_modify_cases ha
    split at hm
    · simp only [List.mem_cons] at hm
      rcases hm with rfl | hm
      · exact hm0
      · exact h.movie_lt i a0 ha0 m hm
    · exact h.movie_lt i a0 ha0 m hm
  actor_lt := by
    intro m mv hmv i hi
    simp only [linkActorMovie, List.length_modify] at hmv ⊢
    obtain ⟨mv0, hmv0, rfl⟩ := getElem?_modify_cases hmv
    split at hi
    · simp only [List.mem_cons] at hi
      rcases hi with rfl | hi
      · exact hi0
      · exact h.actor_lt m mv0 hmv0 i hi
    · exact h.actor_lt m mv0 hmv0 i hi
  mirror := by
    intro i a m mv ha hmv
    simp only [linkActorMovie] at ha hmv
    obtain ⟨a0, ha0, rfl⟩ := getElem?_modify_cases ha
    obtain ⟨mv0, hmv0, rfl⟩ := getElem?_modify_cases hmv
    have hmir := h.mirror i a0 m mv0 ha0 hmv0
    by_cases hi : i0 = i <;> by_cases hm : m0 = m
    · simp [hi, hm]
    · have hm2 : ¬ m = m0 := fun e => hm e.symm
      simp [hi, hm, hm2]
      rw [← hi] at hmir ⊢
      exact hmir
    · have hi2 : ¬ i = i0 := fun e => hi e.symm
      simp [hi, hm, hi2]
      rw [← hm] at hmir ⊢
      exact hmir
    · simp [hi, hm]
      exact hmir
  name_inj := by
    intro i j a b ha hb hab
    simp only [linkActorMovie] at ha hb
    obtain ⟨a0, ha0, rfl⟩ := getElem?_modify_cases ha
    obtain ⟨b0, hb0, rfl⟩ := getElem?_modify_cases hb
    refine h.name_inj i j a0 b0 ha0 hb0 ?_
    have e1 : ∀ (c : Prop) [Decidable c] (x : Actor) (k : Nat),
        (if c then ({ x with movies := k :: x.movies } : Actor) else x).name = x.name := by
      intro c _ x k; split <;> rfl
    rw [e1, e1] at hab
    exact hab

/-! ## Fields that queries never write -/

theorem shape_length {l l' : List Actor} (h : l'.map Actor.shape = l.map Actor.shape) :
    l'.length = l.length := by
  simpa using congrArg List.length h

theorem shape_getElem? {l l' : List Actor} (h : l'.map Actor.shape = l.map Actor.shape)
    {i : Nat} {a' : Actor} (ha : l'[i]? = some a') :
    ∃ a, l[i]? = some a ∧ a.name = a'.name ∧ a.movies = a'.movies := by
  have h1 : (l'.map Actor.shape)[i]? = (l.map Actor.shape)[i]? := by rw [h]
  rw [List.getElem?_map, List.getElem?_map, ha] at h1
  cases hl : l[i]? with
  | none => rw [hl] at h1; cases h1
  | some a =>
    rw [hl] at h1
    simp only [Option.map_some', Option.some.injEq, Actor.shape, Prod.mk.injEq] at h1
    exact ⟨a, rfl, h1.1.symm, h1.2.symm⟩

theorem shape_names {l l' : List Actor} (h : l'.map Actor.shape = l.map Actor.shape) :
    l'.map Actor.name = l.map Actor.name := by
  have := congrArg (List.map Prod.fst) h
  simpa [List.map_map, Function.comp_def, Actor.shape] using this

theorem WF_shape {l l' : List Actor} {movies : List Movie}
    (h : l'.map Actor.shape = l.map Actor.shape) (hw : WF l movies) : WF l' movies where
  movie_lt := by
    intro i a' ha' m hm
    obtain ⟨a, ha, _, hmv⟩ := shape_getElem? h ha'
    exact hw.movie_lt i a ha m (hmv ▸ hm)
  actor_lt := by
    intro m mv hmv i hi
    rw [shape_length h]
    exact hw.actor_lt m mv hmv i hi
  mirror := by
    intro i a' m mv ha' hmv
    obtain ⟨a, ha, _, hmovies⟩ := shape_getElem? h ha'
    rw [← hmovies]
    exact hw.mirror i a m mv ha hmv
  name_inj := by
    intro i j a' b' ha' hb' hab
    obtain ⟨a, ha, hna, _⟩ := shape_getElem? h ha'
    obtain ⟨b, hb, hnb, _⟩ := shape_getElem? h hb'
    exact hw.name_inj i j a b ha hb (by rw [hna, hnb, hab])

theorem shape_set {l : List Actor} {i : Nat} {a a' : Actor} (ha : l[i]? = some a)
    (hs : a'.shape = a.shape) : (l.set i a').map Actor.shape = l.map Actor.shape := by
  apply List.ext_getElem?
  intro j
  rw [List.getElem?_map, List.getElem?_map, List.getElem?_set]
  by_cases hij : i = j
  · subst hij
    simp [lt_of_getElem? ha, ha, hs]
  · simp [hij]

theorem shape_resetVisited (l : List Actor) :
    (resetVisited l).map Actor.shape = l.map Actor.shape := by
  simp [resetVisited, List.map_map, Function.comp_def, Actor.shape]

theorem shape_resetSearch (l : List Actor) :
    (resetSearch l).map Actor.shape = l.map Actor.shape := by
  simp [resetSearch, List.map_map, Function.comp_def, Actor.shape]

theorem unvisited_set {l : List Actor} {i : Nat} {a a' : Actor} (ha : l[i]? = some a)
    (hv : a.visited = false) (hv' : a'.visited = true) :
    unvisited (l.set i a') + 1 = unvisited l := by
  induction l generalizing i with
  | nil => simp at ha
  | cons x xs ih =>
    cases i with
    | zero =>
      simp only [List.getElem?_cons_zero, Option.some.injEq] at ha
      subst ha
      simp [unvisited, List.countP_cons, hv, hv']
    | succ k =>
      simp only [List.getElem?_cons_succ] at ha
      have := ih ha
      simp only [unvisited, List.set_cons_succ, List.countP_cons] at this ⊢
      omega

theorem Vis_set {l : List Actor} {i : Nat} {a a' : Actor} (ha : l[i]? = some a)
    (hv' : a'.visited = true) (v : Nat) :
    Vis (l.set i a') v ↔ (v = i ∨ Vis l v) := by
  unfold Vis
  rw [List.getElem?_set]
  by_cases hiv : i = v
  · subst hiv
    simp [lt_of_getElem? ha, hv']
  · have : ¬ v = i := fun e => hiv e.symm
    simp [hiv, this]

theorem unvisited_resetSearch (l : List Actor) : unvisited (resetSearch l) = l.length := by
  induction l with
  | nil => rfl
  | cons x xs ih =>
    simp only [unvisited, resetSearch, List.map_cons, List.countP_cons, List.length_cons] at ih ⊢
    simp [ih]

theorem shares_lt {actors : List Actor} {movies : List Movie} (hw : WF actors movies)
    {u v : Nat} (h : SharesMovie movies u v) : v < actors.length := by
  obtain ⟨mv, hmv, _, hv⟩ := h
  obtain ⟨m, hm⟩ := List.mem_iff_getElem?.mp hmv
  exact hw.actor_lt m mv hm v hv

theorem visitLinked_mid {movies : List Movie} {q : String} {src n μ cur l : Nat}
    {lev : Nat → Nat} {s : List Actor × List Queue}
    (h : Mid movies q src n μ cur l lev s.1 s.2) {i : Nat} (hi : SharesMovie movies cur i) :
    ∃ s1 lev1, visitLinked cur l s i = some s1 ∧ Mid movies q src n μ cur l lev1 s1.1 s1.2 ∧
      Vis s1.1 i ∧ (∀ v, Vis s.1 v → Vis s1.1 v) := by
  obtain ⟨actors, queue⟩ := s
  simp only at h
  have hin : i < actors.length := shares_lt h.core.wf hi
  obtain ⟨a, ha⟩ : ∃ a, actors[i]? = some a := ⟨actors[i], List.getElem?_eq_getElem hin⟩
  by_cases hv : a.visited = true
  · refine ⟨(actors, queue), lev, ?_, h, ⟨a, ha, hv⟩, fun v hv => hv⟩
    simp [visitLinked, ha, hv]
  · have hvf : a.visited = false := by simpa using hv
    let a1 : Actor := { a with visited := true, parent := some cur }
    have hstep : visitLinked cur l (actors, queue) i =
        some (actors.set i a1, enqueue queue i (some cur) (l + 1)) := by
      simp [visitLinked, ha, hvf, a1]
    have hVis : ∀ v, Vis (actors.set i a1) v ↔ (v = i ∨ Vis actors v) :=
      fun v => Vis_set ha rfl v
    have hnv : ¬ Vis actors i := by
      rintro ⟨b, hb, hbv⟩
      rw [ha] at hb
      cases hb
      exact hv hbv
    have hne : ∀ v, Vis actors v → v ≠ i := by
      rintro v hvv rfl
      exact hnv hvv
    have hlev : ∀ v, v ≠ i → Function.update lev i (l + 1) v = lev v :=
      fun v hvi => Function.update_noteq hvi _ _
    have hlevi : Function.update lev i (l + 1) i = l + 1 := Function.update_same _ _ _
    have hget : ∀ (v : Nat) (b : Actor), (actors.set i a1)[v]? = some b →
        (v = i ∧ b = a1) ∨ (v ≠ i ∧ actors[v]? = some b) := by
      intro v b hb
      rw [List.getElem?_set] at hb
      by_cases hiv : i = v
      · subst hiv
        simp only [if_true, hin] at hb
        exact Or.inl ⟨rfl, (Option.some.inj hb).symm⟩
      · simp only [hiv, if_false] at hb
        exact Or.inr ⟨fun e => hiv e.symm, hb⟩
    have hun : unvisited (actors.set i a1) + 1 = unvisited actors := unvisited_set ha hvf rfl
    have hcur_ne : cur ≠ i := hne cur h.cur_vis
    refine ⟨_, Function.update lev i (l + 1), hstep, ?_, (hVis i).mpr (Or.inl rfl),
      fun v hvv => (hVis v).mpr (Or.inr hvv)⟩
    refine ⟨?_, (hVis cur).mpr (Or.inr h.cur_vis), ?_, ?_, ?_⟩
    · constructor
      · exact WF_shape (shape_set ha rfl) h.core.wf
      · simp only [List.length_set]
        exact h.core.len
      · exact (hVis src).mpr (Or.inr h.core.src_vis)
      · rw [hlev src (hne src h.core.src_vis)]
        exact h.core.src_lev
      · intro e he
        simp only [enqueue, List.mem_append, List.mem_singleton] at he
        rcases he with he | rfl
        · obtain ⟨h1, h2⟩ := h.core.q_vis e he
          exact ⟨(hVis _).mpr (Or.inr h1), by rw [hlev _ (hne _ h1)]; exact h2⟩
        · exact ⟨(hVis _).mpr (Or.inl rfl), hlevi⟩
      · simp only [enqueue]
        rw [List.pairwise_append]
        refine ⟨h.core.sorted, List.pairwise_singleton _ _, ?_⟩
        intro e he e' he'
        simp only [List.mem_singleton] at he'
        subst he'
        exact (h.range e he).2
      · intro v b hb hbv
        rcases hget v b hb with ⟨rfl, rfl⟩ | ⟨hvi, hb0⟩
        · right
          refine ⟨cur, rfl, (hVis cur).mpr (Or.inr h.cur_vis), hi, ?_⟩
          rw [hlevi, hlev cur hcur_ne, h.cur_lev]
        · rcases h.core.tree v b hb0 hbv with h1 | ⟨p, hp, hpv, hps, hpl⟩
          · exact Or.inl h1
          · right
            refine ⟨p, hp, (hVis p).mpr (Or.inr hpv), hps, ?_⟩
            rw [hlev v hvi, hlev p (hne p hpv)]
            exact hpl
      · intro v hvv
        dsimp only at hvv ⊢
        rcases (hVis v).mp hvv with rfl | hvo
        · have := h.core.budget cur h.cur_vis
          rw [h.cur_lev] at this
          rw [hlevi]
          omega
        · have := h.core.budget v hvo
          rw [hlev v (hne v hvo)]
          omega
      · have := h.core.measure
        simp only [enqueue, List.length_append, List.length_singleton]
        omega
      · intro u hu hq hb v hs
        have hui : u ≠ i := by
          intro e
          exact hq ⟨i, some cur, l + 1⟩ (by simp [enqueue]) e.symm
        have huo : Vis actors u := by
          rcases (hVis u).mp hu with e | h1
          · exact absurd e hui
          · exact h1
        have hq0 : ∀ e ∈ queue, e.actor ≠ u := fun e he => hq e (by simp [enqueue, he])
        obtain ⟨h1, h2⟩ := h.core.closed u huo hq0 hb v hs
        refine ⟨(hVis v).mpr (Or.inr h1), ?_⟩
        rw [hlev v (hne v h1), hlev u hui]
        exact h2
      · intro u b hb hbv hq
        have hq0 : ∀ e ∈ queue, e.actor ≠ u := fun e he => hq e (by simp [enqueue, he])
        rcases hget u b hb with ⟨rfl, _⟩ | ⟨_, hb0⟩
        · exact absurd rfl (hq ⟨u, some cur, l + 1⟩ (by simp [enqueue]))
        · exact h.core.done_name u b hb0 hbv hq0
    · rw [hlev cur hcur_ne]
      exact h.cur_lev
    · intro e he
      simp only [enqueue, List.mem_append, List.mem_singleton] at he
      rcases he with he | rfl
      · exact h.range e he
      · exact ⟨Nat.le_succ l, le_refl _⟩
    · intro v hvv
      rcases (hVis v).mp hvv with rfl | hvo
      · rw [hlevi]
      · rw [hlev v (hne v hvo)]
        exact h.lev_le v hvo

theorem visitLinked_shape {cur l i : Nat} {s s1 : List Actor × List Queue}
    (h : visitLinked cur l s i = some s1) :
    s1.1.map Actor.shape = s.1.map Actor.shape := by
  unfold visitLinked at h
  cases ha : s.1[i]? with
  | none => rw [ha] at h; cases h
  | some a =>
    rw [ha] at h
    by_cases hv : a.visited = true
    · simp only [hv, if_true, Option.some.injEq] at h
      rw [← h]
    · have hvf : a.visited = false := by simpa using hv
      simp only [hvf, Bool.false_eq_true, if_false, Option.some.injEq] at h
      rw [← h]
      exact shape_set ha rfl

theorem visitCast_shape {cur l : Nat} (cast : List Nat) :
    ∀ {s s1 : List Actor × List Queue}, visitCast cur l cast s = some s1 →
      s1.1.map Actor.shape = s.1.map Actor.shape := by
  induction cast with
  | nil =>
    intro s s1 h
    simp only [visitCast, Option.some.injEq] at h
    rw [h]
  | cons i rest ih =>
    intro s s1 h
    simp only [visitCast] at h
    cases h1 : visitLinked cur l s i with
    | none => rw [h1] at h; cases h
    | some s2 =>
      rw [h1] at h
      rw [ih h, visitLinked_shape h1]

theorem visitMovies_shape {movies : List Movie} {cur l : Nat} (ml : List Nat) :
    ∀ {s s1 : List Actor × List Queue}, visitMovies movies cur l ml s = some s1 →
      s1.1.map Actor.shape = s.1.map Actor.shape := by
  induction ml with
  | nil =>
    intro s s1 h
    simp only [visitMovies, Option.some.injEq] at h
    rw [h]
  | cons m rest ih =>
    intro s s1 h
    simp only [visitMovies] at h
    cases hm : movies[m]? with
    | none => rw [hm] at h; cases h
    | some mv =>
      rw [hm] at h
      simp only at h
      cases h1 : visitCast cur l mv.cast s with
      | none => rw [h1] at h; cases h
      | some s2 =>
        rw [h1] at h
        rw [ih h, visitCast_shape _ h1]

theorem visitCast_mid {movies : List Movie} {q : String} {src n μ cur l : Nat}
    (cast : List Nat) (hcast : ∀ i ∈ cast, SharesMovie movies cur i) :
    ∀ (s : List Actor × List Queue) (lev : Nat → Nat),
      Mid movies q src n μ cur l lev s.1 s.2 →
      ∃ s1 lev1, visitCast cur l cast s = some s1 ∧ Mid movies q src n μ cur l lev1 s1.1 s1.2 ∧
        (∀ i ∈ cast, Vis s1.1 i) ∧ (∀ v, Vis s.1 v → Vis s1.1 v) := by
  induction cast with
  | nil =>
    intro s lev h
    exact ⟨s, lev, rfl, h, by simp, fun v hv => hv⟩
  | cons i rest ih =>
    intro s lev h
    obtain ⟨s1, lev1, hs1, hm1, hv1, hmono1⟩ :=
      visitLinked_mid h (hcast i (List.mem_cons_self _ _))
    obtain ⟨s2, lev2, hs2, hm2, hv2, hmono2⟩ :=
      ih (fun j hj => hcast j (List.mem_cons_of_mem _ hj)) s1 lev1 hm1
    refine ⟨s2, lev2, ?_, hm2, ?_, fun v hv => hmono2 v (hmono1 v hv)⟩
    · simp only [visitCast, hs1]
      exact hs2
    · intro j hj
      rcases List.mem_cons.mp hj with rfl | hj
      · exact hmono2 _ hv1
      · exact hv2 j hj

theorem visitMovies_mid {movies : List Movie} {q : String} {src n μ cur l : Nat}
    (ml : List Nat) (hml : ∀ m ∈ ml, ∃ mv, movies[m]? = some mv ∧ cur ∈ mv.cast) :
    ∀ (s : List Actor × List Queue) (lev : Nat → Nat),
      Mid movies q src n μ cur l lev s.1 s.2 →
      ∃ s1 lev1, visitMovies movies cur l ml s = some s1 ∧
        Mid movies q src n μ cur l lev1 s1.1 s1.2 ∧
        (∀ m ∈ ml, ∀ mv, movies[m]? = some mv → ∀ i ∈ mv.cast, Vis s1.1 i) ∧
        (∀ v, Vis s.1 v → Vis s1.1 v) := by
  induction ml with
  | nil =>
    intro s lev h
    exact ⟨s, lev, rfl, h, by simp, fun v hv => hv⟩
  | cons m rest ih =>
    intro s lev h
    obtain ⟨mv, hmv, hcur⟩ := hml m (List.mem_cons_self _ _)
    have hshare : ∀ i ∈ mv.cast, SharesMovie movies cur i :=
      fun i hi => ⟨mv, List.mem_iff_getElem?.mpr ⟨m, hmv⟩, hcur, hi⟩
    obtain ⟨s1, lev1, hs1, hm1, hv1, hmono1⟩ := visitCast_mid mv.cast hshare s lev h
    obtain ⟨s2, lev2, hs2, hm2, hv2, hmono2⟩ :=
      ih (fun j hj => hml j (List.mem_cons_of_mem _ hj)) s1 lev1 hm1
    refine ⟨s2, lev2, ?_, hm2, ?_, fun v hv => hmono2 v (hmono1 v hv)⟩
    · simp only [visitMovies, hmv, hs1]
      exact hs2
    · intro m1 hm1' mv1 hmv1 i hi
      rcases List.mem_cons.mp hm1' with rfl | hrest
      · rw [hmv] at hmv1
        cases hmv1
        exact hmono2 _ (hv1 i hi)
      · exact hv2 m1 hrest mv1 hmv1 i hi

theorem expand_outer {movies : List Movie} {q : String} {src n μ : Nat} {lev : Nat → Nat}
    {actors : List Actor} {e : Queue} {rest : List Queue}
    (h : Outer movies q src n μ lev actors (e :: rest))
    {curA : Actor} (hcur : actors[e.actor]? = some curA) (hname : curA.name ≠ q) :
    ∃ s1 lev1, visitMovies movies e.actor e.level curA.movies (actors, rest) = some s1 ∧
      Outer movies q src n (μ - 1) lev1 s1.1 s1.2 := by
  have hev := h.core.q_vis e (List.mem_cons_self _ _)
  have hsorted := List.pairwise_cons.mp h.core.sorted
  have hmid : Mid movies q src n (μ - 1) e.actor e.level lev actors rest := by
    refine ⟨?_, hev.1, hev.2, ?_, ?_⟩
    · constructor
      · exact h.core.wf
      · exact h.core.len
      · exact h.core.src_vis
      · exact h.core.src_lev
      · exact fun e' he' => h.core.q_vis e' (List.mem_cons_of_mem _ he')
      · exact hsorted.2
      · exact h.core.tree
      · exact h.core.budget
      · have := h.core.measure
        simp only [List.length_cons] at this
        omega
      · intro u hu hq hb v hs
        refine h.core.closed u hu ?_ (fun hf => hf) v hs
        intro e' he'
        rcases List.mem_cons.mp he' with rfl | he'
        · exact fun e1 => hb e1.symm
        · exact hq e' he'
      · intro u b hb hbv hq
        by_cases hue : u = e.actor
        · subst hue
          rw [hcur] at hb
          cases hb
          exact hname
        · refine h.core.done_name u b hb hbv ?_
          intro e' he'
          rcases List.mem_cons.mp he' with rfl | he'
          · exact fun e1 => hue e1.symm
          · exact hq e' he'
    · intro e' he'
      exact ⟨hsorted.1 e' he', h.near e (List.mem_cons_self _ _) e' (List.mem_cons_of_mem _ he')⟩
    · exact h.lev_le e (List.mem_cons_self _ _)
  have hml : ∀ m ∈ curA.movies, ∃ mv, movies[m]? = some mv ∧ e.actor ∈ mv.cast := by
    intro m hm
    have hlt := h.core.wf.movie_lt e.actor curA hcur m hm
    refine ⟨movies[m], List.getElem?_eq_getElem hlt, ?_⟩
    exact (h.core.wf.mirror e.actor curA m movies[m] hcur (List.getElem?_eq_getElem hlt)).mp hm
  obtain ⟨s1, lev1, hs1, hm1, hv1, _⟩ := visitMovies_mid curA.movies hml (actors, rest) lev hmid
  refine ⟨s1, lev1, hs1, ?_, ?_, ?_⟩
  · constructor
    · exact hm1.core.wf
    · exact hm1.core.len
    · exact hm1.core.src_vis
    · exact hm1.core.src_lev
    · exact hm1.core.q_vis
    · exact hm1.core.sorted
    · exact hm1.core.tree
    · exact hm1.core.budget
    · exact hm1.core.measure
    · intro u hu hq _ v hs
      by_cases hue : u = e.actor
      · subst hue
        obtain ⟨mv, hmv, hu1, hv2⟩ := hs
        obtain ⟨m, hm⟩ := List.mem_iff_getElem?.mp hmv
        have hmem : m ∈ curA.movies :=
          (h.core.wf.mirror e.actor curA m mv hcur hm).mpr hu1
        have hvis : Vis s1.1 v := hv1 m hmem mv hm v hv2
        refine ⟨hvis, ?_⟩
        rw [hm1.cur_lev]
        exact hm1.lev_le v hvis
      · exact hm1.core.closed u hu hq hue v hs
    · exact hm1.core.done_name
  · intro e1 he1 e2 he2
    have := (hm1.range e1 he1).1
    have := (hm1.range e2 he2).2
    omega
  · intro e1 he1 v hv
    have := (hm1.range e1 he1).1
    have := hm1.lev_le v hv
    omega

theorem bfsLoop_nil (movies : List Movie) (q : String) (fuel : Nat) (actors : List Actor) :
    bfsLoop movies q fuel actors [] = some (actors, .exhausted) := by
  cases fuel <;> rfl

theorem bfsLoop_outer {movies : List Movie} {q : String} {src n : Nat} :
    ∀ (fuel μ : Nat) (lev : Nat → Nat) (actors : List Actor) (queue : List Queue),
      Outer movies q src n μ lev actors queue → μ ≤ fuel →
      ∃ actors1 r, bfsLoop movies q fuel actors queue = some (actors1, r) ∧
        Final movies q src n actors1 r ∧
        actors1.map Actor.shape = actors.map Actor.shape := by
  intro fuel
  induction fuel with
  | zero =>
    intro μ lev actors queue h hμ
    cases queue with
    | nil => exact ⟨actors, .exhausted, rfl, ⟨lev, μ, h⟩, rfl⟩
    | cons e rest =>
      have := h.core.measure
      simp only [List.length_cons] at this
      omega
  | succ fuel ih =>
    intro μ lev actors queue h hμ
    cases queue with
    | nil => exact ⟨actors, .exhausted, rfl, ⟨lev, μ, h⟩, rfl⟩
    | cons e rest =>
      obtain ⟨curA, hcur, _⟩ := (h.core.q_vis e (List.mem_cons_self _ _)).1
      by_cases hname : curA.name = q
      · refine ⟨actors, .found e.actor e.level, ?_, ⟨lev, μ, e.parent, rest, curA, h, hcur, hname⟩, rfl⟩
        simp [bfsLoop, hcur, hname]
      · obtain ⟨s1, lev1, hs1, ho1⟩ := expand_outer h hcur hname
        have hmeas := h.core.measure
        simp only [List.length_cons] at hmeas
        obtain ⟨actors2, r, hr, hfin, hshape⟩ := ih (μ - 1) lev1 s1.1 s1.2 ho1 (by omega)
        refine ⟨actors2, r, ?_, hfin, ?_⟩
        · simp only [bfsLoop, hcur, hname, if_false, hs1]
          exact hr
        · rw [hshape]
          exact visitMovies_shape _ hs1

/-! ## What the invariant gives when the loop is left -/

theorem hops_of_vis {movies : List Movie} {q : String} {src n μ : Nat} {busy : Nat → Prop}
    {lev : Nat → Nat} {actors : List Actor} {queue : List Queue}
    (h : Core movies q src n μ busy lev actors queue) :
    ∀ (k v : Nat), Vis actors v → lev v = k → Hops movies src k v := by
  intro k
  induction k with
  | zero =>
    intro v hv hl
    obtain ⟨a, ha, hav⟩ := hv
    rcases h.tree v a ha hav with ⟨rfl, _⟩ | ⟨p, _, _, _, hpl⟩
    · exact Hops.base
    · omega
  | succ k ih =>
    intro v hv hl
    obtain ⟨a, ha, hav⟩ := hv
    rcases h.tree v a ha hav with ⟨rfl, _⟩ | ⟨p, _, hpv, hps, hpl⟩
    · have := h.src_lev
      omega
    · exact Hops.snoc (ih p hpv (by omega)) hps

theorem vis_of_hops {movies : List Movie} {q : String} {src n μ : Nat}
    {lev : Nat → Nat} {actors : List Actor} {queue : List Queue}
    (h : Outer movies q src n μ lev actors queue) {k v : Nat} (hh : Hops movies src k v) :
    (∀ e ∈ queue, k ≤ e.level) → Vis actors v ∧ lev v ≤ k := by
  induction hh with
  | base =>
    intro _
    exact ⟨h.core.src_vis, by rw [h.core.src_lev]⟩
  | @snoc k u v _ hs ih =>
    intro hq
    obtain ⟨hu, hul⟩ := ih (fun e he => by have := hq e he; omega)
    have hnq : ∀ e ∈ queue, e.actor ≠ u := by
      intro e he heq
      have h1 := (h.core.q_vis e he).2
      have h2 := hq e he
      rw [heq] at h1
      omega
    obtain ⟨hv, hvl⟩ := h.core.closed u hu hnq (fun hf => hf) v hs
    exact ⟨hv, by omega⟩

theorem connectingMovie_spec {movies : List Movie} {v : Nat} (ml : List Nat)
    (hlt : ∀ m ∈ ml, m < movies.length)
    (hex : ∃ m ∈ ml, ∃ mv, movies[m]? = some mv ∧ v ∈ mv.cast) :
    ∃ m mv, m ∈ ml ∧ movies[m]? = some mv ∧ v ∈ mv.cast ∧
      connectingMovie movies v ml = some (some mv) := by
  induction ml with
  | nil =>
    obtain ⟨m, hm, _⟩ := hex
    simp at hm
  | cons m0 rest ih =>
    have hm0 := hlt m0 (List.mem_cons_self _ _)
    have hget : movies[m0]? = some movies[m0] := List.getElem?_eq_getElem hm0
    by_cases hv : v ∈ (movies[m0]).cast
    · refine ⟨m0, movies[m0], List.mem_cons_self _ _, hget, hv, ?_⟩
      simp [connectingMovie, hget, hv]
    · have hex1 : ∃ m ∈ rest, ∃ mv, movies[m]? = some mv ∧ v ∈ mv.cast := by
        obtain ⟨m, hm, mv, hmv, hvm⟩ := hex
        rcases List.mem_cons.mp hm with rfl | hm
        · rw [hget] at hmv
          cases hmv
          exact absurd hvm hv
        · exact ⟨m, hm, mv, hmv, hvm⟩
      obtain ⟨m, mv, hm, hmv, hvm, hc⟩ :=
        ih (fun m hm => hlt m (List.mem_cons_of_mem _ hm)) hex1
      refine ⟨m, mv, List.mem_cons_of_mem _ hm, hmv, hvm, ?_⟩
      simp [connectingMovie, hget, hv, hc]

theorem printPath_spec {movies : List Movie} {q : String} {src n μ : Nat} {busy : Nat → Prop}
    {lev : Nat → Nat} {actors : List Actor} {queue : List Queue}
    (h : Core movies q src n μ busy lev actors queue) {srcA : Actor}
    (hsrc : actors[src]? = some srcA) :
    ∀ (k v : Nat) (a : Actor) (fuel : Nat), actors[v]? = some a → a.visited = true →
      lev v = k → k < fuel →
      ∃ hops : List (String × String),
        printPath { actors := actors, movies := movies } fuel (some v) = some (hopLines hops) ∧
        hops.length = k ∧
        GenuineChain { actors := actors, movies := movies } srcA.name hops ∧
        nextName hops srcA.name = a.name := by
  intro k
  induction k with
  | zero =>
    intro v a fuel ha hav hl hf
    obtain ⟨f, rfl⟩ : ∃ f, fuel = f + 1 := ⟨fuel - 1, by omega⟩
    rcases h.tree v a ha hav with ⟨rfl, hp⟩ | ⟨p, _, _, _, hpl⟩
    · refine ⟨[], ?_, rfl, trivial, ?_⟩
      · simp [printPath, ha, hp, hopLines]
      · rw [hsrc] at ha
        cases ha
        rfl
    · omega
  | succ k ih =>
    intro v a fuel ha hav hl hf
    obtain ⟨f, rfl⟩ : ∃ f, fuel = f + 1 := ⟨fuel - 1, by omega⟩
    rcases h.tree v a ha hav with ⟨rfl, _⟩ | ⟨p, hp, hpv, hps, hpl⟩
    · have := h.src_lev
      omega
    · obtain ⟨pa, hpa, hpav⟩ := hpv
      have hex : ∃ m ∈ pa.movies, ∃ mv, movies[m]? = some mv ∧ v ∈ mv.cast := by
        obtain ⟨mv, hmv, hp1, hv1⟩ := hps
        obtain ⟨m, hm⟩ := List.mem_iff_getElem?.mp hmv
        exact ⟨m, (h.wf.mirror p pa m mv hpa hm).mpr hp1, mv, hm, hv1⟩
      obtain ⟨m, mv, hm, hmv, hvm, hc⟩ :=
        connectingMovie_spec pa.movies (h.wf.movie_lt p pa hpa) hex
      obtain ⟨hops, hpp, hlen, hgen, hnext⟩ := ih p pa f hpa hpav (by omega) (by omega)
      refine ⟨(a.name, mv.title) :: hops, ?_, by simp [hlen], ⟨?_, hgen⟩, rfl⟩
      · simp [printPath, ha, hp, hpa, hc, hpp, hopLines]
      · refine ⟨mv, List.mem_iff_getElem?.mpr ⟨m, hmv⟩, rfl, ⟨v, hvm, ?_⟩, ⟨p, ?_, ?_⟩⟩
        · simp [nameAt, ha]
        · exact (h.wf.mirror p pa m mv hpa hmv).mp hm
        · simp [nameAt, hpa, hnext]

/-! ## The search started at Kevin Bacon -/

theorem resetSearch_getElem? {l : List Actor} {i : Nat} {a : Actor}
    (h : (resetSearch l)[i]? = some a) : a.visited = false ∧ a.parent = none := by
  simp only [resetSearch, List.getElem?_map] at h
  cases hl : l[i]? with
  | none => rw [hl] at h; cases h
  | some b =>
    rw [hl] at h
    simp only [Option.map_some', Option.some.injEq] at h
    rw [← h]
    exact ⟨rfl, rfl⟩

theorem init_outer {actors2 : List Actor} {movies : List Movie} (q : String)
    (hw : WF actors2 movies)
    (hreset : ∀ (i : Nat) (a : Actor), actors2[i]? = some a →
      a.visited = false ∧ a.parent = none)
    (hun : unvisited actors2 = actors2.length) {kb : Nat} {a : Actor}
    (ha : actors2[kb]? = some a) :
    Outer movies q kb actors2.length actors2.length (fun _ => 0)
      (actors2.set kb { a with visited := true }) (enqueue [] kb none 0) := by
  have hVis : ∀ v, Vis (actors2.set kb { a with visited := true }) v ↔ v = kb := by
    intro v
    rw [Vis_set ha rfl]
    constructor
    · rintro (h | ⟨b, hb, hbv⟩)
      · exact h
      · rw [(hreset v b hb).1] at hbv
        cases hbv
    · exact Or.inl
  have hq : ∀ e ∈ enqueue [] kb none 0, e = ⟨kb, none, 0⟩ := by
    intro e he
    simpa [enqueue] using he
  have hmem : (⟨kb, none, 0⟩ : Queue) ∈ enqueue [] kb none 0 := by simp [enqueue]
  have hun1 := @unvisited_set _ _ _ { a with visited := true } ha (hreset kb a ha).1 rfl
  refine ⟨?_, ?_, ?_⟩
  · constructor
    · exact WF_shape (shape_set ha rfl) hw
    · simp
    · exact (hVis kb).mpr rfl
    · rfl
    · intro e he
      rw [hq e he]
      exact ⟨(hVis kb).mpr rfl, rfl⟩
    · simp [enqueue]
    · intro v b hb hbv
      have hv : v = kb := (hVis v).mp ⟨b, hb, hbv⟩
      subst hv
      left
      refine ⟨rfl, ?_⟩
      rw [List.getElem?_set] at hb
      simp only [if_true, lt_of_getElem? ha] at hb
      cases hb
      exact (hreset v a ha).2
    · intro v _
      have := lt_of_getElem? ha
      omega
    · simp only [enqueue, List.nil_append, List.length_singleton]
      omega
    · intro u hu hnq
      exact absurd ((hVis u).mp hu).symm (hnq _ hmem)
    · intro u b hb hbv hnq
      exact absurd ((hVis u).mp ⟨b, hb, hbv⟩).symm (hnq _ hmem)
  · intro e he e' he'
    rw [hq e he, hq e' he']
    exact Nat.le_succ 0
  · intro e he v _
    exact Nat.zero_le _

theorem search_spec {actors2 : List Actor} {movies : List Movie} (q : String)
    (hw : WF actors2 movies)
    (hreset : ∀ (i : Nat) (a : Actor), actors2[i]? = some a →
      a.visited = false ∧ a.parent = none)
    (hun : unvisited actors2 = actors2.length) {kb : Nat} {a : Actor}
    (ha : actors2[kb]? = some a) :
    ∃ actors4 r,
      bfsLoop movies q (actors2.set kb { a with visited := true }).length
        (actors2.set kb { a with visited := true }) (enqueue [] kb none 0) = some (actors4, r) ∧
      actors4.map Actor.shape = actors2.map Actor.shape ∧
      SearchPost movies q kb a.name actors2 actors4 r := by
  have h0 := init_outer q hw hreset hun ha
  obtain ⟨actors4, r, hr, hfin, hshape⟩ :=
    bfsLoop_outer (actors2.set kb { a with visited := true }).length _ _ _ _ h0 (by simp)
  have hshape2 : actors4.map Actor.shape = actors2.map Actor.shape := by
    rw [hshape]
    exact shape_set ha rfl
  refine ⟨actors4, r, hr, hshape2, ?_⟩
  cases r with
  | exhausted =>
    obtain ⟨lev, μ, ho⟩ := hfin
    intro k v b hh hb
    obtain ⟨⟨b4, hb4, hbv⟩, _⟩ := vis_of_hops ho hh (by simp)
    obtain ⟨b2, hb2, hname, _⟩ := shape_getElem? hshape2 hb4
    rw [hb] at hb2
    cases hb2
    rw [hname]
    exact ho.core.done_name v b4 hb4 hbv (by simp)
  | found t l =>
    obtain ⟨lev, μ, par, rest, b4, ho, hb4, hname⟩ := hfin
    have hhead := ho.core.q_vis ⟨t, par, l⟩ (List.mem_cons_self _ _)
    simp only at hhead
    obtain ⟨b2, hb2, hname2, _⟩ := shape_getElem? hshape2 hb4
    obtain ⟨srcA, hsrcA, _⟩ := ho.core.src_vis
    have hsrcName : srcA.name = a.name := by
      obtain ⟨s2, hs2, hn, _⟩ := shape_getElem? hshape2 hsrcA
      rw [ha] at hs2
      cases hs2
      exact hn.symm
    have hb4v : b4.visited = true := by
      obtain ⟨c, hc, hcv⟩ := hhead.1
      rw [hb4] at hc
      cases hc
      exact hcv
    have hlt : l < actors4.length := by
      have := ho.core.budget t hhead.1
      have := ho.core.len
      omega
    obtain ⟨hops, hpp, hlen, hgen, hnext⟩ :=
      printPath_spec ho.core hsrcA l t b4 actors4.length hb4 hb4v hhead.2 hlt
    refine ⟨b2, hb2, by rw [hname2, hname], hops_of_vis ho.core l t hhead.1 hhead.2, ?_,
      hops, hpp, hlen, by rw [← hsrcName]; exact hgen, by rw [← hsrcName, hnext, hname]⟩
    intro k hk
    by_contra hlk
    have hall : ∀ e ∈ ({ actor := t, parent := par, level := l } : Queue) :: rest, k ≤ e.level := by
      intro e he
      rcases List.mem_cons.mp he with rfl | he
      · simp only
        omega
      · have := (List.pairwise_cons.mp ho.core.sorted).1 e he
        simp only at this
        omega
    have := (vis_of_hops ho hk hall).2
    omega

/-! ## One query -/

theorem nameAt_shape {g g' : Graph} (h : g'.actors.map Actor.shape = g.actors.map Actor.shape)
    (i : Nat) : nameAt g' i = nameAt g i := by
  have hn := shape_names h
  have : (g'.actors.map Actor.name)[i]? = (g.actors.map Actor.name)[i]? := by rw [hn]
  simpa [nameAt, List.getElem?_map] using this

theorem GenuineChain_shape {g g' : Graph}
    (h : g'.actors.map Actor.shape = g.actors.map Actor.shape) (hm : g'.movies = g.movies)
    (last : String) (hops : List (String × String)) :
    GenuineChain g' last hops → GenuineChain g last hops := by
  induction hops with
  | nil => exact fun _ => trivial
  | cons x rest ih =>
    rintro ⟨⟨mv, hmv, ht, ⟨i, hi, hni⟩, ⟨j, hj, hnj⟩⟩, hrest⟩
    refine ⟨⟨mv, hm ▸ hmv, ht, ⟨i, hi, ?_⟩, ⟨j, hj, ?_⟩⟩, ih hrest⟩
    · rw [← nameAt_shape h i]; exact hni
    · rw [← nameAt_shape h j]; exact hnj

theorem registered_iff_findActor (g : Graph) (q : String) :
    Registered g q ↔ findActor g.actors q ≠ none := by
  rw [Ne, findActor_none]
  simp only [Registered, not_forall, not_not]
  constructor
  · rintro ⟨a, ha, hn⟩
    exact ⟨a, ha, hn⟩
  · rintro ⟨a, ha, hn⟩
    exact ⟨a, ha, hn⟩

theorem findActor_resetVisited (l : List Actor) (q : String) :
    findActor (resetVisited l) q = findActor l q :=
  findActor_names q (shape_names (shape_resetVisited l))

theorem calc_bacon (g : Graph) (e : Int) (l : Bool) :
    calculateBaconScore g e "Kevin Bacon" l =
      some { g := { g with actors := resetVisited g.actors }
             out := Printed.score 0 :: (if l then [Printed.kevinBacon] else [])
             err := [], errRet := e } := by
  simp [calculateBaconScore]

theorem calc_unknown (g : Graph) (e : Int) (q : String) (l : Bool)
    (hq : q ≠ "Kevin Bacon") (hn : ¬ Registered g q) :
    calculateBaconScore g e q l =
      some { g := { g with actors := resetVisited g.actors }, out := []
             err := [noActorMsg q], errRet := 1 } := by
  have h1 : findActor (resetVisited g.actors) q = none := by
    rw [findActor_resetVisited]
    by_contra hne
    exact hn ((registered_iff_findActor g q).mpr hne)
  simp [calculateBaconScore, hq, h1]

theorem calc_known (g : Graph) (hw : WF g.actors g.movies) (e : Int) (q : String) (l : Bool)
    (hq : q ≠ "Kevin Bacon") (hr : Registered g q) :
    ∃ r, calculateBaconScore g e q l = some r ∧ r.err = [] ∧ r.errRet = e ∧
      r.g.movies = g.movies ∧ r.g.actors.map Actor.shape = g.actors.map Actor.shape ∧
      ((r.out = [Printed.noBacon] ∧ ∀ n, ¬ BaconChain g q n) ∨
       (∃ (n : Nat) (hops : List (String × String)),
          r.out = Printed.score n :: (if l then hopLines hops ++ [Printed.kevinBacon] else []) ∧
          1 ≤ n ∧ BaconChain g q n ∧ (∀ k, BaconChain g q k → n ≤ k) ∧
          hops.length = n ∧ GenuineChain g "Kevin Bacon" hops ∧
          nextName hops "Kevin Bacon" = q)) := by
  obtain ⟨t0, h1⟩ : ∃ t0, findActor (resetVisited g.actors) q = some t0 := by
    rw [findActor_resetVisited]
    exact Option.ne_none_iff_exists'.mp ((registered_iff_findActor g q).mp hr)
  have hshape2 : (resetSearch (resetVisited g.actors)).map Actor.shape
      = g.actors.map Actor.shape := by
    rw [shape_resetSearch, shape_resetVisited]
  have hw2 : WF (resetSearch (resetVisited g.actors)) g.movies := WF_shape hshape2 hw
  have hname2 : ∀ i, nameAt g i
      = ((resetSearch (resetVisited g.actors))[i]?).map Actor.name := by
    intro i
    exact (@nameAt_shape g ⟨resetSearch (resetVisited g.actors), g.movies⟩
      hshape2 i).symm
  have hget2 : ∀ (i : Nat) (x : String), nameAt g i = some x →
      ∃ b, (resetSearch (resetVisited g.actors))[i]? = some b ∧ b.name = x := by
    intro i x hx
    rw [hname2] at hx
    cases hb : (resetSearch (resetVisited g.actors))[i]? with
    | none => rw [hb] at hx; cases hx
    | some b =>
      rw [hb] at hx
      simp only [Option.map_some', Option.some.injEq] at hx
      exact ⟨b, rfl, hx⟩
  cases hkb : findActor (resetSearch (resetVisited g.actors)) "Kevin Bacon" with
  | none =>
    refine ⟨{ g := { g with actors := resetSearch (resetVisited g.actors) }
              out := [Printed.noBacon], err := [], errRet := e },
      by simp only [calculateBaconScore, hq, if_false, h1, hkb], rfl, rfl, rfl,
      hshape2, Or.inl ⟨rfl, ?_⟩⟩
    rintro n ⟨s, t, hs, _, _⟩
    obtain ⟨sa, hsa, hsn⟩ := hget2 s _ hs
    exact findActor_none.mp hkb sa (List.mem_iff_getElem?.mpr ⟨s, hsa⟩) hsn
  | some kb =>
    obtain ⟨a, ha, han⟩ := findActor_some hkb
    obtain ⟨actors4, r, hr4, hshape4, hpost⟩ :=
      search_spec q hw2 (fun i b hb => resetSearch_getElem? hb)
        (by rw [unvisited_resetSearch]; simp [resetSearch]) ha
    have hsrc : ∀ s, nameAt g s = some "Kevin Bacon" → s = kb := by
      intro s hs
      obtain ⟨sa, hsa, hsn⟩ := hget2 s _ hs
      exact hw2.name_inj s kb sa a hsa ha (by rw [hsn, han])
    cases r with
    | exhausted =>
      refine ⟨{ g := { g with actors := actors4 }
                out := [Printed.noBacon], err := [], errRet := e },
        by simp only [calculateBaconScore, hq, if_false, h1, hkb, ha, hr4], rfl, rfl, rfl,
        hshape4.trans hshape2, Or.inl ⟨rfl, ?_⟩⟩
      rintro n ⟨s, t, hs, ht, hh⟩
      obtain ⟨tb, htb, htn⟩ := hget2 t _ ht
      rw [hsrc s hs] at hh
      exact hpost n t tb hh htb htn
    | found t lv =>
      obtain ⟨b, hb, hbn, hh, hmin, hops, hpp, hlen, hgen, hnext⟩ := hpost
      have hnt : nameAt g t = some q := by
        rw [hname2, hb]
        simp [hbn]
      have hnkb : nameAt g kb = some "Kevin Bacon" := by
        rw [hname2, ha]
        simp [han]
      refine ⟨{ g := { g with actors := actors4 }
                out := Printed.score lv ::
                  (if l then hopLines hops ++ [Printed.kevinBacon] else [])
                err := [], errRet := e }, ?_, rfl, rfl, rfl,
        hshape4.trans hshape2, Or.inr ⟨lv, hops, rfl, ?_, ⟨kb, t, hnkb, hnt, hh⟩, ?_, hlen, ?_, ?_⟩⟩
      · cases l with
        | true => simp only [calculateBaconScore, hq, if_false, h1, hkb, ha, hr4, if_true, hpp]
        | false =>
          simp only [calculateBaconScore, hq, if_false, h1, hkb, ha, hr4, Bool.false_eq_true]
      · rcases Nat.eq_zero_or_pos lv with h0 | hpos
        · subst h0
          cases hh
          rw [ha] at hb
          cases hb
          exact absurd (hbn.symm.trans han) hq
        · exact hpos
      · rintro k ⟨s, t', hs, ht', hh'⟩
        obtain ⟨tb, htb, htn⟩ := hget2 t' _ ht'
        have htt : t' = t := hw2.name_inj t' t tb b htb hb (by rw [htn, hbn])
        rw [hsrc s hs, htt] at hh'
        exact hmin k hh'
      · rw [han] at hgen
        exact @GenuineChain_shape g ⟨actors4, g.movies⟩
          (hshape4.trans hshape2) rfl _ _ hgen
      · rw [han] at hnext
        exact hnext

theorem calc_total (g : Graph) (hw : WF g.actors g.movies) (e : Int) (q : String) (l : Bool) :
    ∃ r, calculateBaconScore g e q l = some r ∧ r.g.movies = g.movies ∧
      r.g.actors.map Actor.shape = g.actors.map Actor.shape := by
  by_cases hq : q = "Kevin Bacon"
  · subst hq
    exact ⟨_, calc_bacon g e l, rfl, shape_resetVisited _⟩
  · by_cases hr : Registered g q
    · obtain ⟨r, h1, _, _, h2, h3, _⟩ := calc_known g hw e q l hq hr
      exact ⟨r, h1, h2, h3⟩
    · exact ⟨_, calc_unknown g e q l hq hr, rfl, shape_resetVisited _⟩

/-! ## The parser -/

theorem names_modify (f : Actor → Actor) (hf : ∀ a, (f a).name = a.name) (i : Nat)
    (l : List Actor) : (List.modify f i l).map Actor.name = l.map Actor.name := by
  apply List.ext_getElem?
  intro j
  rw [List.getElem?_map, List.getElem?_map, List.getElem?_modify]
  cases l[j]? with
  | none => rfl
  | some a =>
    by_cases hij : i = j
    · simp [hij, hf]
    · simp [hij]

theorem findOrAddActor_names (actors : List Actor) (name : String) (fresh : Actor) :
    (findOrAddActor actors name fresh).1.map Actor.name =
      if name ∈ actors.map Actor.name then actors.map Actor.name
      else actors.map Actor.name ++ [name] := by
  unfold findOrAddActor
  cases hf : findActor actors name with
  | none =>
    have hnot : name ∉ actors.map Actor.name := by
      intro hmem
      obtain ⟨a, ha, hn⟩ := List.mem_map.mp hmem
      exact findActor_none.mp hf a ha hn
    simp [hnot]
  | some i =>
    obtain ⟨a, ha, hn⟩ := findActor_some hf
    have hmem : name ∈ actors.map Actor.name :=
      List.mem_map.mpr ⟨a, List.mem_iff_getElem?.mpr ⟨i, ha⟩, hn⟩
    simp [hmem]

theorem parseLine_names (heap : Nat → Actor) (st : ParseState) (line : String) :
    (parseLine heap st line).g.actors.map Actor.name =
      if isActorLine line = true ∧ line ∉ st.g.actors.map Actor.name
      then st.g.actors.map Actor.name ++ [line] else st.g.actors.map Actor.name := by
  unfold parseLine isActorLine
  by_cases hb : line.length = 0
  · simp [hb]
  · by_cases hm : isMovieLine line = true
    · simp [hb, hm]
    · have hm2 : isMovieLine line = false := by simpa using hm
      simp only [hb, hm2, if_false, Bool.false_eq_true]
      cases st.lastMovie with
      | none =>
        simp only [findOrAddActor_names]
        by_cases hmem : line ∈ st.g.actors.map Actor.name <;> simp [hmem, hb]
      | some m =>
        simp only [linkActorMovie]
        rw [names_modify (fun a => { a with movies := m :: a.movies }) (fun a => rfl),
          findOrAddActor_names]
        by_cases hmem : line ∈ st.g.actors.map Actor.name <;> simp [hmem, hb]

theorem parseLine_inv (heap : Nat → Actor) {st : ParseState} (h : ParseInv st)
    (line : String) : ParseInv (parseLine heap st line) := by
  unfold parseLine
  by_cases hb : line.length = 0
  · simpa [hb] using h
  · by_cases hm : isMovieLine line = true
    · simp only [hb, hm, if_false, if_true]
      exact ⟨WF_addMovie h.wf _, by intro m hm; cases hm; simp⟩
    · have hm2 : isMovieLine line = false := by simpa using hm
      simp only [hb, hm2, if_false, Bool.false_eq_true]
      have hfa : WF (findOrAddActor st.g.actors line (heap st.g.actors.length)).1 st.g.movies ∧
          (findOrAddActor st.g.actors line (heap st.g.actors.length)).2 <
            (findOrAddActor st.g.actors line (heap st.g.actors.length)).1.length := by
        unfold findOrAddActor
        cases hf : findActor st.g.actors line with
        | none => exact ⟨WF_addActor h.wf _ (findActor_none.mp hf), by simp⟩
        | some i =>
          obtain ⟨a, ha, _⟩ := findActor_some hf
          exact ⟨h.wf, lt_of_getElem? ha⟩
      cases hl : st.lastMovie with
      | none => exact ⟨hfa.1, by intro m hm; simp [hl] at hm⟩
      | some m =>
        have hmlt := h.last_lt m hl
        refine ⟨WF_link hfa.1 hfa.2 hmlt, ?_⟩
        intro m1 hm1
        simp only [hl, Option.some.injEq] at hm1
        subst hm1
        simpa [linkActorMovie] using hmlt

theorem foldl_parseLine_inv (heap : Nat → Actor) (lines : List String) :
    ∀ st, ParseInv st → ParseInv (lines.foldl (parseLine heap) st) := by
  induction lines with
  | nil => exact fun st h => h
  | cons line rest ih => exact fun st h => ih _ (parseLine_inv heap h line)

theorem buildGraph_WF (heap : Nat → Actor) (lines : List String) :
    WF (buildGraph heap lines).actors (buildGraph heap lines).movies :=
  (foldl_parseLine_inv heap lines _ ⟨WF_nil, by intro m hm; cases hm⟩).wf

theorem foldl_parseLine_registered (heap : Nat → Actor) (q : String) (lines : List String) :
    ∀ st, q ∈ (lines.foldl (parseLine heap) st).g.actors.map Actor.name ↔
      (q ∈ st.g.actors.map Actor.name ∨ (q ∈ lines ∧ isActorLine q = true)) := by
  induction lines with
  | nil => intro st; simp
  | cons line rest ih =>
    intro st
    rw [List.foldl_cons, ih, parseLine_names]
    by_cases hc : isActorLine line = true ∧ line ∉ st.g.actors.map Actor.name
    · simp only [hc, and_self, not_false_eq_true, if_true, List.mem_append, List.mem_singleton,
        List.mem_cons, List.not_mem_nil, or_false]
      constructor
      · rintro ((h | rfl) | ⟨h, ha⟩)
        · exact Or.inl h
        · exact Or.inr ⟨Or.inl rfl, hc.1⟩
        · exact Or.inr ⟨Or.inr h, ha⟩
      · rintro (h | ⟨rfl | h, ha⟩)
        · exact Or.inl (Or.inl h)
        · exact Or.inl (Or.inr rfl)
        · exact Or.inr ⟨h, ha⟩
    · rw [if_neg hc]
      simp only [List.mem_cons]
      constructor
      · rintro (h | ⟨h, ha⟩)
        · exact Or.inl h
        · exact Or.inr ⟨Or.inr h, ha⟩
      · rintro (h | ⟨rfl | h, ha⟩)
        · exact Or.inl h
        · left
          by_contra hmem
          exact hc ⟨ha, hmem⟩
        · exact Or.inr ⟨h, ha⟩

theorem registered_buildGraph (heap : Nat → Actor) (lines : List String) (q : String) :
    Registered (buildGraph heap lines) q ↔ (q ∈ lines ∧ isActorLine q = true) := by
  have h := foldl_parseLine_registered heap q lines
    { g := { actors := [], movies := [] }, lastMovie := none }
  simp only [List.map_nil, List.not_mem_nil, false_or] at h
  rw [← h]
  simp only [Registered, buildGraph, List.mem_map]

/-! ## Queries do not depend on what earlier queries left in the search fields -/

theorem resetSearch_shape {l l' : List Actor} (h : l'.map Actor.shape = l.map Actor.shape) :
    resetSearch l' = resetSearch l := by
  have e : ∀ l : List Actor, resetSearch l =
      (l.map Actor.shape).map (fun p => (⟨p.1, p.2, false, none⟩ : Actor)) := by
    intro l
    simp [resetSearch, List.map_map, Function.comp_def, Actor.shape]
  rw [e l', e l, h]

theorem calc_congr {g g' : Graph} (hm : g'.movies = g.movies)
    (hs : g'.actors.map Actor.shape = g.actors.map Actor.shape) (e e' : Int) (q : String)
    (l : Bool) :
    (calculateBaconScore g' e' q l).map (fun r => (r.out, r.err)) =
      (calculateBaconScore g e q l).map (fun r => (r.out, r.err)) := by
  by_cases hq : q = "Kevin Bacon"
  · subst hq
    rw [calc_bacon, calc_bacon]
    rfl
  · have hA : resetSearch (resetVisited g'.actors) = resetSearch (resetVisited g.actors) :=
      resetSearch_shape (by rw [shape_resetVisited, shape_resetVisited, hs])
    have hB : findActor (resetVisited g'.actors) q = findActor (resetVisited g.actors) q := by
      rw [findActor_resetVisited, findActor_resetVisited]
      exact findActor_names q (shape_names hs)
    unfold calculateBaconScore
    simp only [hq, if_false, hA, hB, hm]
    cases findActor (resetVisited g.actors) q with
    | none => rfl
    | some t0 =>
      simp only
      cases findActor (resetSearch (resetVisited g.actors)) "Kevin Bacon" with
      | none => rfl
      | some kb =>
        simp only
        cases (resetSearch (resetVisited g.actors))[kb]? with
        | none => rfl
        | some a =>
          simp only
          cases bfsLoop g.movies q
              ((resetSearch (resetVisited g.actors)).set kb { a with visited := true }).length
              ((resetSearch (resetVisited g.actors)).set kb { a with visited := true })
              (enqueue [] kb none 0) with
          | none => rfl
          | some res =>
            obtain ⟨actors4, r⟩ := res
            cases r with
            | exhausted => rfl
            | found t lv =>
              simp only
              cases l with
              | false => rfl
              | true =>
                simp only [if_true]
                cases printPath { actors := actors4, movies := g.movies } actors4.length
                    (some t) with
                | none => rfl
                | some path => rfl

theorem calc_errRet (g : Graph) (hw : WF g.actors g.movies) (e : Int) (q : String) (l : Bool) :
    ∃ r, calculateBaconScore g e q l = some r ∧
      r.errRet = if q ≠ "Kevin Bacon" ∧ ¬ Registered g q then 1 else e := by
  by_cases hq : q = "Kevin Bacon"
  · subst hq
    exact ⟨_, calc_bacon g e l, by simp⟩
  · by_cases hr : Registered g q
    · obtain ⟨r, h1, _, h2, _⟩ := calc_known g hw e q l hq hr
      exact ⟨r, h1, by simp [hr, h2]⟩
    · exact ⟨_, calc_unknown g e q l hq hr, by simp [hq, hr]⟩

/-! ## Every heap the process reaches is well formed -/

theorem queryLoop_spec (lFlag : Bool) (qs : List String) :
    ∀ w : World, WF w.g.actors w.g.movies →
      ∃ w1, queryLoop lFlag qs w = some w1 ∧ w1.g.movies = w.g.movies ∧
        w1.g.actors.map Actor.shape = w.g.actors.map Actor.shape := by
  induction qs with
  | nil => exact fun w _ => ⟨w, rfl, rfl, rfl⟩
  | cons query rest ih =>
    intro w hw
    by_cases hx : query = "exit"
    · exact ⟨w, by simp [queryLoop, hx], rfl, rfl⟩
    · obtain ⟨r, hr, hm, hs⟩ := calc_total w.g hw w.errRet query lFlag
      have hw1 : WF r.g.actors r.g.movies := by
        rw [hm]
        exact WF_shape hs hw
      obtain ⟨w1, h1, hm1, hs1⟩ := ih
        { g := r.g, out := w.out ++ r.out, err := w.err ++ r.err, errRet := r.errRet } hw1
      refine ⟨w1, ?_, hm1.trans hm, hs1.trans hs⟩
      simp only [queryLoop, hx, if_false, hr]
      exact h1

theorem Reached_WF {g : Graph} (h : Reached g) : WF g.actors g.movies := by
  obtain ⟨heap, lFlag, fileLines, stdinLines, w, hw, rfl⟩ := h
  obtain ⟨w1, h1, hm, hs⟩ := queryLoop_spec lFlag stdinLines
    { g := buildGraph heap fileLines, out := [], err := [], errRet := 0 }
    (buildGraph_WF heap fileLines)
  unfold parseMovieFile at hw
  rw [h1] at hw
  cases hw
  rw [hm]
  exact WF_shape hs (buildGraph_WF heap fileLines)

theorem Reached_buildGraph (heap : Nat → Actor) (lines : List String) :
    Reached (buildGraph heap lines) :=
  ⟨heap, false, lines, [], _, rfl, rfl⟩

/-! ## The claims -/

theorem hopLines_not_score (hops : List (String × String)) (p : Printed)
    (hp : p ∈ hopLines hops ++ [Printed.kevinBacon]) : p.isScoreLine = false := by
  simp only [hopLines, List.mem_append, List.mem_map, List.mem_singleton] at hp
  rcases hp with ⟨h, _, rfl⟩ | rfl <;> rfl

theorem tail_not_score (l : Bool) (hops : List (String × String)) (p : Printed)
    (hp : p ∈ (if l then hopLines hops ++ [Printed.kevinBacon] else [])) :
    p.isScoreLine = false := by
  cases l with
  | false => simp at hp
  | true => exact hopLines_not_score hops p (by simpa using hp)

/-- C1: on every heap the process reaches, for a query `q` other than "Kevin Bacon"
whose shortest chain of shared-movie hops from the actor named "Kevin Bacon" has
`n` hops, `calculateBaconScore` returns and prints `Score: n` (followed, with path
printing, only by hop lines and the closing name); nothing goes to the error
stream and `errRet` keeps its value. -/
theorem score_is_shortest_chain (g : Graph) (hg : Reached g) (e : Int) (q : String)
    (l : Bool) (n : Nat) (hq : q ≠ "Kevin Bacon") (hn : BaconChain g q n)
    (hmin : ∀ k, BaconChain g q k → n ≤ k) :
    ∃ r hops, calculateBaconScore g e q l = some r ∧
      r.out = Printed.score n :: (if l then hopLines hops ++ [Printed.kevinBacon] else []) ∧
      r.err = [] ∧ r.errRet = e := by
  have hr : Registered g q := by
    obtain ⟨s, t, _, ht, _⟩ := hn
    simp only [nameAt] at ht
    cases hta : g.actors[t]? with
    | none => rw [hta] at ht; cases ht
    | some a =>
      rw [hta] at ht
      exact ⟨a, List.mem_iff_getElem?.mpr ⟨t, hta⟩, by simpa using ht⟩
  obtain ⟨r, h1, herr, he, _, _, hcase⟩ := calc_known g (Reached_WF hg) e q l hq hr
  rcases hcase with ⟨_, hno⟩ | ⟨n1, hops, hout, _, hch, hmin1, _⟩
  · exact absurd hn (hno n)
  · have : n1 = n := Nat.le_antisymm (hmin1 n hn) (hmin n1 hch)
    subst this
    exact ⟨r, hops, h1, hout, herr, he⟩

/-- C2: on every heap the process reaches, for a registered query name `q` other than
"Kevin Bacon", `calculateBaconScore` returns, and it prints `Score: No Bacon!` with
nothing on the error stream and `errRet` unchanged exactly when no chain of
shared-movie hops leads from an actor named "Kevin Bacon" to `q`; that line is then
its whole output. -/
theorem noBacon_iff_no_chain (g : Graph) (hg : Reached g) (e : Int) (q : String) (l : Bool)
    (hq : q ≠ "Kevin Bacon") (hr : Registered g q) :
    ∃ r, calculateBaconScore g e q l = some r ∧
      ((Printed.noBacon ∈ r.out ∧ r.err = [] ∧ r.errRet = e) ↔ ¬ ∃ n, BaconChain g q n) ∧
      (Printed.noBacon ∈ r.out → r.out = [Printed.noBacon]) := by
  obtain ⟨r, h1, herr, he, _, _, hcase⟩ := calc_known g (Reached_WF hg) e q l hq hr
  refine ⟨r, h1, ?_, ?_⟩
  · rcases hcase with ⟨hout, hno⟩ | ⟨n1, hops, hout, _, hch, _⟩
    · constructor
      · rintro _ ⟨n, hn⟩
        exact hno n hn
      · intro _
        exact ⟨by rw [hout]; exact List.mem_singleton.mpr rfl, herr, he⟩
    · constructor
      · rintro ⟨hmem, _⟩
        rw [hout] at hmem
        rcases List.mem_cons.mp hmem with h | h
        · cases h
        · have := tail_not_score l hops _ h
          cases this
      · intro hno
        exact absurd ⟨n1, hch⟩ hno
  · rcases hcase with ⟨hout, _⟩ | ⟨n1, hops, hout, _⟩
    · exact fun _ => hout
    · intro hmem
      rw [hout] at hmem
      rcases List.mem_cons.mp hmem with h | h
      · cases h
      · have := tail_not_score l hops _ h
        cases this

theorem score_is_shortest_chain_witness :
    Reached exGraph ∧ "Sally Field" ≠ "Kevin Bacon" ∧ BaconChain exGraph "Sally Field" 2 ∧
    (∀ k, BaconChain exGraph "Sally Field" k → 2 ≤ k) ∧
    ∃ r hops, calculateBaconScore exGraph 0 "Sally Field" true = some r ∧
      r.out = Printed.score 2 :: (if true then hopLines hops ++ [Printed.kevinBacon] else []) ∧
      r.err = [] ∧ r.errRet = 0 := by
  have h1 : Reached exGraph := ⟨heap0, false, exLines, [], _, rfl, rfl⟩
  have hwf : WF exGraph.actors exGraph.movies := buildGraph_WF heap0 exLines
  have h2 : BaconChain exGraph "Sally Field" 2 :=
    ⟨0, 2, by decide, by decide,
      Hops.snoc (Hops.snoc Hops.base (by decide : SharesMovie exGraph.movies 0 1))
        (by decide : SharesMovie exGraph.movies 1 2)⟩
  have hidx : ∀ (i j : Nat) (x : String), nameAt exGraph i = some x →
      nameAt exGraph j = some x → i = j := by
    intro i j x hi hj
    simp only [nameAt] at hi hj
    cases hia : exGraph.actors[i]? with
    | none => rw [hia] at hi; cases hi
    | some a =>
      cases hjb : exGraph.actors[j]? with
      | none => rw [hjb] at hj; cases hj
      | some b =>
        rw [hia] at hi
        rw [hjb] at hj
        simp only [Option.map_some', Option.some.injEq] at hi hj
        exact hwf.name_inj i j a b hia hjb (hi.trans hj.symm)
  have h3 : ∀ k, BaconChain exGraph "Sally Field" k → 2 ≤ k := by
    rintro k ⟨s, t, hs, ht, hh⟩
    have hs0 : s = 0 := hidx s 0 _ hs (by decide)
    have ht2 : t = 2 := hidx t 2 _ ht (by decide)
    subst hs0 ht2
    cases hh with
    | snoc hh1 hsh =>
      cases hh1 with
      | base => exact absurd hsh (by decide)
      | snoc _ _ => omega
  exact ⟨h1, by decide, h2, h3,
    score_is_shortest_chain exGraph h1 0 "Sally Field" true 2 (by decide) h2 h3⟩

theorem noBacon_iff_no_chain_witness :
    Reached (buildGraph heap0 orphanLines) ∧ "Orphan" ≠ "Kevin Bacon" ∧
    Registered (buildGraph heap0 orphanLines) "Orphan" ∧
    ∃ r, calculateBaconScore (buildGraph heap0 orphanLines) 0 "Orphan" true = some r ∧
      ((Printed.noBacon ∈ r.out ∧ r.err = [] ∧ r.errRet = 0) ↔
        ¬ ∃ n, BaconChain (buildGraph heap0 orphanLines) "Orphan" n) ∧
      (Printed.noBacon ∈ r.out → r.out = [Printed.noBacon]) :=
  ⟨⟨heap0, false, orphanLines, [], _, rfl, rfl⟩, by decide, by decide,
    noBacon_iff_no_chain (buildGraph heap0 orphanLines)
      ⟨heap0, false, orphanLines, [], _, rfl, rfl⟩ 0 "Orphan" true (by decide) (by decide)⟩

/-- C3 (as stated, refuted): in the file `Orphan / Movie: Footloose / Kevin Bacon` the
name "Orphan" is in no movie's cast, yet the query prints `Score: No Bacon!` and
raises no error; and in a file that never mentions him, the query "Kevin Bacon"
prints `Score: 0`. -/
theorem unknown_signal_counterexample :
    (∀ mv ∈ (buildGraph heap0 orphanLines).movies, ∀ i ∈ mv.cast,
        nameAt (buildGraph heap0 orphanLines) i ≠ some "Orphan") ∧
    (calculateBaconScore (buildGraph heap0 orphanLines) 0 "Orphan" false).map
        (fun r => (r.out, r.err, r.errRet)) = some ([Printed.noBacon], [], 0) ∧
    (∀ mv ∈ (buildGraph heap0 ["Movie: Big", "Tom Hanks"]).movies, ∀ i ∈ mv.cast,
        nameAt (buildGraph heap0 ["Movie: Big", "Tom Hanks"]) i ≠ some "Kevin Bacon") ∧
    (calculateBaconScore (buildGraph heap0 ["Movie: Big", "Tom Hanks"]) 0 "Kevin Bacon" false).map
        (fun r => (r.out, r.err, r.errRet)) = some ([Printed.score 0], [], 0) := by
  decide

/-- C3 (amended): for every input file and every query name other than "Kevin Bacon"
that is not an actor line of the file (no non-blank line without the `Movie: `
prefix equals it, under a movie or above the first one), the query returns with
the unknown-actor signal: the line `No actor named <name> entered` on the error
stream, `errRet` set to 1, and nothing on standard output. -/
theorem unlisted_name_is_unknown (heap : Nat → Actor) (fileLines : List String) (e : Int)
    (q : String) (l : Bool) (hq : q ≠ "Kevin Bacon")
    (hno : ¬ (q ∈ fileLines ∧ isActorLine q = true)) :
    ∃ r, calculateBaconScore (buildGraph heap fileLines) e q l = some r ∧
      r.out = [] ∧ r.err = [noActorMsg q] ∧ r.errRet = 1 :=
  ⟨_, calc_unknown _ e q l hq (fun h => hno ((registered_buildGraph heap fileLines q).mp h)),
    rfl, rfl, rfl⟩

theorem unlisted_name_is_unknown_witness :
    "Unknown Person" ≠ "Kevin Bacon" ∧
    ¬ ("Unknown Person" ∈ exLines ∧ isActorLine "Unknown Person" = true) ∧
    ∃ r, calculateBaconScore (buildGraph heap0 exLines) 0 "Unknown Person" true = some r ∧
      r.out = [] ∧ r.err = [noActorMsg "Unknown Person"] ∧ r.errRet = 1 :=
  ⟨by decide, by decide,
    unlisted_name_is_unknown heap0 exLines 0 "Unknown Person" true (by decide) (by decide)⟩

/-- C4: on any heap whatsoever and for either value of the flag, the query
"Kevin Bacon" returns and prints `Score: 0`, followed by the single line
`Kevin Bacon` exactly when path printing is on, with no hop line; nothing goes to
the error stream and `errRet` keeps its value. -/
theorem kevin_bacon_scores_zero (g : Graph) (e : Int) (l : Bool) :
    ∃ r, calculateBaconScore g e "Kevin Bacon" l = some r ∧
      r.out = Printed.score 0 :: (if l then [Printed.kevinBacon] else []) ∧
      renderAll r.out = (if l then "Score: 0\nKevin Bacon\n" else "Score: 0\n") ∧
      r.err = [] ∧ r.errRet = e := by
  refine ⟨_, calc_bacon g e l, rfl, ?_, rfl, rfl⟩
  cases l <;> rfl

theorem score_mem_out {n m : Nat} {l : Bool} {hops : List (String × String)}
    (h : Printed.score n ∈
      Printed.score m :: (if l then hopLines hops ++ [Printed.kevinBacon] else [])) :
    n = m := by
  rcases List.mem_cons.mp h with h | h
  · cases h
    rfl
  · have := tail_not_score l hops _ h
    cases this

/-- C5: on every heap the process reaches and for every query, the call with path
printing returns, and whenever it prints `Score: n` the rest of its output is
exactly `n` hops (one `printf` of "<actor> / was in <movie> with" each) followed
by the closing `Kevin Bacon` line: `printPath` never stops before the chain is
complete. -/
theorem path_has_as_many_hops_as_score (g : Graph) (hg : Reached g) (e : Int) (q : String) :
    ∃ r, calculateBaconScore g e q true = some r ∧
      ∀ n, Printed.score n ∈ r.out →
        ∃ hops : List (String × String), hops.length = n ∧
          r.out = Printed.score n :: (hopLines hops ++ [Printed.kevinBacon]) := by
  by_cases hq : q = "Kevin Bacon"
  · subst hq
    refine ⟨_, calc_bacon g e true, ?_⟩
    intro n hn
    have : n = 0 := @score_mem_out n 0 true [] (by simpa [hopLines] using hn)
    subst this
    exact ⟨[], rfl, rfl⟩
  · by_cases hr : Registered g q
    · obtain ⟨r, h1, _, _, _, _, hcase⟩ := calc_known g (Reached_WF hg) e q true hq hr
      refine ⟨r, h1, ?_⟩
      intro n hn
      rcases hcase with ⟨hout, _⟩ | ⟨n1, hops, hout, _, _, _, hlen, _⟩
      · rw [hout] at hn
        simp at hn
      · rw [hout] at hn
        have : n = n1 := score_mem_out hn
        subst this
        exact ⟨hops, hlen, by simpa using hout⟩
    · refine ⟨_, calc_unknown g e q true hq hr, ?_⟩
      intro n hn
      simp at hn

theorem path_has_as_many_hops_as_score_witness :
    Reached exGraph ∧
    ∃ r, calculateBaconScore exGraph 0 "Sally Field" true = some r ∧
      ∀ n, Printed.score n ∈ r.out →
        ∃ hops : List (String × String), hops.length = n ∧
          r.out = Printed.score n :: (hopLines hops ++ [Printed.kevinBacon]) :=
  ⟨⟨heap0, false, exLines, [], _, rfl, rfl⟩,
    path_has_as_many_hops_as_score exGraph ⟨heap0, false, exLines, [], _, rfl, rfl⟩ 0
      "Sally Field"⟩

/-- C6: on every heap the process reaches, whenever a query `q` prints `Score: n`
with `n ≥ 1` and path printing on, the output is that line, hops, and the closing
`Kevin Bacon` line; the first hop names `q`, and for every hop "A / was in M with"
some movie titled `M` has in its cast both `A` and the actor named next (the
following hop's actor, or Kevin Bacon after the last hop). -/
theorem printed_chain_is_genuine (g : Graph) (hg : Reached g) (e : Int) (q : String) :
    ∃ r, calculateBaconScore g e q true = some r ∧
      ∀ n, 1 ≤ n → Printed.score n ∈ r.out →
        ∃ hops : List (String × String),
          r.out = Printed.score n :: (hopLines hops ++ [Printed.kevinBacon]) ∧
          hops.length = n ∧
          hops.head?.map Prod.fst = some q ∧
          GenuineChain g "Kevin Bacon" hops := by
  by_cases hq : q = "Kevin Bacon"
  · subst hq
    refine ⟨_, calc_bacon g e true, ?_⟩
    intro n hn1 hn
    have : n = 0 := @score_mem_out n 0 true [] (by simpa [hopLines] using hn)
    omega
  · by_cases hr : Registered g q
    · obtain ⟨r, h1, _, _, _, _, hcase⟩ := calc_known g (Reached_WF hg) e q true hq hr
      refine ⟨r, h1, ?_⟩
      intro n hn1 hn
      rcases hcase with ⟨hout, _⟩ | ⟨n1, hops, hout, _, _, _, hlen, hgen, hnext⟩
      · rw [hout] at hn
        simp at hn
      · rw [hout] at hn
        have : n = n1 := score_mem_out hn
        subst this
        refine ⟨hops, by simpa using hout, hlen, ?_, hgen⟩
        cases hops with
        | nil => simp at hlen; omega
        | cons h rest => simpa [nextName] using hnext
    · refine ⟨_, calc_unknown g e q true hq hr, ?_⟩
      intro n _ hn
      simp at hn

theorem printed_chain_is_genuine_witness :
    Reached exGraph ∧
    ∃ r, calculateBaconScore exGraph 0 "Sally Field" true = some r ∧
      ∀ n, 1 ≤ n → Printed.score n ∈ r.out →
        ∃ hops : List (String × String),
          r.out = Printed.score n :: (hopLines hops ++ [Printed.kevinBacon]) ∧
          hops.length = n ∧
          hops.head?.map Prod.fst = some "Sally Field" ∧
          GenuineChain exGraph "Kevin Bacon" hops :=
  ⟨⟨heap0, false, exLines, [], _, rfl, rfl⟩,
    printed_chain_is_genuine exGraph ⟨heap0, false, exLines, [], _, rfl, rfl⟩ 0 "Sally Field"⟩

/-- C7: on every heap the process reaches, for every query name and either flag
value, two calls of `calculateBaconScore` in succession with the same query both
return, and write the same standard output, the same error-stream text and give
the same kind of outcome. -/
theorem same_query_twice (g : Graph) (hg : Reached g) (e : Int) (q : String) (l : Bool) :
    ∃ r1 r2, calculateBaconScore g e q l = some r1 ∧
      calculateBaconScore r1.g r1.errRet q l = some r2 ∧
      r2.out = r1.out ∧ r2.err = r1.err ∧ renderAll r2.out = renderAll r1.out ∧
      r2.outcome = r1.outcome := by
  have hw := Reached_WF hg
  obtain ⟨r1, h1, hm, hs⟩ := calc_total g hw e q l
  have hw1 : WF r1.g.actors r1.g.movies := by
    rw [hm]
    exact WF_shape hs hw
  obtain ⟨r2, h2, _, _⟩ := calc_total r1.g hw1 r1.errRet q l
  have hc := calc_congr hm hs e r1.errRet q l
  rw [h1, h2] at hc
  simp only [Option.map_some', Option.some.injEq, Prod.mk.injEq] at hc
  refine ⟨r1, r2, h1, h2, hc.1, hc.2, by rw [hc.1], ?_⟩
  simp only [Result.outcome, hc.1]

theorem same_query_twice_witness :
    Reached exGraph ∧
    ∃ r1 r2, calculateBaconScore exGraph 0 "Sally Field" true = some r1 ∧
      calculateBaconScore r1.g r1.errRet "Sally Field" true = some r2 ∧
      r2.out = r1.out ∧ r2.err = r1.err ∧ renderAll r2.out = renderAll r1.out ∧
      r2.outcome = r1.outcome :=
  ⟨⟨heap0, false, exLines, [], _, rfl, rfl⟩,
    same_query_twice exGraph ⟨heap0, false, exLines, [], _, rfl, rfl⟩ 0 "Sally Field" true⟩

/-- C10 (as stated, refuted): for the unknown name "Unknown Person" the call writes
nothing at all on standard output, so none of the three score outputs is produced. -/
theorem one_score_line_counterexample :
    (calculateBaconScore exGraph 0 "Unknown Person" false).map
      (fun r => (r.out, (r.out.filter Printed.isScoreLine).length)) = some ([], 0) := by
  decide

/-- C10 (amended): on every heap the process reaches, a query that is "Kevin Bacon"
or the name of a registered actor produces exactly one score output, the first
thing printed: `Score: 0`, `Score: n` with `n ≥ 1`, or `Score: No Bacon!`, and
nothing after it is a score output; a query that is neither prints nothing on
standard output; `Score: 0` is printed only for the query "Kevin Bacon", so every
score printed for another name is at least 1. -/
theorem exactly_one_score_line (g : Graph) (hg : Reached g) (e : Int) (q : String) (l : Bool) :
    ∃ r, calculateBaconScore g e q l = some r ∧
      ((q = "Kevin Bacon" ∨ Registered g q) →
        ∃ p rest, r.out = p :: rest ∧
          (p = Printed.score 0 ∨ (∃ n, 1 ≤ n ∧ p = Printed.score n) ∨ p = Printed.noBacon) ∧
          (∀ x ∈ rest, x.isScoreLine = false) ∧
          (r.out.filter Printed.isScoreLine).length = 1) ∧
      (q ≠ "Kevin Bacon" → ¬ Registered g q → r.out = []) ∧
      (Printed.score 0 ∈ r.out → q = "Kevin Bacon") ∧
      (∀ n, Printed.score n ∈ r.out → q ≠ "Kevin Bacon" → 1 ≤ n) := by
  have hcount : ∀ (p : Printed) (rest : List Printed), p.isScoreLine = true →
      (∀ x ∈ rest, x.isScoreLine = false) →
      ((p :: rest).filter Printed.isScoreLine).length = 1 := by
    intro p rest hp hrest
    have : rest.filter Printed.isScoreLine = [] := by
      rw [List.filter_eq_nil_iff]
      intro x hx
      simp [hrest x hx]
    simp [List.filter_cons, hp, this]
  by_cases hq : q = "Kevin Bacon"
  · subst hq
    refine ⟨_, calc_bacon g e l, ?_, fun h => absurd rfl h, fun _ => rfl, fun _ _ h => absurd rfl h⟩
    intro _
    have hrest : ∀ x ∈ (if l then [Printed.kevinBacon] else []), x.isScoreLine = false := by
      intro x hx
      cases l with
      | false => simp at hx
      | true =>
        simp at hx
        subst hx
        rfl
    exact ⟨_, _, rfl, Or.inl rfl, hrest, hcount _ _ rfl hrest⟩
  · by_cases hr : Registered g q
    · obtain ⟨r, h1, _, _, _, _, hcase⟩ := calc_known g (Reached_WF hg) e q l hq hr
      rcases hcase with ⟨hout, _⟩ | ⟨n1, hops, hout, hn1, _⟩
      · refine ⟨r, h1, ?_, fun _ h => absurd hr h, ?_, ?_⟩
        · intro _
          refine ⟨Printed.noBacon, [], hout, Or.inr (Or.inr rfl), by simp, ?_⟩
          rw [hout]
          rfl
        · intro h
          rw [hout] at h
          simp at h
        · intro n h
          rw [hout] at h
          simp at h
      · refine ⟨r, h1, ?_, fun _ h => absurd hr h, ?_, ?_⟩
        · intro _
          refine ⟨_, _, hout, Or.inr (Or.inl ⟨n1, hn1, rfl⟩), tail_not_score l hops, ?_⟩
          rw [hout]
          exact hcount _ _ rfl (tail_not_score l hops)
        · intro h
          rw [hout] at h
          have := score_mem_out h
          omega
        · intro n h _
          rw [hout] at h
          have := score_mem_out h
          omega
    · refine ⟨_, calc_unknown g e q l hq hr, fun h => ?_, fun _ _ => rfl, ?_, ?_⟩
      · rcases h with h | h
        · exact absurd h hq
        · exact absurd h hr
      · intro h
        simp at h
      · intro n h
        simp at h

theorem exactly_one_score_line_witness :
    Reached exGraph ∧
    ∃ r, calculateBaconScore exGraph 0 "Tom Hanks" true = some r ∧
      (("Tom Hanks" = "Kevin Bacon" ∨ Registered exGraph "Tom Hanks") →
        ∃ p rest, r.out = p :: rest ∧
          (p = Printed.score 0 ∨ (∃ n, 1 ≤ n ∧ p = Printed.score n) ∨ p = Printed.noBacon) ∧
          (∀ x ∈ rest, x.isScoreLine = false) ∧
          (r.out.filter Printed.isScoreLine).length = 1) ∧
      ("Tom Hanks" ≠ "Kevin Bacon" → ¬ Registered exGraph "Tom Hanks" → r.out = []) ∧
      (Printed.score 0 ∈ r.out → "Tom Hanks" = "Kevin Bacon") ∧
      (∀ n, Printed.score n ∈ r.out → "Tom Hanks" ≠ "Kevin Bacon" → 1 ≤ n) :=
  ⟨⟨heap0, false, exLines, [], _, rfl, rfl⟩,
    exactly_one_score_line exGraph ⟨heap0, false, exLines, [], _, rfl, rfl⟩ 0 "Tom Hanks" true⟩

/-! ## The query loop in closed form -/

theorem registered_shape {g g' : Graph}
    (hs : g'.actors.map Actor.shape = g.actors.map Actor.shape) (q : String) :
    Registered g' q ↔ Registered g q := by
  rw [registered_iff_findActor, registered_iff_findActor,
    findActor_names q (shape_names hs)]

theorem isUnknown_shape {g g' : Graph}
    (hs : g'.actors.map Actor.shape = g.actors.map Actor.shape) (q : String) :
    IsUnknown g' q ↔ IsUnknown g q := by
  simp only [IsUnknown, registered_shape hs]

theorem answer_congr {g g' : Graph} (hm : g'.movies = g.movies)
    (hs : g'.actors.map Actor.shape = g.actors.map Actor.shape) (l : Bool) (q : String) :
    answer g' l q = answer g l q := by
  have h := calc_congr hm hs 0 0 q l
  unfold answer
  cases h1 : calculateBaconScore g' 0 q l <;> cases h2 : calculateBaconScore g 0 q l <;>
    rw [h1, h2] at h <;> simp at h ⊢
  exact ⟨h.1, h.2⟩

theorem answer_of_calc {g : Graph} {e : Int} {q : String} {l : Bool} {r : Result}
    (h : calculateBaconScore g e q l = some r) : answer g l q = (r.out, r.err) := by
  have hc := @calc_congr g g rfl rfl e 0 q l
  rw [h] at hc
  unfold answer
  cases h2 : calculateBaconScore g 0 q l with
  | none => rw [h2] at hc; simp at hc
  | some r2 =>
    rw [h2] at hc
    simp only [Option.map_some', Option.some.injEq, Prod.mk.injEq] at hc
    simp [hc.1, hc.2]

theorem queryLoop_closed (l : Bool) (qs : List String) :
    ∀ w : World, WF w.g.actors w.g.movies →
      ∃ w1, queryLoop l qs w = some w1 ∧ w1.g.movies = w.g.movies ∧
        w1.g.actors.map Actor.shape = w.g.actors.map Actor.shape ∧
        w1.out = w.out ++ (processed qs).flatMap (fun q => (answer w.g l q).1) ∧
        w1.err = w.err ++ (processed qs).flatMap (fun q => (answer w.g l q).2) ∧
        w1.errRet = if ∃ q ∈ processed qs, IsUnknown w.g q then 1 else w.errRet := by
  induction qs with
  | nil =>
    intro w _
    exact ⟨w, rfl, rfl, rfl, by simp [processed], by simp [processed], by simp [processed]⟩
  | cons query rest ih =>
    intro w hw
    by_cases hx : query = "exit"
    · refine ⟨w, by simp [queryLoop, hx], rfl, rfl, ?_, ?_, ?_⟩ <;> simp [processed, hx]
    · obtain ⟨r, hr, hm, hs⟩ := calc_total w.g hw w.errRet query l
      obtain ⟨r', hr', herr⟩ := calc_errRet w.g hw w.errRet query l
      rw [hr] at hr'
      cases hr'
      have hw1 : WF r.g.actors r.g.movies := by
        rw [hm]
        exact WF_shape hs hw
      obtain ⟨w1, h1, hm1, hs1, ho1, he1, hr1⟩ := ih
        { g := r.g, out := w.out ++ r.out, err := w.err ++ r.err, errRet := r.errRet } hw1
      have hans := answer_of_calc hr
      have hfun : ∀ q, answer r.g l q = answer w.g l q := fun q => answer_congr hm hs l q
      have hproc : processed (query :: rest) = query :: processed rest := by
        simp [processed, hx]
      refine ⟨w1, ?_, hm1.trans hm, hs1.trans hs, ?_, ?_, ?_⟩
      · simp only [queryLoop, hx, if_false, hr]
        exact h1
      · rw [ho1, hproc, List.flatMap_cons, hans]
        simp only [hfun, List.append_assoc]
      · rw [he1, hproc, List.flatMap_cons, hans]
        simp only [hfun, List.append_assoc]
      · rw [hr1, hproc, herr]
        simp only [List.mem_cons, exists_eq_or_imp, IsUnknown, registered_shape hs]
        by_cases hu : query ≠ "Kevin Bacon" ∧ ¬ Registered w.g query
        · simp [hu]
        · simp only [hu, if_false, false_or]

/-! ## The content of freshly allocated blocks does not matter -/

theorem shape_modify (m i : Nat) (l : List Actor) :
    (List.modify (fun a => { a with movies := m :: a.movies }) i l).map Actor.shape =
      List.modify (fun p => (p.1, m :: p.2)) i (l.map Actor.shape) := by
  induction l generalizing i with
  | nil => simp
  | cons x xs ih =>
    cases i with
    | zero => simp [Actor.shape]
    | succ k => simp [ih]

theorem findOrAddActor_shape {l l' : List Actor} (h : l'.map Actor.shape = l.map Actor.shape)
    (name : String) (fresh fresh' : Actor) :
    (findOrAddActor l' name fresh').1.map Actor.shape =
        (findOrAddActor l name fresh).1.map Actor.shape ∧
      (findOrAddActor l' name fresh').2 = (findOrAddActor l name fresh).2 := by
  unfold findOrAddActor
  rw [findActor_names name (shape_names h)]
  cases findActor l name with
  | some i => exact ⟨h, rfl⟩
  | none =>
    refine ⟨?_, shape_length h⟩
    simp [h, Actor.shape]

theorem parseLine_heap (heap heap' : Nat → Actor) {st st' : ParseState}
    (hm : st'.g.movies = st.g.movies)
    (hs : st'.g.actors.map Actor.shape = st.g.actors.map Actor.shape)
    (hl : st'.lastMovie = st.lastMovie) (line : String) :
    (parseLine heap' st' line).g.movies = (parseLine heap st line).g.movies ∧
    (parseLine heap' st' line).g.actors.map Actor.shape =
      (parseLine heap st line).g.actors.map Actor.shape ∧
    (parseLine heap' st' line).lastMovie = (parseLine heap st line).lastMovie := by
  unfold parseLine
  by_cases hb : line.length = 0
  · simp only [hb, if_true]
    exact ⟨hm, hs, hl⟩
  · by_cases hmv : isMovieLine line = true
    · simp only [hb, hmv, if_false, if_true, hm]
      exact ⟨trivial, hs, trivial⟩
    · have hm2 : isMovieLine line = false := by simpa using hmv
      simp only [hb, hm2, if_false, Bool.false_eq_true, hl]
      obtain ⟨h1, h2⟩ := findOrAddActor_shape hs line (heap st.g.actors.length)
        (heap' st'.g.actors.length)
      cases st.lastMovie with
      | none => exact ⟨hm, h1, rfl⟩
      | some m =>
        simp only [linkActorMovie, hm, h2]
        refine ⟨trivial, ?_, trivial⟩
        rw [shape_modify, shape_modify, h1]

theorem foldl_parseLine_heap (heap heap' : Nat → Actor) (lines : List String) :
    ∀ (st st' : ParseState), st'.g.movies = st.g.movies →
      st'.g.actors.map Actor.shape = st.g.actors.map Actor.shape →
      st'.lastMovie = st.lastMovie →
      (lines.foldl (parseLine heap') st').g.movies = (lines.foldl (parseLine heap) st).g.movies ∧
      (lines.foldl (parseLine heap') st').g.actors.map Actor.shape =
        (lines.foldl (parseLine heap) st).g.actors.map Actor.shape := by
  induction lines with
  | nil => exact fun st st' hm hs _ => ⟨hm, hs⟩
  | cons line rest ih =>
    intro st st' hm hs hl
    obtain ⟨h1, h2, h3⟩ := parseLine_heap heap heap' hm hs hl line
    exact ih _ _ h1 h2 h3

theorem buildGraph_heap (heap heap' : Nat → Actor) (lines : List String) :
    (buildGraph heap' lines).movies = (buildGraph heap lines).movies ∧
    (buildGraph heap' lines).actors.map Actor.shape =
      (buildGraph heap lines).actors.map Actor.shape :=
  foldl_parseLine_heap heap heap' lines _ _ rfl rfl rfl

theorem parseMovieFile_closed (heap : Nat → Actor) (l : Bool) (fileLines qs : List String) :
    ∃ w, parseMovieFile heap l fileLines qs = some w ∧
      w.out = (processed qs).flatMap (fun q => (answer (buildGraph heap fileLines) l q).1) ∧
      w.err = (processed qs).flatMap (fun q => (answer (buildGraph heap fileLines) l q).2) ∧
      w.errRet = if ∃ q ∈ processed qs, IsUnknown (buildGraph heap fileLines) q then 1 else 0 := by
  obtain ⟨w, h, _, _, ho, he, hr⟩ := queryLoop_closed l qs
    { g := buildGraph heap fileLines, out := [], err := [], errRet := 0 }
    (buildGraph_WF heap fileLines)
  exact ⟨w, h, by simpa using ho, by simpa using he, hr⟩

theorem parseMovieFile_heap (heap heap' : Nat → Actor) (l : Bool) (fileLines qs : List String) :
    (parseMovieFile heap' l fileLines qs).map (fun w => (w.out, w.err, w.errRet)) =
      (parseMovieFile heap l fileLines qs).map (fun w => (w.out, w.err, w.errRet)) := by
  obtain ⟨w, h, ho, he, hr⟩ := parseMovieFile_closed heap l fileLines qs
  obtain ⟨w', h', ho', he', hr'⟩ := parseMovieFile_closed heap' l fileLines qs
  obtain ⟨hm, hs⟩ := buildGraph_heap heap heap' fileLines
  have hfun : ∀ q, answer (buildGraph heap' fileLines) l q
      = answer (buildGraph heap fileLines) l q := fun q => answer_congr hm hs l q
  rw [h, h']
  simp only [Option.map_some', Option.some.injEq, Prod.mk.injEq]
  refine ⟨?_, ?_, ?_⟩
  · rw [ho, ho']
    simp only [hfun]
  · rw [he, he']
    simp only [hfun]
  · rw [hr, hr']
    simp only [isUnknown_shape hs]

theorem run_of_heap0 {heap : Nat → Actor} {l : Bool} {fileLines qs : List String}
    {o : List Printed} {e : List String} {r : Int}
    (h : (parseMovieFile heap0 l fileLines qs).map (fun w => (w.out, w.err, w.errRet))
      = some (o, e, r)) :
    ∃ w, parseMovieFile heap l fileLines qs = some w ∧ w.out = o ∧ w.err = e ∧ w.errRet = r := by
  have hh := parseMovieFile_heap heap0 heap l fileLines qs
  rw [h] at hh
  cases hw : parseMovieFile heap l fileLines qs with
  | none => rw [hw] at hh; cases hh
  | some w =>
    rw [hw] at hh
    simp only [Option.map_some', Option.some.injEq, Prod.mk.injEq] at hh
    exact ⟨w, rfl, hh.1, hh.2.1, hh.2.2⟩

theorem processed_append {pre : List String} (hpre : "exit" ∉ pre) (rest : List String) :
    processed (pre ++ rest) = pre ++ processed rest := by
  unfold processed
  apply List.takeWhile_append_of_pos
  intro a ha
  simp only [decide_eq_true_eq]
  rintro rfl
  exact hpre ha

/-- C8: for the input lines of the specification's example, whatever the content of
freshly allocated blocks, the query "Sally Field" with path printing on prints
exactly `Score: 2`, `Sally Field`, `was in Forrest Gump with`, `Tom Hanks`,
`was in Apollo 13 with`, `Kevin Bacon` and nothing on the error stream; the query
"Unknown Person" writes `No actor named Unknown Person entered` to the error
stream, nothing to standard output, and makes the exit status 1 (nonzero). -/
theorem spec_example (heap : Nat → Actor) :
    (∃ w, parseMovieFile heap true exLines ["Sally Field"] = some w ∧
      renderAll w.out =
        "Score: 2\nSally Field\nwas in Forrest Gump with\nTom Hanks\nwas in Apollo 13 with\nKevin Bacon\n" ∧
      w.err = []) ∧
    (∀ l : Bool, ∃ w, parseMovieFile heap l exLines ["Unknown Person"] = some w ∧
      w.out = [] ∧ String.join w.err = "No actor named Unknown Person entered\n" ∧
      exitStatus heap l exLines ["Unknown Person"] = some 1) := by
  constructor
  · obtain ⟨w, hw, ho, he, _⟩ := @run_of_heap0 heap true exLines ["Sally Field"]
      [Printed.score 2, Printed.hop "Sally Field" "Forrest Gump",
        Printed.hop "Tom Hanks" "Apollo 13", Printed.kevinBacon] [] 0 (by decide)
    refine ⟨w, hw, ?_, he⟩
    rw [ho]
    decide
  · intro l
    have h0 : (parseMovieFile heap0 l exLines ["Unknown Person"]).map
        (fun w => (w.out, w.err, w.errRet))
        = some ([], ["No actor named Unknown Person entered\n"], 1) := by
      cases l <;> decide
    obtain ⟨w, hw, ho, he, hr⟩ := @run_of_heap0 heap _ _ _ _ _ _ h0
    refine ⟨w, hw, ho, ?_, ?_⟩
    · rw [he]
      decide
    · simp [exitStatus, hw, hr]

/-- C9: for every input file and flag, when a query `u` that is neither "Kevin Bacon"
nor a registered name is processed after the queries `pre` and before the lines
`post`: the call for `u` returns having written `No actor named u entered` to the
error stream, nothing to standard output, and `1` to `errRet`; the whole session
returns with the same standard output as the session without `u`, with an error
stream that differs only by that line at its place, and with exit status 1
whatever follows; and for every sequence of query lines the exit status is 1 if
and only if some processed query was such an unknown name, and 0 otherwise. -/
theorem unknown_query_is_isolated (heap : Nat → Actor) (l : Bool)
    (fileLines pre post : List String) (u : String)
    (hpre : "exit" ∉ pre) (hx : u ≠ "exit") (hu : IsUnknown (buildGraph heap fileLines) u) :
    (∃ w1 w w0, parseMovieFile heap l fileLines pre = some w1 ∧
      parseMovieFile heap l fileLines (pre ++ u :: post) = some w ∧
      parseMovieFile heap l fileLines (pre ++ post) = some w0 ∧
      (∃ r, calculateBaconScore w1.g w1.errRet u l = some r ∧
        r.out = [] ∧ r.err = [noActorMsg u] ∧ r.errRet = 1) ∧
      w.out = w0.out ∧
      (∃ errPost, w0.err = w1.err ++ errPost ∧ w.err = w1.err ++ noActorMsg u :: errPost) ∧
      w.errRet = 1 ∧
      exitStatus heap l fileLines (pre ++ u :: post) = some 1) ∧
    (∀ qs : List String, ∃ wq, parseMovieFile heap l fileLines qs = some wq ∧
      (wq.errRet = 1 ↔ ∃ q ∈ processed qs, IsUnknown (buildGraph heap fileLines) q) ∧
      (wq.errRet = 0 ↔ ¬ ∃ q ∈ processed qs, IsUnknown (buildGraph heap fileLines) q)) := by
  constructor
  · obtain ⟨w1, h1, hm1, hs1, _, he1, _⟩ := queryLoop_closed l pre
      { g := buildGraph heap fileLines, out := [], err := [], errRet := 0 }
      (buildGraph_WF heap fileLines)
    obtain ⟨w, h, ho, he, hr⟩ := parseMovieFile_closed heap l fileLines (pre ++ u :: post)
    obtain ⟨w0, h0, ho0, he0, _⟩ := parseMovieFile_closed heap l fileLines (pre ++ post)
    have hp : processed (u :: post) = u :: processed post := by simp [processed, hx]
    have hpre0 : processed pre = pre := by
      have := processed_append hpre []
      simpa [processed] using this
    have hans : answer (buildGraph heap fileLines) l u = ([], [noActorMsg u]) :=
      answer_of_calc (calc_unknown _ 0 u l hu.1 hu.2)
    have hu1 : IsUnknown w1.g u := (isUnknown_shape hs1 u).mpr hu
    rw [processed_append hpre, hp] at ho he hr
    rw [processed_append hpre] at ho0 he0
    simp only [List.nil_append, hpre0] at he1
    refine ⟨w1, w, w0, h1, h, h0, ⟨_, calc_unknown w1.g w1.errRet u l hu1.1 hu1.2, rfl, rfl, rfl⟩,
      ?_, ⟨(processed post).flatMap (fun q => (answer (buildGraph heap fileLines) l q).2), ?_, ?_⟩,
      ?_, ?_⟩
    · rw [ho, ho0]
      simp [List.flatMap_append, List.flatMap_cons, hans]
    · rw [he0, he1, List.flatMap_append]
    · rw [he, he1, List.flatMap_append, List.flatMap_cons, hans]
      rfl
    · rw [hr, if_pos]
      exact ⟨u, by simp, hu⟩
    · have hr1 : w.errRet = 1 := by
        rw [hr, if_pos]
        exact ⟨u, by simp, hu⟩
      simp [exitStatus, h, hr1]
  · intro qs
    obtain ⟨wq, hq, _, _, hr⟩ := parseMovieFile_closed heap l fileLines qs
    refine ⟨wq, hq, ?_, ?_⟩
    · rw [hr]
      by_cases hex : ∃ q ∈ processed qs, IsUnknown (buildGraph heap fileLines) q
      · simp [hex]
      · simp [hex]
    · rw [hr]
      by_cases hex : ∃ q ∈ processed qs, IsUnknown (buildGraph heap fileLines) q
      · simp [hex]
      · simp [hex]

theorem unknown_query_is_isolated_witness :
    "exit" ∉ ["Sally Field"] ∧ "Unknown Person" ≠ "exit" ∧
    IsUnknown (buildGraph heap0 exLines) "Unknown Person" ∧
    ((∃ w1 w w0, parseMovieFile heap0 true exLines ["Sally Field"] = some w1 ∧
      parseMovieFile heap0 true exLines (["Sally Field"] ++ "Unknown Person" :: ["Tom Hanks"])
        = some w ∧
      parseMovieFile heap0 true exLines (["Sally Field"] ++ ["Tom Hanks"]) = some w0 ∧
      (∃ r, calculateBaconScore w1.g w1.errRet "Unknown Person" true = some r ∧
        r.out = [] ∧ r.err = [noActorMsg "Unknown Person"] ∧ r.errRet = 1) ∧
      w.out = w0.out ∧
      (∃ errPost, w0.err = w1.err ++ errPost ∧
        w.err = w1.err ++ noActorMsg "Unknown Person" :: errPost) ∧
      w.errRet = 1 ∧
      exitStatus heap0 true exLines (["Sally Field"] ++ "Unknown Person" :: ["Tom Hanks"])
        = some 1) ∧
    (∀ qs : List String, ∃ wq, parseMovieFile heap0 true exLines qs = some wq ∧
      (wq.errRet = 1 ↔ ∃ q ∈ processed qs, IsUnknown (buildGraph heap0 exLines) q) ∧
      (wq.errRet = 0 ↔ ¬ ∃ q ∈ processed qs, IsUnknown (buildGraph heap0 exLines) q))) :=
  ⟨by decide, by decide, by decide,
    unknown_query_is_isolated heap0 true exLines ["Sally Field"] ["Tom Hanks"] "Unknown Person"
      (by decide) (by decide) (by decide)⟩

/-! ## Later claims: history independence, the exit token, the graph store -/

/-- C20: on every heap the process reaches, replacing the `visited` and `parent`
fields of all actors by arbitrary values (names and movie lists kept) changes
neither what `calculateBaconScore` writes to standard output nor what it writes
to the error stream, for every query name, flag and value of `errRet`; both calls
return. -/
theorem output_is_history_independent (g : Graph) (hg : Reached g) (actors1 : List Actor)
    (hs : actors1.map Actor.shape = g.actors.map Actor.shape) (e e1 : Int) (q : String)
    (l : Bool) :
    ∃ r r1, calculateBaconScore g e q l = some r ∧
      calculateBaconScore { g with actors := actors1 } e1 q l = some r1 ∧
      r1.out = r.out ∧ r1.err = r.err ∧ renderAll r1.out = renderAll r.out := by
  have hw := Reached_WF hg
  obtain ⟨r, h, _, _⟩ := calc_total g hw e q l
  have hw1 : WF actors1 g.movies := WF_shape hs hw
  obtain ⟨r1, h1, _, _⟩ := calc_total { g with actors := actors1 } hw1 e1 q l
  have hc := @calc_congr g { g with actors := actors1 } rfl hs e e1 q l
  rw [h, h1] at hc
  simp only [Option.map_some', Option.some.injEq, Prod.mk.injEq] at hc
  exact ⟨r, r1, h, h1, hc.1, hc.2, by rw [hc.1]⟩

theorem output_is_history_independent_witness :
    Reached exGraph ∧ exGraphAlt.actors.map Actor.shape = exGraph.actors.map Actor.shape ∧
    ∃ r r1, calculateBaconScore exGraph 0 "Sally Field" true = some r ∧
      calculateBaconScore { exGraph with actors := exGraphAlt.actors } 1 "Sally Field" true
        = some r1 ∧
      r1.out = r.out ∧ r1.err = r.err ∧ renderAll r1.out = renderAll r.out :=
  ⟨⟨heap0, false, exLines, [], _, rfl, rfl⟩, by decide,
    output_is_history_independent exGraph ⟨heap0, false, exLines, [], _, rfl, rfl⟩
      exGraphAlt.actors (by decide) 0 1 "Sally Field" true⟩

theorem queryLoop_eq_runAll (l : Bool) (qs : List String) (hqs : "exit" ∉ qs) :
    ∀ w : World, queryLoop l qs w = runAll l qs w := by
  induction qs with
  | nil => exact fun w => rfl
  | cons query rest ih =>
    intro w
    have hx : query ≠ "exit" := fun h => hqs (by simp [h])
    have hrest : "exit" ∉ rest := fun h => hqs (List.mem_cons_of_mem _ h)
    simp only [queryLoop, runAll, hx, if_false]
    cases calculateBaconScore w.g w.errRet query l with
    | none => rfl
    | some r => exact ih hrest _

theorem queryLoop_exit (l : Bool) (pre post : List String) (hpre : "exit" ∉ pre) :
    ∀ w : World, queryLoop l (pre ++ "exit" :: post) w = queryLoop l pre w := by
  induction pre with
  | nil =>
    intro w
    simp [queryLoop]
  | cons query rest ih =>
    intro w
    have hx : query ≠ "exit" := fun h => hpre (by simp [h])
    have hrest : "exit" ∉ rest := fun h => hpre (List.mem_cons_of_mem _ h)
    simp only [List.cons_append, queryLoop, hx, if_false]
    cases calculateBaconScore w.g w.errRet query l with
    | none => rfl
    | some r => exact ih hrest _

/-- C17: when `pre` holds no line equal to `exit`, the query loop on `pre`, then the
line `exit`, then any further lines `post` does exactly what calling
`calculateBaconScore` once on every line of `pre`, in order, does: same heap, same
standard output, same error stream, same `errRet`, so the `exit` line and the lines
after it have no effect; without an `exit` line every line is processed; and for
every input file the session returns. -/
theorem loop_stops_at_exit (heap : Nat → Actor) (l : Bool) (fileLines pre post : List String)
    (hpre : "exit" ∉ pre) :
    (∀ w : World, queryLoop l (pre ++ "exit" :: post) w = runAll l pre w) ∧
    (∀ w : World, queryLoop l pre w = runAll l pre w) ∧
    (∃ w, parseMovieFile heap l fileLines (pre ++ "exit" :: post) = some w ∧
      parseMovieFile heap l fileLines pre = some w ∧
      runAll l pre { g := buildGraph heap fileLines, out := [], err := [], errRet := 0 }
        = some w) := by
  refine ⟨fun w => (queryLoop_exit l pre post hpre w).trans (queryLoop_eq_runAll l pre hpre w),
    queryLoop_eq_runAll l pre hpre, ?_⟩
  obtain ⟨w, hw, _⟩ := parseMovieFile_closed heap l fileLines pre
  refine ⟨w, ?_, hw, ?_⟩
  · unfold parseMovieFile at hw ⊢
    rw [queryLoop_exit l pre post hpre]
    exact hw
  · unfold parseMovieFile at hw
    rw [← queryLoop_eq_runAll l pre hpre]
    exact hw

theorem loop_stops_at_exit_witness :
    "exit" ∉ ["Sally Field"] ∧
    ((∀ w : World, queryLoop true (["Sally Field"] ++ "exit" :: ["Tom Hanks"]) w
        = runAll true ["Sally Field"] w) ∧
    (∀ w : World, queryLoop true ["Sally Field"] w = runAll true ["Sally Field"] w) ∧
    (∃ w, parseMovieFile heap0 true exLines (["Sally Field"] ++ "exit" :: ["Tom Hanks"])
        = some w ∧
      parseMovieFile heap0 true exLines ["Sally Field"] = some w ∧
      runAll true ["Sally Field"]
        { g := buildGraph heap0 exLines, out := [], err := [], errRet := 0 } = some w)) :=
  ⟨by decide, loop_stops_at_exit heap0 true exLines ["Sally Field"] ["Tom Hanks"] (by decide)⟩

theorem addActors_nodup (heap : Nat → Actor) (names : List String) :
    ∀ actors : List Actor, (actors.map Actor.name).Nodup →
      ((addActors heap names actors).map Actor.name).Nodup := by
  induction names with
  | nil => exact fun actors h => h
  | cons name rest ih =>
    intro actors h
    simp only [addActors, List.foldl_cons]
    apply ih
    rw [findOrAddActor_names]
    by_cases hmem : name ∈ actors.map Actor.name
    · simpa [hmem] using h
    · simp only [hmem, if_false]
      rw [List.nodup_append]
      refine ⟨h, List.nodup_singleton _, ?_⟩
      intro x hx hx1
      simp only [List.mem_singleton] at hx1
      subst hx1
      exact hmem hx

/-- C14: for every registry, every name and every content of the allocated block: if
an actor with that name is registered, `findOrAddActor` returns a reference to an
actor with that name (the only one when names are pairwise distinct) and leaves
the registry, hence every cell and movie list, unchanged; otherwise the registry
becomes the old one followed by exactly one new cell with that name and an empty
movie list, and the reference returned is that cell; a sequence of calls keeps
names pairwise distinct, so starting from the empty registry no two registered
actors ever have the same name. -/
theorem findOrAddActor_contract (actors : List Actor) (name : String) (fresh : Actor)
    (heap : Nat → Actor) (names : List String) :
    (name ∈ actors.map Actor.name →
      (findOrAddActor actors name fresh).1 = actors ∧
      ∃ a, actors[(findOrAddActor actors name fresh).2]? = some a ∧ a.name = name ∧
        ((actors.map Actor.name).Nodup → ∀ j b, actors[j]? = some b → b.name = name →
          j = (findOrAddActor actors name fresh).2)) ∧
    (name ∉ actors.map Actor.name →
      findOrAddActor actors name fresh =
        (actors ++ [{ fresh with name := name, movies := [] }], actors.length)) ∧
    ((actors.map Actor.name).Nodup → ((addActors heap names actors).map Actor.name).Nodup) ∧
    ((addActors heap names []).map Actor.name).Nodup := by
  refine ⟨?_, ?_, addActors_nodup heap names actors, addActors_nodup heap names [] (by simp)⟩
  · intro hmem
    unfold findOrAddActor
    cases hf : findActor actors name with
    | none =>
      obtain ⟨a, ha, hn⟩ := List.mem_map.mp hmem
      exact absurd hn (findActor_none.mp hf a ha)
    | some i =>
      obtain ⟨a, ha, hn⟩ := findActor_some hf
      refine ⟨rfl, a, ha, hn, ?_⟩
      intro hnd j b hb hbn
      have hnj : (actors.map Actor.name)[j]? = some name := by simp [hb, hbn]
      have hni : (actors.map Actor.name)[i]? = some name := by simp [ha, hn]
      have hj := lt_of_getElem? hnj
      have hi := lt_of_getElem? hni
      rw [List.getElem?_eq_getElem hj] at hnj
      rw [List.getElem?_eq_getElem hi] at hni
      exact (List.Nodup.getElem_inj_iff hnd).mp
        ((Option.some.inj hnj).trans (Option.some.inj hni).symm)
  · intro hmem
    unfold findOrAddActor
    cases hf : findActor actors name with
    | none => rfl
    | some i =>
      obtain ⟨a, ha, hn⟩ := findActor_some hf
      exact absurd (List.mem_map.mpr ⟨a, List.mem_iff_getElem?.mpr ⟨i, ha⟩, hn⟩) hmem

theorem moviesOf_link (g : Graph) {i : Nat} (m : Nat) (hi : i < g.actors.length) (j : Nat) :
    moviesOf (linkActorMovie g i m) j = if j = i then m :: moviesOf g j else moviesOf g j := by
  unfold moviesOf linkActorMovie
  simp only [List.getElem?_modify]
  by_cases hji : j = i
  · subst hji
    simp [List.getElem?_eq_getElem hi]
  · have : ¬ i = j := fun e => hji e.symm
    cases g.actors[j]? <;> simp [hji, this]

theorem castOf_link (g : Graph) (i : Nat) {m : Nat} (hm : m < g.movies.length) (k : Nat) :
    castOf (linkActorMovie g i m) k = if k = m then i :: castOf g k else castOf g k := by
  unfold castOf linkActorMovie
  simp only [List.getElem?_modify]
  by_cases hkm : k = m
  · subst hkm
    simp [List.getElem?_eq_getElem hm]
  · have : ¬ m = k := fun e => hkm e.symm
    cases g.movies[k]? <;> simp [hkm, this]

/-- C12 (as stated, refuted): two calls of `linkActorMovie` with the same pair leave
the movie twice in the actor's list and the actor twice in the cast, and a file
that lists a name twice under one movie yields the double membership. -/
theorem link_twice_counterexample :
    moviesOf (linkActorMovie (linkActorMovie pairGraph 0 0) 0 0) 0 = [0, 0] ∧
    castOf (linkActorMovie (linkActorMovie pairGraph 0 0) 0 0) 0 = [0, 0] ∧
    moviesOf (buildGraph heap0 ["Movie: Footloose", "Kevin Bacon", "Kevin Bacon"]) 0 = [0, 0] ∧
    castOf (buildGraph heap0 ["Movie: Footloose", "Kevin Bacon", "Kevin Bacon"]) 0 = [0, 0] := by
  decide

/-- C12 (amended): for every heap and every actor and movie in it, each call of
`linkActorMovie` puts one more entry at the head of both lists, whether or not the
pair is already linked: after two calls with the same pair the actor's movie list
holds the movie two more times than before and the movie's cast holds the actor
two more times than before. -/
theorem link_twice_duplicates (g : Graph) (i m : Nat) (hi : i < g.actors.length)
    (hm : m < g.movies.length) :
    moviesOf (linkActorMovie (linkActorMovie g i m) i m) i = m :: m :: moviesOf g i ∧
    castOf (linkActorMovie (linkActorMovie g i m) i m) m = i :: i :: castOf g m ∧
    (moviesOf (linkActorMovie (linkActorMovie g i m) i m) i).count m
      = (moviesOf g i).count m + 2 ∧
    (castOf (linkActorMovie (linkActorMovie g i m) i m) m).count i
      = (castOf g m).count i + 2 := by
  have hi1 : i < (linkActorMovie g i m).actors.length := by simpa [linkActorMovie] using hi
  have hm1 : m < (linkActorMovie g i m).movies.length := by simpa [linkActorMovie] using hm
  have h1 : moviesOf (linkActorMovie (linkActorMovie g i m) i m) i = m :: m :: moviesOf g i := by
    rw [moviesOf_link _ m hi1, if_pos rfl, moviesOf_link g m hi, if_pos rfl]
  have h2 : castOf (linkActorMovie (linkActorMovie g i m) i m) m = i :: i :: castOf g m := by
    rw [castOf_link _ i hm1, if_pos rfl, castOf_link g i hm, if_pos rfl]
  refine ⟨h1, h2, ?_, ?_⟩
  · rw [h1]
    simp
  · rw [h2]
    simp

theorem link_twice_duplicates_witness :
    0 < pairGraph.actors.length ∧ 0 < pairGraph.movies.length ∧
    (moviesOf (linkActorMovie (linkActorMovie pairGraph 0 0) 0 0) 0
        = 0 :: 0 :: moviesOf pairGraph 0 ∧
    castOf (linkActorMovie (linkActorMovie pairGraph 0 0) 0 0) 0 = 0 :: 0 :: castOf pairGraph 0 ∧
    (moviesOf (linkActorMovie (linkActorMovie pairGraph 0 0) 0 0) 0).count 0
      = (moviesOf pairGraph 0).count 0 + 2 ∧
    (castOf (linkActorMovie (linkActorMovie pairGraph 0 0) 0 0) 0).count 0
      = (castOf pairGraph 0).count 0 + 2) :=
  ⟨by decide, by decide, link_twice_duplicates pairGraph 0 0 (by decide) (by decide)⟩

/-- C11 (the code at the failing input): after the queries "Sally Field" and then
"Kevin Bacon" on the example file, every `visited` flag is clear but the `parent`
references of the first search are still in place; the same holds after an
unknown name; and when "Kevin Bacon" is the first query the `parent` fields still
hold the content of the allocated blocks. -/
theorem parent_left_over_after_early_return :
    (parseMovieFile heap0 true exLines ["Sally Field", "Kevin Bacon"]).map
        (fun w => w.g.actors) =
      some [{ name := "Kevin Bacon", movies := [0], visited := false, parent := none },
        { name := "Tom Hanks", movies := [1, 0], visited := false, parent := some 0 },
        { name := "Sally Field", movies := [1], visited := false, parent := some 1 }] ∧
    (parseMovieFile heap0 true exLines ["Sally Field", "Unknown Person"]).map
        (fun w => w.g.actors) =
      some [{ name := "Kevin Bacon", movies := [0], visited := false, parent := none },
        { name := "Tom Hanks", movies := [1, 0], visited := false, parent := some 0 },
        { name := "Sally Field", movies := [1], visited := false, parent := some 1 }] ∧
    (parseMovieFile heap0 true exLines ["Kevin Bacon"]).map (fun w => w.g.actors) =
      some [{ name := "Kevin Bacon", movies := [0], visited := false, parent := some 7 },
        { name := "Tom Hanks", movies := [1, 0], visited := false, parent := some 7 },
        { name := "Sally Field", movies := [1], visited := false, parent := some 7 }] := by
  decide

theorem findOrAddActor_lt (actors : List Actor) (name : String) (fresh : Actor) :
    (findOrAddActor actors name fresh).2 < (findOrAddActor actors name fresh).1.length := by
  unfold findOrAddActor
  cases hf : findActor actors name with
  | none => simp
  | some i =>
    obtain ⟨a, ha, _⟩ := findActor_some hf
    exact lt_of_getElem? ha

theorem findOrAddActor_getElem? (actors : List Actor) (name : String) (fresh : Actor)
    {j : Nat} {a : Actor} (h : actors[j]? = some a) :
    (findOrAddActor actors name fresh).1[j]? = some a := by
  unfold findOrAddActor
  cases findActor actors name with
  | none =>
    simp only
    rw [List.getElem?_append_left (lt_of_getElem? h)]
    exact h
  | some i => exact h

theorem moviesOf_findOrAddActor (actors : List Actor) (movies : List Movie) (name : String)
    (fresh : Actor) (j : Nat) :
    moviesOf { actors := (findOrAddActor actors name fresh).1, movies := movies } j =
      moviesOf { actors := actors, movies := movies } j := by
  unfold moviesOf findOrAddActor
  cases findActor actors name with
  | some i => rfl
  | none =>
    simp only
    cases h : actors[j]? with
    | some a => rw [List.getElem?_append_left (lt_of_getElem? h), h]
    | none =>
      have hj : actors.length ≤ j := by simpa using h
      rw [List.getElem?_append_right hj]
      by_cases h0 : j - actors.length = 0
      · simp [h0]
      · rw [List.getElem?_eq_none (by simp; omega)]

theorem castOf_addMovie (actors : List Actor) (movies : List Movie) (title : String) (k : Nat) :
    castOf { actors := actors, movies := movies ++ [{ title := title, cast := [] }] } k =
      castOf { actors := actors, movies := movies } k := by
  unfold castOf
  simp only
  cases h : movies[k]? with
  | some mv => rw [List.getElem?_append_left (lt_of_getElem? h), h]
  | none =>
    have hk : movies.length ≤ k := by simpa using h
    rw [List.getElem?_append_right hk]
    by_cases h0 : k - movies.length = 0
    · simp [h0]
    · rw [List.getElem?_eq_none (by simp; omega)]

theorem CountsAgree_link {g : Graph} (h : CountsAgree g) {i m : Nat}
    (hi : i < g.actors.length) (hm : m < g.movies.length) :
    CountsAgree (linkActorMovie g i m) := by
  intro a k
  rw [moviesOf_link g m hi, castOf_link g i hm]
  have := h a k
  by_cases ha : a = i <;> by_cases hk : k = m
  · subst ha hk
    simp [this]
  · subst ha
    have hk2 : ¬ m = k := fun e => hk e.symm
    simp only [if_true, hk, if_false]
    rw [List.count_cons_of_ne hk]
    exact this
  · subst hk
    simp only [ha, if_false, if_true]
    rw [List.count_cons_of_ne ha]
    exact this
  · simp only [ha, hk, if_false]
    exact this

theorem parseLine_counts (heap : Nat → Actor) {st : ParseState} (hinv : ParseInv st)
    (h : CountsAgree st.g) (line : String) : CountsAgree (parseLine heap st line).g := by
  unfold parseLine
  by_cases hb : line.length = 0
  · simpa [hb] using h
  · by_cases hmv : isMovieLine line = true
    · simp only [hb, hmv, if_false, if_true]
      intro a k
      have := h a k
      rw [castOf_addMovie]
      exact this
    · have hm2 : isMovieLine line = false := by simpa using hmv
      simp only [hb, hm2, if_false, Bool.false_eq_true]
      have hadd : CountsAgree { actors := (findOrAddActor st.g.actors line
          (heap st.g.actors.length)).1, movies := st.g.movies } := by
        intro a k
        rw [moviesOf_findOrAddActor]
        exact h a k
      cases hl : st.lastMovie with
      | none => exact hadd
      | some m =>
        exact CountsAgree_link hadd (findOrAddActor_lt _ _ _) (hinv.last_lt m hl)

theorem foldl_parseLine_counts (heap : Nat → Actor) (lines : List String) :
    ∀ st, ParseInv st → CountsAgree st.g → CountsAgree (lines.foldl (parseLine heap) st).g := by
  induction lines with
  | nil => exact fun st _ h => h
  | cons line rest ih =>
    exact fun st hinv h => ih _ (parseLine_inv heap hinv line) (parseLine_counts heap hinv h line)

theorem buildGraph_counts (heap : Nat → Actor) (lines : List String) :
    CountsAgree (buildGraph heap lines) :=
  foldl_parseLine_counts heap lines _ ⟨WF_nil, by intro m hm; cases hm⟩ (fun _ _ => rfl)

/-- C13: after parsing any input file, for every actor and every movie the movie
occurs in the actor's movie list exactly as often as the actor occurs in the
movie's cast, so one list holds the pair if and only if the other does; and on
every heap a call of `linkActorMovie` for an actor and a movie of that heap adds
exactly one entry at the head of that actor's movie list and of that movie's cast
and changes no other list, no name and no title. -/
theorem membership_lists_agree (heap : Nat → Actor) (fileLines : List String) (g : Graph)
    (i m : Nat) (hi : i < g.actors.length) (hm : m < g.movies.length) :
    (∀ a k : Nat, (moviesOf (buildGraph heap fileLines) a).count k
        = (castOf (buildGraph heap fileLines) k).count a) ∧
    (∀ a k : Nat, k ∈ moviesOf (buildGraph heap fileLines) a
        ↔ a ∈ castOf (buildGraph heap fileLines) k) ∧
    moviesOf (linkActorMovie g i m) i = m :: moviesOf g i ∧
    castOf (linkActorMovie g i m) m = i :: castOf g m ∧
    (∀ j, j ≠ i → moviesOf (linkActorMovie g i m) j = moviesOf g j) ∧
    (∀ k, k ≠ m → castOf (linkActorMovie g i m) k = castOf g k) ∧
    (linkActorMovie g i m).actors.map Actor.name = g.actors.map Actor.name ∧
    (linkActorMovie g i m).movies.map Movie.title = g.movies.map Movie.title := by
  have hc := buildGraph_counts heap fileLines
  refine ⟨hc, ?_, ?_, ?_, ?_, ?_, ?_, ?_⟩
  · intro a k
    rw [← List.count_pos_iff, ← List.count_pos_iff, hc a k]
  · rw [moviesOf_link g m hi, if_pos rfl]
  · rw [castOf_link g i hm, if_pos rfl]
  · intro j hj
    rw [moviesOf_link g m hi, if_neg hj]
  · intro k hk
    rw [castOf_link g i hm, if_neg hk]
  · exact names_modify (fun a => { a with movies := m :: a.movies }) (fun a => rfl) i g.actors
  · simp only [linkActorMovie]
    apply List.ext_getElem?
    intro j
    rw [List.getElem?_map, List.getElem?_map, List.getElem?_modify]
    cases g.movies[j]? with
    | none => rfl
    | some mv =>
      by_cases hmj : m = j
      · simp [hmj]
      · simp [hmj]

theorem membership_lists_agree_witness :
    0 < pairGraph.actors.length ∧ 0 < pairGraph.movies.length ∧
    ((∀ a k : Nat, (moviesOf (buildGraph heap0 exLines) a).count k
        = (castOf (buildGraph heap0 exLines) k).count a) ∧
    (∀ a k : Nat, k ∈ moviesOf (buildGraph heap0 exLines) a
        ↔ a ∈ castOf (buildGraph heap0 exLines) k) ∧
    moviesOf (linkActorMovie pairGraph 0 0) 0 = 0 :: moviesOf pairGraph 0 ∧
    castOf (linkActorMovie pairGraph 0 0) 0 = 0 :: castOf pairGraph 0 ∧
    (∀ j, j ≠ 0 → moviesOf (linkActorMovie pairGraph 0 0) j = moviesOf pairGraph j) ∧
    (∀ k, k ≠ 0 → castOf (linkActorMovie pairGraph 0 0) k = castOf pairGraph k) ∧
    (linkActorMovie pairGraph 0 0).actors.map Actor.name = pairGraph.actors.map Actor.name ∧
    (linkActorMovie pairGraph 0 0).movies.map Movie.title
      = pairGraph.movies.map Movie.title) :=
  ⟨by decide, by decide,
    membership_lists_agree heap0 exLines pairGraph 0 0 (by decide) (by decide)⟩

/-! ## The parser against the file format -/

theorem map_modify_comm {α β : Type} (f : α → α) (f1 : β → β) (g : α → β)
    (h : ∀ x, g (f x) = f1 (g x)) (i : Nat) (l : List α) :
    (List.modify f i l).map g = List.modify f1 i (l.map g) := by
  induction l generalizing i with
  | nil => simp
  | cons x xs ih =>
    cases i with
    | zero => simp [h]
    | succ k => simp [ih]

theorem nameD_findOrAddActor (actors : List Actor) (movies : List Movie) (name : String)
    (fresh : Actor) {j : Nat} (hj : j < actors.length) :
    nameD { actors := (findOrAddActor actors name fresh).1, movies := movies } j =
      nameD { actors := actors, movies := movies } j := by
  have h := findOrAddActor_getElem? actors name fresh (List.getElem?_eq_getElem hj)
  simp only [nameD, nameAt, h, List.getElem?_eq_getElem hj]

theorem nameD_findOrAddActor_self (actors : List Actor) (movies : List Movie) (name : String)
    (fresh : Actor) :
    nameD { actors := (findOrAddActor actors name fresh).1, movies := movies }
      (findOrAddActor actors name fresh).2 = name := by
  unfold findOrAddActor
  cases hf : findActor actors name with
  | none => simp [nameD, nameAt]
  | some i =>
    obtain ⟨a, ha, hn⟩ := findActor_some hf
    simp [nameD, nameAt, ha, hn]

theorem nameD_link (g : Graph) (i m j : Nat) :
    nameD (linkActorMovie g i m) j = nameD g j := by
  have h := names_modify (fun a => { a with movies := m :: a.movies }) (fun a => rfl) i g.actors
  have h1 : ((linkActorMovie g i m).actors.map Actor.name)[j]?
      = (g.actors.map Actor.name)[j]? := by
    simp only [linkActorMovie]
    rw [h]
  simp only [List.getElem?_map] at h1
  simp only [nameD, nameAt, h1]

theorem castNames_findOrAddActor {actors : List Actor} {movies : List Movie}
    (hw : WF actors movies) (name : String) (fresh : Actor) :
    castNames { actors := (findOrAddActor actors name fresh).1, movies := movies } =
      castNames { actors := actors, movies := movies } := by
  unfold castNames
  apply List.map_congr_left
  intro mv hmv
  obtain ⟨k, hk⟩ := List.mem_iff_getElem?.mp hmv
  simp only [Prod.mk.injEq, true_and]
  apply List.map_congr_left
  intro j hj
  exact nameD_findOrAddActor actors movies name fresh (hw.actor_lt k mv hk j hj)

theorem parseLine_blocks (heap : Nat → Actor) {st : ParseState}
    {bs : List (String × List String)} (h : BlockInv st bs) (line : String) :
    BlockInv (parseLine heap st line) (blockStep bs line) := by
  have hlen : bs.length = st.g.movies.length := by
    rw [← h.names]
    simp [castNames]
  refine ⟨parseLine_inv heap h.inv line, ?_, ?_⟩
  · unfold parseLine blockStep
    by_cases hb : line.length = 0
    · simp only [hb, if_true]
      exact h.names
    · by_cases hmv : isMovieLine line = true
      · simp only [hb, hmv, if_false, if_true]
        rw [← h.names]
        simp [castNames, nameD, nameAt, lineTitle]
      · have hm2 : isMovieLine line = false := by simpa using hmv
        simp only [hb, hm2, if_false, Bool.false_eq_true]
        have hadd := castNames_findOrAddActor h.inv.wf line (heap st.g.actors.length)
        cases hl : st.lastMovie with
        | none =>
          have h0 : st.g.movies.length = 0 := by
            by_contra hne
            have := h.last
            rw [hl, if_neg hne] at this
            cases this
          have hbs : bs = [] := List.length_eq_zero.mp (hlen.trans h0)
          simp only [hbs, List.modify_nil]
          rw [hadd]
          rw [← hbs]
          exact h.names
        | some m =>
          have hm : m = st.g.movies.length - 1 := by
            have := h.last
            rw [hl] at this
            by_cases h0 : st.g.movies.length = 0
            · rw [if_pos h0] at this
              cases this
            · rw [if_neg h0] at this
              exact Option.some.inj this
          simp only
          rw [hlen, ← hm, ← h.names]
          have hself := nameD_findOrAddActor_self st.g.actors st.g.movies line
            (heap st.g.actors.length)
          generalize findOrAddActor st.g.actors line (heap st.g.actors.length) = r
            at hadd hself ⊢
          have hn : nameD (linkActorMovie ⟨r.1, st.g.movies⟩ r.2 m) =
              nameD ⟨r.1, st.g.movies⟩ := funext (fun j => nameD_link _ _ _ j)
          unfold castNames at hadd ⊢
          simp only [hn]
          simp only [linkActorMovie]
          rw [map_modify_comm _ (fun b => (b.1, line :: b.2))]
          · rw [hadd]
          · intro mv
            simp only [List.map_cons, hself]
  · have hl := h.last
    unfold parseLine
    by_cases hb : line.length = 0
    · simp only [hb, if_true]
      exact hl
    · by_cases hmv : isMovieLine line = true
      · simp [hb, hmv]
      · have hm2 : isMovieLine line = false := by simpa using hmv
        simp only [hb, hm2, if_false, Bool.false_eq_true]
        cases hlm : st.lastMovie with
        | none =>
          rw [hlm] at hl
          exact hl
        | some m =>
          rw [hlm] at hl
          simp only [linkActorMovie, List.length_modify]
          exact hl

theorem foldl_parseLine_blocks (heap : Nat → Actor) (lines : List String) :
    ∀ (st : ParseState) (bs : List (String × List String)), BlockInv st bs →
      BlockInv (lines.foldl (parseLine heap) st) (lines.foldl blockStep bs) := by
  induction lines with
  | nil => exact fun st bs h => h
  | cons line rest ih => exact fun st bs h => ih _ _ (parseLine_blocks heap h line)

theorem parsePrefix_blocks (heap : Nat → Actor) (lines : List String) :
    BlockInv (parsePrefix heap lines) (blocks lines) :=
  foldl_parseLine_blocks heap lines _ _
    ⟨⟨WF_nil, by intro m hm; cases hm⟩, rfl, rfl⟩

theorem isMovieLine_blank {line : String} (h : line.length = 0) : isMovieLine line = false := by
  cases line with
  | mk data =>
    have hd : data = [] := List.length_eq_zero.mp h
    subst hd
    rfl

theorem blocks_titles (lines : List String) :
    ∀ bs : List (String × List String),
      (lines.foldl blockStep bs).map Prod.fst =
        bs.map Prod.fst ++ (lines.filter (fun x => isMovieLine x)).map lineTitle := by
  induction lines with
  | nil => intro bs; simp
  | cons line rest ih =>
    intro bs
    rw [List.foldl_cons, ih]
    unfold blockStep
    by_cases hb : line.length = 0
    · have hnm : isMovieLine line = false := isMovieLine_blank hb
      simp [hb, hnm]
    · by_cases hmv : isMovieLine line = true
      · simp [hb, hmv]
      · have hm2 : isMovieLine line = false := by simpa using hmv
        simp only [hb, hm2, if_false, Bool.false_eq_true, List.filter_cons_of_neg,
          not_false_eq_true]
        rw [map_modify_comm (fun b => (b.1, line :: b.2)) id Prod.fst (fun _ => rfl),
          List.modify_id]

theorem buildGraph_eq_parsePrefix (heap : Nat → Actor) (lines : List String) :
    buildGraph heap lines = (parsePrefix heap lines).g := rfl

theorem nameAt_of_lt {g : Graph} {i : Nat} (hi : i < g.actors.length) :
    nameAt g i = some (nameD g i) := by
  simp [nameD, nameAt, List.getElem?_eq_getElem hi]

theorem coStar_iff_block {g : Graph} (hw : WF g.actors g.movies) (a t b : String) :
    CoStar g a t b ↔ ∃ blk ∈ castNames g, blk.1 = t ∧ a ∈ blk.2 ∧ b ∈ blk.2 := by
  constructor
  · rintro ⟨mv, hmv, ht, ⟨i, hi, hni⟩, ⟨j, hj, hnj⟩⟩
    refine ⟨(mv.title, mv.cast.map (nameD g)), List.mem_map.mpr ⟨mv, hmv, rfl⟩, ht, ?_, ?_⟩
    · exact List.mem_map.mpr ⟨i, hi, by simp [nameD, hni]⟩
    · exact List.mem_map.mpr ⟨j, hj, by simp [nameD, hnj]⟩
  · rintro ⟨blk, hblk, ht, ha, hb⟩
    obtain ⟨mv, hmv, rfl⟩ := List.mem_map.mp hblk
    obtain ⟨k, hk⟩ := List.mem_iff_getElem?.mp hmv
    obtain ⟨i, hi, hni⟩ := List.mem_map.mp ha
    obtain ⟨j, hj, hnj⟩ := List.mem_map.mp hb
    refine ⟨mv, hmv, ht, ⟨i, hi, ?_⟩, ⟨j, hj, ?_⟩⟩
    · rw [nameAt_of_lt (hw.actor_lt k mv hk i hi), hni]
    · rw [nameAt_of_lt (hw.actor_lt k mv hk j hj), hnj]

/-- C16: for every input file, the movies of the graph built from it, in
registration order and each with its title and the names of its cast, are exactly
the blocks the file declares: one movie per line with the prefix `Movie: `, titled
with the remainder of that line, holding the names listed under it up to the next
such line, also when a title repeats; so the number of movies is the number of
such lines, and two actors share a movie of a given title only if some single
block with that title lists both. In the file `Movie: X / A / Movie: X / B` the
two blocks titled `X` stay apart and `A` and `B` share no movie. -/
theorem movie_lines_make_separate_movies (heap : Nat → Actor) (fileLines : List String) :
    castNames (buildGraph heap fileLines) = blocks fileLines ∧
    (buildGraph heap fileLines).movies.length
      = (fileLines.filter (fun x => isMovieLine x)).length ∧
    (buildGraph heap fileLines).movies.map Movie.title
      = (fileLines.filter (fun x => isMovieLine x)).map lineTitle ∧
    (∀ a t b : String, CoStar (buildGraph heap fileLines) a t b ↔
      ∃ blk ∈ blocks fileLines, blk.1 = t ∧ a ∈ blk.2 ∧ b ∈ blk.2) ∧
    blocks ["Movie: X", "A", "Movie: X", "B"] = [("X", ["A"]), ("X", ["B"])] ∧
    ¬ CoStar (buildGraph heap ["Movie: X", "A", "Movie: X", "B"]) "A" "X" "B" := by
  have hinv := parsePrefix_blocks heap fileLines
  have hnames : castNames (buildGraph heap fileLines) = blocks fileLines := hinv.names
  have htitles : (buildGraph heap fileLines).movies.map Movie.title
      = (fileLines.filter (fun x => isMovieLine x)).map lineTitle := by
    have h1 := blocks_titles fileLines []
    simp only [List.map_nil, List.nil_append] at h1
    have h2 : (castNames (buildGraph heap fileLines)).map Prod.fst
        = (buildGraph heap fileLines).movies.map Movie.title := by
      simp [castNames, List.map_map, Function.comp_def]
    rw [← h2, hnames]
    exact h1
  have hx : blocks ["Movie: X", "A", "Movie: X", "B"] = [("X", ["A"]), ("X", ["B"])] := by
    decide
  refine ⟨hnames, ?_, htitles, ?_, hx, ?_⟩
  · have := congrArg List.length htitles
    simpa using this
  · intro a t b
    rw [coStar_iff_block (buildGraph_WF heap fileLines), hnames]
  · have h4 : castNames (buildGraph heap ["Movie: X", "A", "Movie: X", "B"])
        = blocks ["Movie: X", "A", "Movie: X", "B"] := (parsePrefix_blocks heap _).names
    rw [coStar_iff_block (buildGraph_WF heap _), h4, hx]
    decide

theorem nameAt_link (g : Graph) (i m j : Nat) :
    nameAt (linkActorMovie g i m) j = nameAt g j := by
  have h := names_modify (fun a => { a with movies := m :: a.movies }) (fun a => rfl) i g.actors
  have h1 : ((linkActorMovie g i m).actors.map Actor.name)[j]?
      = (g.actors.map Actor.name)[j]? := by
    simp only [linkActorMovie]
    rw [h]
  simpa only [List.getElem?_map] using h1

theorem nameAt_findOrAddActor_self (actors : List Actor) (movies : List Movie) (name : String)
    (fresh : Actor) :
    nameAt { actors := (findOrAddActor actors name fresh).1, movies := movies }
      (findOrAddActor actors name fresh).2 = some name := by
  unfold findOrAddActor
  cases hf : findActor actors name with
  | none => simp [nameAt]
  | some i =>
    obtain ⟨a, ha, hn⟩ := findActor_some hf
    simp [nameAt, ha, hn]

theorem nameAt_findOrAddActor (actors : List Actor) (movies : List Movie) (name : String)
    (fresh : Actor) {j : Nat} {x : String}
    (h : nameAt { actors := actors, movies := movies } j = some x) :
    nameAt { actors := (findOrAddActor actors name fresh).1, movies := movies } j = some x := by
  simp only [nameAt] at h ⊢
  cases ha : actors[j]? with
  | none => rw [ha] at h; cases h
  | some a =>
    rw [ha] at h
    rw [findOrAddActor_getElem? actors name fresh ha]
    exact h

theorem parseLine_actor (heap : Nat → Actor) (st : ParseState) {line : String}
    (hline : isActorLine line = true) :
    parseLine heap st line =
      match st.lastMovie with
      | some m =>
        ParseState.mk (linkActorMovie
          ⟨(findOrAddActor st.g.actors line (heap st.g.actors.length)).1, st.g.movies⟩
          (findOrAddActor st.g.actors line (heap st.g.actors.length)).2 m) st.lastMovie
      | none =>
        ParseState.mk
          ⟨(findOrAddActor st.g.actors line (heap st.g.actors.length)).1, st.g.movies⟩
          st.lastMovie := by
  simp only [isActorLine, Bool.and_eq_true, decide_eq_true_eq, Bool.not_eq_true'] at hline
  unfold parseLine
  simp only [hline.1, hline.2, if_false, Bool.false_eq_true]

theorem castOf_actors (actors actors1 : List Actor) (movies : List Movie) (k : Nat) :
    castOf { actors := actors1, movies := movies } k
      = castOf { actors := actors, movies := movies } k := rfl

theorem movie_titles (heap : Nat → Actor) (lines : List String) :
    (parsePrefix heap lines).g.movies.map Movie.title
      = (lines.filter (fun x => isMovieLine x)).map lineTitle := by
  have h1 := blocks_titles lines []
  simp only [List.map_nil, List.nil_append] at h1
  have h2 : (castNames (parsePrefix heap lines).g).map Prod.fst
      = (parsePrefix heap lines).g.movies.map Movie.title := by
    simp [castNames, List.map_map, Function.comp_def]
  rw [← h2, (parsePrefix_blocks heap lines).names]
  exact h1

theorem parsePrefix_last (heap : Nat → Actor) (lines : List String) :
    (parsePrefix heap lines).g.movies.length = (lines.filter (fun x => isMovieLine x)).length ∧
    (parsePrefix heap lines).lastMovie =
      if (lines.filter (fun x => isMovieLine x)).length = 0 then none
      else some ((lines.filter (fun x => isMovieLine x)).length - 1) := by
  have hinv := parsePrefix_blocks heap lines
  have h1 := blocks_titles lines []
  simp only [List.map_nil, List.nil_append] at h1
  have hlen : (parsePrefix heap lines).g.movies.length
      = (lines.filter (fun x => isMovieLine x)).length := by
    have h2 := congrArg List.length hinv.names
    have h3 := congrArg List.length h1
    simp only [castNames, List.length_map] at h2 h3
    rw [h2]
    exact h3
  refine ⟨hlen, ?_⟩
  rw [← hlen]
  exact hinv.last

theorem parseLine_keeps (heap : Nat → Actor) {st : ParseState} {t : Nat} {q : String}
    (ht : nameAt st.g t = some q) (line : String) (hne : line ≠ q) :
    nameAt (parseLine heap st line).g t = some q ∧
      moviesOf (parseLine heap st line).g t = moviesOf st.g t := by
  by_cases hline : isActorLine line = true
  · rw [parseLine_actor heap st hline]
    have hself := nameAt_findOrAddActor_self st.g.actors st.g.movies line
      (heap st.g.actors.length)
    have hkeep := nameAt_findOrAddActor st.g.actors st.g.movies line
      (heap st.g.actors.length) ht
    have hmov := moviesOf_findOrAddActor st.g.actors st.g.movies line
      (heap st.g.actors.length) t
    have hlt := findOrAddActor_lt st.g.actors line (heap st.g.actors.length)
    generalize findOrAddActor st.g.actors line (heap st.g.actors.length) = r
      at hself hkeep hmov hlt
    have hrt : t ≠ r.2 := by
      rintro rfl
      rw [hself] at hkeep
      exact hne (Option.some.inj hkeep)
    cases st.lastMovie with
    | none => exact ⟨hkeep, hmov⟩
    | some m =>
      simp only
      rw [nameAt_link, moviesOf_link _ m hlt, if_neg hrt]
      exact ⟨hkeep, hmov⟩
  · unfold parseLine
    simp only [isActorLine, Bool.and_eq_true, decide_eq_true_eq, Bool.not_eq_true',
      not_and, Bool.not_eq_false] at hline
    by_cases hb : line.length = 0
    · simp only [hb, if_true]
      exact ⟨ht, trivial⟩
    · simp only [hb, hline hb, if_false, if_true]
      exact ⟨ht, rfl⟩

theorem foldl_parseLine_keeps (heap : Nat → Actor) {t : Nat} {q : String} (lines : List String)
    (hq : q ∉ lines) :
    ∀ st : ParseState, nameAt st.g t = some q →
      nameAt (lines.foldl (parseLine heap) st).g t = some q ∧
        moviesOf (lines.foldl (parseLine heap) st).g t = moviesOf st.g t := by
  induction lines with
  | nil => exact fun st h => ⟨h, rfl⟩
  | cons line rest ih =>
    intro st h
    have hne : line ≠ q := fun e => hq (by simp [e])
    obtain ⟨h1, h2⟩ := parseLine_keeps heap h line hne
    obtain ⟨h3, h4⟩ := ih (fun hm => hq (List.mem_cons_of_mem _ hm)) _ h1
    exact ⟨h3, h4.trans h2⟩

theorem orphan_has_no_movie (heap : Nat → Actor) {pre post : List String} {q : String}
    (hpre : pre.filter (fun x => isMovieLine x) = []) (hqa : isActorLine q = true)
    (hin : q ∈ pre) (hout : q ∉ post) :
    ∃ t, nameAt (buildGraph heap (pre ++ post)) t = some q ∧
      moviesOf (buildGraph heap (pre ++ post)) t = [] := by
  have hreg : Registered (buildGraph heap pre) q :=
    (registered_buildGraph heap pre q).mpr ⟨hin, hqa⟩
  obtain ⟨a, ha, hn⟩ := hreg
  obtain ⟨t, ht⟩ := List.mem_iff_getElem?.mp ha
  have hnt : nameAt (parsePrefix heap pre).g t = some q := by
    rw [← buildGraph_eq_parsePrefix]
    simp [nameAt, ht, hn]
  have hlen := (parsePrefix_last heap pre).1
  rw [hpre] at hlen
  have hmt : moviesOf (parsePrefix heap pre).g t = [] := by
    have hwf := (parsePrefix_blocks heap pre).inv.wf
    rw [← buildGraph_eq_parsePrefix] at hwf hlen
    rw [← buildGraph_eq_parsePrefix]
    simp only [moviesOf, ht, Option.map_some', Option.getD_some]
    apply List.eq_nil_iff_forall_not_mem.mpr
    intro m hm
    have := hwf.movie_lt t a ht m hm
    rw [hlen] at this
    simp at this
  obtain ⟨h1, h2⟩ := foldl_parseLine_keeps heap post hout (parsePrefix heap pre) hnt
  refine ⟨t, ?_, ?_⟩
  · simp only [buildGraph, List.foldl_append]
    exact h1
  · simp only [buildGraph, List.foldl_append]
    exact h2.trans hmt

/-- C15 (as stated, refuted): in a file whose only line is the actor line
"Kevin Bacon", above any movie line and under no movie, the query for that name
prints `Score: 0`, not `Score: No Bacon!`. -/
theorem orphan_query_counterexample :
    isActorLine "Kevin Bacon" = true ∧
    (buildGraph heap0 ["Kevin Bacon"]).movies = [] ∧
    Registered (buildGraph heap0 ["Kevin Bacon"]) "Kevin Bacon" ∧
    (calculateBaconScore (buildGraph heap0 ["Kevin Bacon"]) 0 "Kevin Bacon" false).map
      (fun r => (r.out, r.err)) = some ([Printed.score 0], []) := by
  decide

/-- C15 (amended): for every input file, a non-blank line without the prefix
`Movie: ` is registered as an actor and gets exactly one new link, to the most
recently declared movie above it (the movie of the last `Movie: ` line among the
lines above), with every other list unchanged; when no movie line is above it the
name is registered and no list changes; a blank line changes nothing; and a name
other than "Kevin Bacon" whose actor lines all stand above the first movie line is
known but unreachable: its query returns `Score: No Bacon!`, nothing on the error
stream and `errRet` unchanged. -/
theorem actor_lines_attach_to_latest_movie (heap : Nat → Actor) (above : List String)
    (line blank : String) (st0 : ParseState) (pre post : List String) (q : String) (e : Int)
    (l : Bool) (hline : isActorLine line = true) (hblank : blank.length = 0)
    (hq : q ≠ "Kevin Bacon") (hqa : isActorLine q = true)
    (hpre : pre.filter (fun x => isMovieLine x) = []) (hin : q ∈ pre) (hout : q ∉ post) :
    ((parsePrefix heap above).g.movies.map Movie.title
        = (above.filter (fun x => isMovieLine x)).map lineTitle ∧
      (parsePrefix heap above).lastMovie =
        if (above.filter (fun x => isMovieLine x)).length = 0 then none
        else some ((above.filter (fun x => isMovieLine x)).length - 1)) ∧
    (∃ i, nameAt (parsePrefix heap (above ++ [line])).g i = some line ∧
      (parsePrefix heap (above ++ [line])).g.movies.map Movie.title
        = (parsePrefix heap above).g.movies.map Movie.title ∧
      (∀ m, (parsePrefix heap above).lastMovie = some m →
        moviesOf (parsePrefix heap (above ++ [line])).g i
          = m :: moviesOf (parsePrefix heap above).g i ∧
        castOf (parsePrefix heap (above ++ [line])).g m
          = i :: castOf (parsePrefix heap above).g m ∧
        (∀ k, k ≠ m → castOf (parsePrefix heap (above ++ [line])).g k
          = castOf (parsePrefix heap above).g k) ∧
        (∀ j, j ≠ i → moviesOf (parsePrefix heap (above ++ [line])).g j
          = moviesOf (parsePrefix heap above).g j)) ∧
      ((parsePrefix heap above).lastMovie = none →
        (∀ k, castOf (parsePrefix heap (above ++ [line])).g k
          = castOf (parsePrefix heap above).g k) ∧
        (∀ j, moviesOf (parsePrefix heap (above ++ [line])).g j
          = moviesOf (parsePrefix heap above).g j))) ∧
    parseLine heap st0 blank = st0 ∧
    (∃ r, calculateBaconScore (buildGraph heap (pre ++ post)) e q l = some r ∧
      r.out = [Printed.noBacon] ∧ r.err = [] ∧ r.errRet = e) := by
  refine ⟨⟨(movie_titles heap above), (parsePrefix_last heap above).2⟩, ?_, ?_, ?_⟩
  · have hstep : parsePrefix heap (above ++ [line])
        = parseLine heap (parsePrefix heap above) line := by
      simp [parsePrefix, List.foldl_append]
    rw [hstep, parseLine_actor heap _ hline]
    have hinv := (parsePrefix_blocks heap above).inv
    generalize parsePrefix heap above = st at hinv ⊢
    have hself := nameAt_findOrAddActor_self st.g.actors st.g.movies line
      (heap st.g.actors.length)
    have hmov := moviesOf_findOrAddActor st.g.actors st.g.movies line
      (heap st.g.actors.length)
    have hlt := findOrAddActor_lt st.g.actors line (heap st.g.actors.length)
    generalize findOrAddActor st.g.actors line (heap st.g.actors.length) = r
      at hself hmov hlt
    refine ⟨r.2, ?_, ?_, ?_, ?_⟩
    · cases st.lastMovie with
      | none => exact hself
      | some m =>
        simp only
        rw [nameAt_link]
        exact hself
    · cases st.lastMovie with
      | none => rfl
      | some m =>
        simp only [linkActorMovie]
        apply List.ext_getElem?
        intro j
        rw [List.getElem?_map, List.getElem?_map, List.getElem?_modify]
        cases st.g.movies[j]? with
        | none => rfl
        | some mv =>
          by_cases hmj : m = j
          · simp [hmj]
          · simp [hmj]
    · intro m hm
      have hmlt := hinv.last_lt m hm
      rw [hm]
      simp only
      refine ⟨?_, ?_, ?_, ?_⟩
      · rw [moviesOf_link _ m hlt, if_pos rfl, hmov]
      · rw [castOf_link ⟨r.1, st.g.movies⟩ r.2 hmlt, if_pos rfl]
        rfl
      · intro k hk
        rw [castOf_link ⟨r.1, st.g.movies⟩ r.2 hmlt, if_neg hk]
        rfl
      · intro j hj
        rw [moviesOf_link _ m hlt, if_neg hj, hmov]
    · intro hnone
      rw [hnone]
      exact ⟨fun k => rfl, fun j => hmov j⟩
  · unfold parseLine
    simp [hblank]
  · obtain ⟨t, hnt, hmt⟩ := orphan_has_no_movie heap hpre hqa hin hout
    have hw := buildGraph_WF heap (pre ++ post)
    have hreg : Registered (buildGraph heap (pre ++ post)) q :=
      (registered_buildGraph heap (pre ++ post) q).mpr
        ⟨List.mem_append.mpr (Or.inl hin), hqa⟩
    obtain ⟨r, h1, herr, he, _, _, hcase⟩ :=
      calc_known (buildGraph heap (pre ++ post)) hw e q l hq hreg
    rcases hcase with ⟨hout1, _⟩ | ⟨n, hops, _, hn1, ⟨s, t1, _, ht1, hh⟩, _⟩
    · exact ⟨r, h1, hout1, herr, he⟩
    · exfalso
      have htt : t1 = t := by
        simp only [nameAt] at ht1 hnt
        cases ha1 : (buildGraph heap (pre ++ post)).actors[t1]? with
        | none => rw [ha1] at ht1; cases ht1
        | some a1 =>
          cases ha : (buildGraph heap (pre ++ post)).actors[t]? with
          | none => rw [ha] at hnt; cases hnt
          | some a =>
            rw [ha1] at ht1
            rw [ha] at hnt
            simp only [Option.map_some', Option.some.injEq] at ht1 hnt
            exact hw.name_inj t1 t a1 a ha1 ha (ht1.trans hnt.symm)
      subst htt
      cases hh with
      | base => omega
      | snoc _ hsh =>
        obtain ⟨mv, hmv, _, htc⟩ := hsh
        obtain ⟨k, hk⟩ := List.mem_iff_getElem?.mp hmv
        have hc := buildGraph_counts heap (pre ++ post) t1 k
        have hcast : castOf (buildGraph heap (pre ++ post)) k = mv.cast := by
          simp [castOf, hk]
        rw [hmt, hcast] at hc
        have hpos : 0 < mv.cast.count t1 := List.count_pos_iff.mpr htc
        simp at hc
        omega

theorem actor_lines_attach_to_latest_movie_witness :
    isActorLine "Kevin Bacon" = true ∧ "".length = 0 ∧ "Orphan" ≠ "Kevin Bacon" ∧
    isActorLine "Orphan" = true ∧ ["Orphan"].filter (fun x => isMovieLine x) = [] ∧
    "Orphan" ∈ ["Orphan"] ∧ "Orphan" ∉ ["Movie: Footloose", "Kevin Bacon"] ∧
    (((parsePrefix heap0 ["Movie: Apollo 13"]).g.movies.map Movie.title
        = (["Movie: Apollo 13"].filter (fun x => isMovieLine x)).map lineTitle ∧
      (parsePrefix heap0 ["Movie: Apollo 13"]).lastMovie =
        if (["Movie: Apollo 13"].filter (fun x => isMovieLine x)).length = 0 then none
        else some ((["Movie: Apollo 13"].filter (fun x => isMovieLine x)).length - 1)) ∧
    (∃ i, nameAt (parsePrefix heap0 (["Movie: Apollo 13"] ++ ["Kevin Bacon"])).g i = some "Kevin Bacon" ∧
      (parsePrefix heap0 (["Movie: Apollo 13"] ++ ["Kevin Bacon"])).g.movies.map Movie.title
        = (parsePrefix heap0 ["Movie: Apollo 13"]).g.movies.map Movie.title ∧
      (∀ m, (parsePrefix heap0 ["Movie: Apollo 13"]).lastMovie = some m →
        moviesOf (parsePrefix heap0 (["Movie: Apollo 13"] ++ ["Kevin Bacon"])).g i
          = m :: moviesOf (parsePrefix heap0 ["Movie: Apollo 13"]).g i ∧
        castOf (parsePrefix heap0 (["Movie: Apollo 13"] ++ ["Kevin Bacon"])).g m
          = i :: castOf (parsePrefix heap0 ["Movie: Apollo 13"]).g m ∧
        (∀ k, k ≠ m → castOf (parsePrefix heap0 (["Movie: Apollo 13"] ++ ["Kevin Bacon"])).g k
          = castOf (parsePrefix heap0 ["Movie: Apollo 13"]).g k) ∧
        (∀ j, j ≠ i → moviesOf (parsePrefix heap0 (["Movie: Apollo 13"] ++ ["Kevin Bacon"])).g j
          = moviesOf (parsePrefix heap0 ["Movie: Apollo 13"]).g j)) ∧
      ((parsePrefix heap0 ["Movie: Apollo 13"]).lastMovie = none →
        (∀ k, castOf (parsePrefix heap0 (["Movie: Apollo 13"] ++ ["Kevin Bacon"])).g k
          = castOf (parsePrefix heap0 ["Movie: Apollo 13"]).g k) ∧
        (∀ j, moviesOf (parsePrefix heap0 (["Movie: Apollo 13"] ++ ["Kevin Bacon"])).g j
          = moviesOf (parsePrefix heap0 ["Movie: Apollo 13"]).g j))) ∧
    parseLine heap0 (parsePrefix heap0 exLines) "" = parsePrefix heap0 exLines ∧
    (∃ r, calculateBaconScore (buildGraph heap0 (orphanLines)) 0 "Orphan" true = some r ∧
      r.out = [Printed.noBacon] ∧ r.err = [] ∧ r.errRet = 0)) :=
  ⟨by decide, by decide, by decide, by decide, by decide, by decide, by decide,
    actor_lines_attach_to_latest_movie heap0 ["Movie: Apollo 13"] "Kevin Bacon" ""
      (parsePrefix heap0 exLines) ["Orphan"] ["Movie: Footloose", "Kevin Bacon"] "Orphan" 0 true
      (by decide) (by decide) (by decide) (by decide) (by decide) (by decide) (by decide)⟩

/-! ## The search loop, iteration by iteration -/

theorem visitLinked_vis {cur l i : Nat} {s s1 : List Actor × List Queue}
    (h : visitLinked cur l s i = some s1) (v : Nat) :
    Vis s1.1 v ↔ (v = i ∨ Vis s.1 v) := by
  unfold visitLinked at h
  cases ha : s.1[i]? with
  | none => rw [ha] at h; cases h
  | some a =>
    rw [ha] at h
    by_cases hv : a.visited = true
    · simp only [hv, if_true, Option.some.injEq] at h
      subst h
      constructor
      · exact Or.inr
      · rintro (rfl | h1)
        · exact ⟨a, ha, hv⟩
        · exact h1
    · have hvf : a.visited = false := by simpa using hv
      simp only [hvf, Bool.false_eq_true, if_false, Option.some.injEq] at h
      subst h
      exact Vis_set ha rfl v

theorem visitLinked_grows {cur l i : Nat} {s s1 : List Actor × List Queue}
    (h : visitLinked cur l s i = some s1) : Grows cur l s s1 := by
  have hvis := visitLinked_vis h
  unfold visitLinked at h
  cases ha : s.1[i]? with
  | none => rw [ha] at h; cases h
  | some a =>
    rw [ha] at h
    by_cases hv : a.visited = true
    · simp only [hv, if_true, Option.some.injEq] at h
      subst h
      exact ⟨⟨[], by simp, by simp, by simp⟩, fun v hv => hv, fun v a h _ => h,
        fun v b hb hn hbv => absurd ⟨b, hb, hbv⟩ hn, fun v b hb _ => hb⟩
    · have hvf : a.visited = false := by simpa using hv
      simp only [hvf, Bool.false_eq_true, if_false, Option.some.injEq] at h
      subst h
      have hin : i < s.1.length := lt_of_getElem? ha
      have hnv : ¬ Vis s.1 i := by
        rintro ⟨b, hb, hbv⟩
        rw [ha] at hb
        cases hb
        exact hv hbv
      have hget : ∀ (v : Nat) (b : Actor),
          (s.1.set i { a with visited := true, parent := some cur })[v]? = some b →
          (v = i ∧ b = { a with visited := true, parent := some cur }) ∨
            (v ≠ i ∧ s.1[v]? = some b) := by
        intro v b hb
        rw [List.getElem?_set] at hb
        by_cases hiv : i = v
        · subst hiv
          simp only [if_true, hin] at hb
          exact Or.inl ⟨rfl, (Option.some.inj hb).symm⟩
        · simp only [hiv, if_false] at hb
          exact Or.inr ⟨fun e => hiv e.symm, hb⟩
      refine ⟨⟨[⟨i, some cur, l + 1⟩], rfl, by simp, ?_⟩, ?_, ?_, ?_, ?_⟩
      · intro x hx
        simp only [List.mem_singleton] at hx
        subst hx
        exact ⟨hnv, (hvis i).mpr (Or.inl rfl), rfl⟩
      · exact fun v hv => (hvis v).mpr (Or.inr hv)
      · intro v b hb hbv
        have hvi : i ≠ v := by
          rintro rfl
          exact hnv ⟨b, hb, hbv⟩
        simp only [List.getElem?_set_ne hvi]
        exact hb
      · intro v b hb hn hbv
        rcases hget v b hb with ⟨_, rfl⟩ | ⟨_, hb0⟩
        · rfl
        · exact absurd ⟨b, hb0, hbv⟩ hn
      · intro v b hb hbv
        rcases hget v b hb with ⟨_, rfl⟩ | ⟨_, hb0⟩
        · cases hbv
        · exact hb0

theorem Grows.refl (cur l : Nat) (s : List Actor × List Queue) : Grows cur l s s :=
  ⟨⟨[], by simp, by simp, by simp⟩, fun v hv => hv, fun v a h _ => h,
    fun v b hb hn hbv => absurd ⟨b, hb, hbv⟩ hn, fun v b hb _ => hb⟩

theorem Grows.trans {cur l : Nat} {s s1 s2 : List Actor × List Queue}
    (h1 : Grows cur l s s1) (h2 : Grows cur l s1 s2) : Grows cur l s s2 := by
  obtain ⟨add1, hq1, hnd1, hp1⟩ := h1.added
  obtain ⟨add2, hq2, hnd2, hp2⟩ := h2.added
  refine ⟨⟨add1 ++ add2, by rw [hq2, hq1, List.append_assoc], ?_, ?_⟩, ?_, ?_, ?_, ?_⟩
  · rw [List.map_append, List.nodup_append]
    refine ⟨hnd1, hnd2, ?_⟩
    intro v hv1 hv2
    obtain ⟨x, hx, rfl⟩ := List.mem_map.mp hv1
    obtain ⟨y, hy, hxy⟩ := List.mem_map.mp hv2
    have := (hp2 y hy).1
    rw [hxy] at this
    exact this (hp1 x hx).2.1
  · intro x hx
    rcases List.mem_append.mp hx with hx | hx
    · exact ⟨(hp1 x hx).1, h2.mono _ (hp1 x hx).2.1, (hp1 x hx).2.2⟩
    · exact ⟨fun hv => (hp2 x hx).1 (h1.mono _ hv), (hp2 x hx).2.1, (hp2 x hx).2.2⟩
  · exact fun v hv => h2.mono v (h1.mono v hv)
  · exact fun v a ha hav => h2.frozen v a (h1.frozen v a ha hav) hav
  · intro v b hb hn hbv
    by_cases hv1 : Vis s1.1 v
    · obtain ⟨b1, hb1, hb1v⟩ := hv1
      have := h2.frozen v b1 hb1 hb1v
      rw [hb] at this
      cases this
      exact h1.fresh v b hb1 hn hbv
    · exact h2.fresh v b hb hv1 hbv
  · exact fun v b hb hbv => h1.untouched v b (h2.untouched v b hb hbv) hbv

theorem visitCast_grows {cur l : Nat} (cast : List Nat) :
    ∀ {s s1 : List Actor × List Queue}, visitCast cur l cast s = some s1 →
      Grows cur l s s1 ∧ ∀ v, Vis s1.1 v ↔ (v ∈ cast ∨ Vis s.1 v) := by
  induction cast with
  | nil =>
    intro s s1 h
    simp only [visitCast, Option.some.injEq] at h
    subst h
    exact ⟨Grows.refl _ _ _, fun v => by simp⟩
  | cons i rest ih =>
    intro s s1 h
    simp only [visitCast] at h
    cases h1 : visitLinked cur l s i with
    | none => rw [h1] at h; cases h
    | some s2 =>
      rw [h1] at h
      obtain ⟨hg, hv⟩ := ih h
      refine ⟨(visitLinked_grows h1).trans hg, ?_⟩
      intro v
      rw [hv v, visitLinked_vis h1 v, List.mem_cons]
      constructor
      · rintro (h3 | h3 | h3)
        · exact Or.inl (Or.inr h3)
        · exact Or.inl (Or.inl h3)
        · exact Or.inr h3
      · rintro ((h3 | h3) | h3)
        · exact Or.inr (Or.inl h3)
        · exact Or.inl h3
        · exact Or.inr (Or.inr h3)

theorem visitMovies_grows {movies : List Movie} {cur l : Nat} (ml : List Nat) :
    ∀ {s s1 : List Actor × List Queue}, visitMovies movies cur l ml s = some s1 →
      Grows cur l s s1 := by
  induction ml with
  | nil =>
    intro s s1 h
    simp only [visitMovies, Option.some.injEq] at h
    subst h
    exact Grows.refl _ _ _
  | cons m rest ih =>
    intro s s1 h
    simp only [visitMovies] at h
    cases hm : movies[m]? with
    | none => rw [hm] at h; cases h
    | some mv =>
      rw [hm] at h
      simp only at h
      cases h1 : visitCast cur l mv.cast s with
      | none => rw [h1] at h; cases h
      | some s2 =>
        rw [h1] at h
        exact (visitCast_grows mv.cast h1).1.trans (ih h)

theorem bfsRun_nil (movies : List Movie) (q : String) (fuel : Nat) (actors : List Actor) :
    bfsRun movies q fuel actors [] =
      some { actors := actors, search := .exhausted, dequeued := [], expanded := [],
             waiting := [] } := by
  cases fuel <;> rfl

theorem RunPost_stop (actors : List Actor) (queue : List Queue)
    (search : Search) (deq : List Queue) (hq : deq ++ queue.drop deq.length = queue)
    (hs : queue.Pairwise (fun a b => a.level ≤ b.level)) :
    RunPost actors queue
      { actors := actors, search := search, dequeued := deq, expanded := [],
        waiting := queue.drop deq.length } where
  added := ⟨[], by simpa using hq, by simp, by simp⟩
  sorted := by
    show (deq ++ queue.drop deq.length).Pairwise _
    rw [hq]
    exact hs
  above := by
    intro x hx lo hlo
    have hx1 : x ∈ deq ++ queue.drop deq.length := hx
    rw [hq] at hx1
    exact hlo x hx1
  mono := fun v hv => hv
  frozen := fun v a ha _ => ha
  untouched := fun v b hb _ => hb

theorem bfsRun_spec {movies : List Movie} {q : String} {src n : Nat} :
    ∀ (fuel μ : Nat) (lev : Nat → Nat) (actors : List Actor) (queue : List Queue),
      Outer movies q src n μ lev actors queue → μ ≤ fuel →
      ∃ run, bfsRun movies q fuel actors queue = some run ∧
        bfsLoop movies q fuel actors queue = some (run.actors, run.search) ∧
        RunPost actors queue run := by
  intro fuel
  induction fuel with
  | zero =>
    intro μ lev actors queue h hμ
    cases queue with
    | nil =>
      exact ⟨_, rfl, rfl, RunPost_stop actors [] .exhausted [] rfl List.Pairwise.nil⟩
    | cons e rest =>
      have := h.core.measure
      simp only [List.length_cons] at this
      omega
  | succ fuel ih =>
    intro μ lev actors queue h hμ
    cases queue with
    | nil =>
      exact ⟨_, rfl, rfl, RunPost_stop actors [] .exhausted [] rfl List.Pairwise.nil⟩
    | cons e rest =>
      obtain ⟨curA, hcur, hcurv⟩ := (h.core.q_vis e (List.mem_cons_self _ _)).1
      have hsorted := List.pairwise_cons.mp h.core.sorted
      by_cases hname : curA.name = q
      · refine ⟨Run.mk actors (.found e.actor e.level) [e] [] rest, ?_, ?_, ?_⟩
        · simp [bfsRun, hcur, hname]
        · simp [bfsLoop, hcur, hname]
        · exact RunPost_stop actors (e :: rest) (.found e.actor e.level) [e] rfl
            h.core.sorted
      · obtain ⟨s1, lev1, hs1, ho1⟩ := expand_outer h hcur hname
        have hg := visitMovies_grows curA.movies hs1
        have hmeas := h.core.measure
        simp only [List.length_cons] at hmeas
        obtain ⟨run1, hr1, hl1, hp1⟩ := ih (μ - 1) lev1 s1.1 s1.2 ho1 (by omega)
        obtain ⟨add1, hq1, hnd1, hadd1⟩ := hg.added
        obtain ⟨add2, hq2, hnd2, hadd2⟩ := hp1.added
        simp only at hq1
        refine ⟨Run.mk run1.actors run1.search (e :: run1.dequeued)
          ((e, actors, rest) :: run1.expanded) run1.waiting, ?_, ?_, ?_⟩
        · simp only [bfsRun, hcur, hname, if_false, hs1, hr1]
        · simp only [bfsLoop, hcur, hname, if_false, hs1]
          exact hl1
        · have hlow : ∀ y ∈ s1.2, e.level ≤ y.level := by
            intro y hy
            rw [hq1] at hy
            rcases List.mem_append.mp hy with hy | hy
            · exact hsorted.1 y hy
            · have := (hadd1 y hy).2.2
              omega
          constructor
          · refine ⟨add1 ++ add2, ?_, ?_, ?_⟩
            · show e :: run1.dequeued ++ run1.waiting = e :: rest ++ (add1 ++ add2)
              rw [List.cons_append, hq2, hq1, List.cons_append, List.append_assoc]
            · rw [List.map_append, List.nodup_append]
              refine ⟨hnd1, hnd2, ?_⟩
              intro v hv1 hv2
              obtain ⟨x, hx, rfl⟩ := List.mem_map.mp hv1
              obtain ⟨y, hy, hxy⟩ := List.mem_map.mp hv2
              have := (hadd2 y hy).1
              rw [hxy] at this
              exact this (hadd1 x hx).2.1
            · intro x hx
              rcases List.mem_append.mp hx with hx | hx
              · exact ⟨(hadd1 x hx).1, hp1.mono _ (hadd1 x hx).2.1⟩
              · exact ⟨fun hv => (hadd2 x hx).1 (hg.mono _ hv), (hadd2 x hx).2⟩
          · show (e :: run1.dequeued ++ run1.waiting).Pairwise _
            rw [List.cons_append, List.pairwise_cons]
            exact ⟨fun x hx => hp1.above x hx e.level hlow, hp1.sorted⟩
          · intro x hx lo hlo
            have hx1 : x ∈ e :: (run1.dequeued ++ run1.waiting) := hx
            rcases List.mem_cons.mp hx1 with rfl | hx1
            · exact hlo _ (List.mem_cons_self _ _)
            · have hle := hlo e (List.mem_cons_self _ _)
              exact hp1.above x hx1 lo (fun y hy => le_trans hle (hlow y hy))
          · exact fun v hv => hp1.mono v (hg.mono v hv)
          · exact fun v a ha hav => hp1.frozen v a (hg.frozen v a ha hav) hav
          · exact fun v b hb hbv => hg.untouched v b (hp1.untouched v b hb hbv) hbv

theorem bfsLoop_fuel_succ (movies : List Movie) (q : String) :
    ∀ (fuel : Nat) (actors : List Actor) (queue : List Queue) (x : List Actor × Search),
      bfsLoop movies q fuel actors queue = some x →
      bfsLoop movies q (fuel + 1) actors queue = some x := by
  intro fuel
  induction fuel with
  | zero =>
    intro actors queue x h
    cases queue with
    | nil => rw [bfsLoop_nil] at h ⊢; exact h
    | cons e rest => simp [bfsLoop] at h
  | succ fuel ih =>
    intro actors queue x h
    cases queue with
    | nil => rw [bfsLoop_nil] at h ⊢; exact h
    | cons e rest =>
      rw [bfsLoop] at h ⊢
      cases hcur : actors[e.actor]? with
      | none => rw [hcur] at h; cases h
      | some cur =>
        rw [hcur] at h
        simp only at h ⊢
        by_cases hname : cur.name = q
        · rw [if_pos hname] at h ⊢
          exact h
        · rw [if_neg hname] at h ⊢
          cases hs : visitMovies movies e.actor e.level cur.movies (actors, rest) with
          | none => rw [hs] at h; cases h
          | some s =>
            rw [hs] at h
            exact ih _ _ _ h

theorem bfsLoop_fuel_mono (movies : List Movie) (q : String) (fuel : Nat)
    (actors : List Actor) (queue : List Queue) (x : List Actor × Search)
    (h : bfsLoop movies q fuel actors queue = some x) (fuel1 : Nat) (hle : fuel ≤ fuel1) :
    bfsLoop movies q fuel1 actors queue = some x := by
  induction fuel1 with
  | zero =>
    have : fuel = 0 := by omega
    rw [this] at h
    exact h
  | succ k ih =>
    rcases Nat.eq_or_lt_of_le hle with heq | hlt
    · rw [← heq]
      exact h
    · exact bfsLoop_fuel_succ movies q k actors queue x (ih (by omega))

theorem connectingMovie_first {movies : List Movie} {A m : Nat} {mv : Movie}
    (pre post : List Nat)
    (hpre : ∀ m1 ∈ pre, ∃ mv1, movies[m1]? = some mv1 ∧ A ∉ mv1.cast)
    (hm : movies[m]? = some mv) (hA : A ∈ mv.cast) :
    connectingMovie movies A (pre ++ m :: post) = some (some mv) := by
  induction pre with
  | nil => simp [connectingMovie, hm, hA]
  | cons m1 pre ih =>
    obtain ⟨mv1, hm1, hn1⟩ := hpre m1 (List.mem_cons_self _ _)
    simp only [List.cons_append, connectingMovie, hm1, hn1, if_false]
    exact ih (fun m2 h2 => hpre m2 (List.mem_cons_of_mem _ h2))

theorem nodup_bounded_length (l : List Nat) (n : Nat) (hnd : l.Nodup)
    (hlt : ∀ x ∈ l, x < n) : l.length ≤ n := by
  have h1 : l.toFinset.card = l.length := List.toFinset_card_of_nodup hnd
  have h2 : l.toFinset ⊆ Finset.range n := by
    intro x hx
    exact Finset.mem_range.mpr (hlt x (List.mem_toFinset.mp hx))
  have h3 := Finset.card_le_card h2
  rw [Finset.card_range] at h3
  omega

theorem searchStart_spec {g : Graph} (hw : WF g.actors g.movies) (q : String)
    {actors3 : List Actor} {queue3 : List Queue}
    (hs : searchStart g = some (actors3, queue3)) :
    ∃ kb, queue3 = [{ actor := kb, parent := none, level := 0 }] ∧
      Outer g.movies q kb g.actors.length g.actors.length (fun _ => 0) actors3 queue3 ∧
      actors3.length = g.actors.length ∧
      actors3.map Actor.shape = g.actors.map Actor.shape ∧
      (∀ (v : Nat) (c : Actor), actors3[v]? = some c → c.parent = none) ∧
      (∀ v, Vis actors3 v ↔ v = kb) ∧ kb < g.actors.length := by
  have hshape2 : (resetSearch (resetVisited g.actors)).map Actor.shape
      = g.actors.map Actor.shape := by
    rw [shape_resetSearch, shape_resetVisited]
  have hw2 : WF (resetSearch (resetVisited g.actors)) g.movies := WF_shape hshape2 hw
  have hlen2 : (resetSearch (resetVisited g.actors)).length = g.actors.length := by
    simp [resetSearch, resetVisited]
  unfold searchStart at hs
  cases hkb : findActor (resetSearch (resetVisited g.actors)) "Kevin Bacon" with
  | none => rw [hkb] at hs; cases hs
  | some kb =>
    simp only [hkb] at hs
    cases ha : (resetSearch (resetVisited g.actors))[kb]? with
    | none => simp only [ha] at hs; cases hs
    | some a =>
      simp only [ha, Option.some.injEq, Prod.mk.injEq] at hs
      obtain ⟨h3, hq3⟩ := hs
      have h0 := init_outer q hw2 (fun i b hb => resetSearch_getElem? hb)
        (by rw [unvisited_resetSearch]; simp [resetSearch]) ha
      rw [h3, hq3, hlen2] at h0
      have hkblt : kb < g.actors.length := by
        rw [← hlen2]
        exact lt_of_getElem? ha
      have hVis : ∀ v, Vis actors3 v ↔ v = kb := by
        intro v
        rw [← h3, Vis_set ha rfl]
        constructor
        · rintro (h | ⟨b, hb, hbv⟩)
          · exact h
          · have := (resetSearch_getElem? hb).1
            rw [this] at hbv
            cases hbv
        · exact fun h => Or.inl h
      refine ⟨kb, ?_, h0, ?_, ?_, ?_, hVis, hkblt⟩
      · rw [← hq3]
        rfl
      · rw [← h3, List.length_set, hlen2]
      · rw [← h3]
        exact (@shape_set _ kb a { a with visited := true } ha rfl).trans hshape2
      · intro v c hc
        rw [← h3, List.getElem?_set] at hc
        by_cases hv : kb = v
        · rw [if_pos hv] at hc
          split at hc
          · cases hc
            exact (resetSearch_getElem? ha).2
          · cases hc
        · rw [if_neg hv] at hc
          exact (resetSearch_getElem? hc).2

theorem calc_graph (g : Graph) (e : Int) (q : String) (l : Bool)
    (hq : q ≠ "Kevin Bacon") (hr : Registered g q)
    {actors3 : List Actor} {queue3 : List Queue}
    (hs : searchStart g = some (actors3, queue3)) {actors4 : List Actor} {res : Search}
    (hl : bfsLoop g.movies q actors3.length actors3 queue3 = some (actors4, res))
    {r : Result} (hc : calculateBaconScore g e q l = some r) :
    r.g = { actors := actors4, movies := g.movies } := by
  obtain ⟨t0, h1⟩ : ∃ t0, findActor (resetVisited g.actors) q = some t0 := by
    rw [findActor_resetVisited]
    exact Option.ne_none_iff_exists'.mp ((registered_iff_findActor g q).mp hr)
  unfold searchStart at hs
  cases hkb : findActor (resetSearch (resetVisited g.actors)) "Kevin Bacon" with
  | none => rw [hkb] at hs; cases hs
  | some kb =>
    simp only [hkb] at hs
    cases ha : (resetSearch (resetVisited g.actors))[kb]? with
    | none => simp only [ha] at hs; cases hs
    | some a =>
      simp only [ha, Option.some.injEq, Prod.mk.injEq] at hs
      obtain ⟨h3, hq3⟩ := hs
      rw [← h3, ← hq3] at hl
      cases res with
      | exhausted =>
        simp only [calculateBaconScore, hq, if_false, h1, hkb, ha, hl,
          Option.some.injEq] at hc
        rw [← hc]
      | found t lv =>
        cases l with
        | false =>
          simp only [calculateBaconScore, hq, if_false, h1, hkb, ha, hl,
            Bool.false_eq_true, Option.some.injEq] at hc
          rw [← hc]
        | true =>
          simp only [calculateBaconScore, hq, if_false, h1, hkb, ha, hl, if_true] at hc
          cases hp : printPath { actors := actors4, movies := g.movies } actors4.length
              (some t) with
          | none => rw [hp] at hc; cases hc
          | some path =>
            rw [hp] at hc
            simp only [Option.some.injEq] at hc
            rw [← hc]

theorem calc_path (g : Graph) (e : Int) (q : String)
    (hq : q ≠ "Kevin Bacon") (hr : Registered g q)
    {actors3 : List Actor} {queue3 : List Queue}
    (hs : searchStart g = some (actors3, queue3)) {actors4 : List Actor} {t lv : Nat}
    (hl : bfsLoop g.movies q actors3.length actors3 queue3 = some (actors4, .found t lv))
    {r : Result} (hc : calculateBaconScore g e q true = some r) :
    ∃ path, printPath { actors := actors4, movies := g.movies } actors4.length (some t)
        = some path ∧
      r.out = Printed.score lv :: (path ++ [Printed.kevinBacon]) := by
  obtain ⟨t0, h1⟩ : ∃ t0, findActor (resetVisited g.actors) q = some t0 := by
    rw [findActor_resetVisited]
    exact Option.ne_none_iff_exists'.mp ((registered_iff_findActor g q).mp hr)
  unfold searchStart at hs
  cases hkb : findActor (resetSearch (resetVisited g.actors)) "Kevin Bacon" with
  | none => rw [hkb] at hs; cases hs
  | some kb =>
    simp only [hkb] at hs
    cases ha : (resetSearch (resetVisited g.actors))[kb]? with
    | none => simp only [ha] at hs; cases hs
    | some a =>
      simp only [ha, Option.some.injEq, Prod.mk.injEq] at hs
      obtain ⟨h3, hq3⟩ := hs
      rw [← h3, ← hq3] at hl
      simp only [calculateBaconScore, hq, if_false, h1, hkb, ha, hl, if_true] at hc
      cases hp : printPath { actors := actors4, movies := g.movies } actors4.length
          (some t) with
      | none => rw [hp] at hc; cases hc
      | some path =>
        rw [hp] at hc
        simp only [Option.some.injEq] at hc
        rw [← hc]
        exact ⟨path, rfl, rfl⟩

theorem search_run {g : Graph} (hw : WF g.actors g.movies) (q : String)
    {actors3 : List Actor} {queue3 : List Queue}
    (hs : searchStart g = some (actors3, queue3)) :
    ∃ kb run, queue3 = [{ actor := kb, parent := none, level := 0 }] ∧
      bfsRun g.movies q actors3.length actors3 queue3 = some run ∧
      bfsLoop g.movies q actors3.length actors3 queue3 = some (run.actors, run.search) ∧
      RunPost actors3 queue3 run ∧
      run.actors.length = g.actors.length ∧ actors3.length = g.actors.length ∧
      (∀ (v : Nat) (c : Actor), actors3[v]? = some c → c.parent = none) ∧
      (∀ v, Vis actors3 v ↔ v = kb) ∧ kb < g.actors.length := by
  obtain ⟨kb, hq3, ho, hlen, hshape, hpar, hvis, hkb⟩ := searchStart_spec hw q hs
  obtain ⟨run, hrun, hloop, hpost⟩ :=
    bfsRun_spec actors3.length g.actors.length _ actors3 queue3 ho (by omega)
  obtain ⟨a1, r1, h1, _, hsh⟩ :=
    bfsLoop_outer actors3.length g.actors.length _ actors3 queue3 ho (by omega)
  rw [hloop] at h1
  simp only [Option.some.injEq, Prod.mk.injEq] at h1
  rw [← h1.1] at hsh
  exact ⟨kb, run, hq3, hrun, hloop, hpost, (shape_length hsh).trans hlen, hlen, hpar, hvis,
    hkb⟩

/-- C19: on the heap left by any input file and any earlier queries, every query
returns; and when the search loop is entered it stops within as many rounds as
there are registered actors. The entries ever put in the queue (those dequeued,
in order, followed by those still waiting when the loop is left) name pairwise
different registered actors, so the number of dequeues is at most the number of
registered actors, and the levels of the dequeued entries, in dequeue order,
never decrease. The recorded run is the run of the loop: a larger budget gives the
same final heap and the same outcome, and that heap is the one the query leaves. -/
theorem search_loop_terminates (g : Graph) (hg : Reached g) (q : String)
    (actors3 : List Actor) (queue3 : List Queue)
    (hs : searchStart g = some (actors3, queue3)) :
    (∀ (e : Int) (l : Bool), ∃ r, calculateBaconScore g e q l = some r) ∧
    ∃ run, bfsRun g.movies q actors3.length actors3 queue3 = some run ∧
      (∀ fuel, actors3.length ≤ fuel →
        bfsLoop g.movies q fuel actors3 queue3 = some (run.actors, run.search)) ∧
      ((run.dequeued ++ run.waiting).map Queue.actor).Nodup ∧
      (∀ x ∈ run.dequeued ++ run.waiting, x.actor < g.actors.length) ∧
      run.dequeued.length ≤ g.actors.length ∧
      (run.dequeued.map Queue.level).Pairwise (fun a b => a ≤ b) ∧
      (∀ (e : Int) (l : Bool) (r : Result), q ≠ "Kevin Bacon" → Registered g q →
        calculateBaconScore g e q l = some r →
        r.g = { actors := run.actors, movies := g.movies }) := by
  have hw := Reached_WF hg
  refine ⟨fun e l => (calc_total g hw e q l).imp (fun r h => h.1), ?_⟩
  obtain ⟨kb, run, hq3, hrun, hloop, hpost, hlen4, hlen3, hpar, hvis, hkb⟩ :=
    search_run hw q hs
  obtain ⟨added, hadd, hnd, hprop⟩ := hpost.added
  have hnodup : ((run.dequeued ++ run.waiting).map Queue.actor).Nodup := by
    rw [hadd, hq3, List.map_append, List.nodup_append]
    refine ⟨by simp, hnd, ?_⟩
    intro v hv1 hv2
    simp only [List.map_cons, List.map_nil, List.mem_singleton] at hv1
    obtain ⟨x, hx, hxv⟩ := List.mem_map.mp hv2
    have := (hprop x hx).1
    rw [hxv, hv1] at this
    exact this ((hvis kb).mpr rfl)
  have hrange : ∀ x ∈ run.dequeued ++ run.waiting, x.actor < g.actors.length := by
    intro x hx
    rw [hadd, hq3] at hx
    rcases List.mem_append.mp hx with hx | hx
    · simp only [List.mem_singleton] at hx
      rw [hx]
      exact hkb
    · obtain ⟨b, hb, _⟩ := (hprop x hx).2
      rw [← hlen4]
      exact lt_of_getElem? hb
  refine ⟨run, hrun, ?_, hnodup, hrange, ?_, ?_, ?_⟩
  · intro fuel hf
    exact bfsLoop_fuel_mono g.movies q actors3.length actors3 queue3 _ hloop fuel hf
  · have h1 := nodup_bounded_length _ g.actors.length hnodup (by
      intro v hv
      obtain ⟨x, hx, hxv⟩ := List.mem_map.mp hv
      rw [← hxv]
      exact hrange x hx)
    rw [List.length_map, List.length_append] at h1
    omega
  · rw [List.pairwise_map]
    exact (List.pairwise_append.mp hpost.sorted).1
  · intro e l r hq hr hc
    exact calc_graph g e q l hq hr hs hloop hc

theorem search_loop_terminates_witness :
    Reached exGraph ∧ searchStart exGraph = some exStart ∧
    ((∀ (e : Int) (l : Bool), ∃ r, calculateBaconScore exGraph e "Sally Field" l = some r) ∧
    ∃ run, bfsRun exGraph.movies "Sally Field" exStart.1.length exStart.1 exStart.2 = some run ∧
      (∀ fuel, exStart.1.length ≤ fuel →
        bfsLoop exGraph.movies "Sally Field" fuel exStart.1 exStart.2
          = some (run.actors, run.search)) ∧
      ((run.dequeued ++ run.waiting).map Queue.actor).Nodup ∧
      (∀ x ∈ run.dequeued ++ run.waiting, x.actor < exGraph.actors.length) ∧
      run.dequeued.length ≤ exGraph.actors.length ∧
      (run.dequeued.map Queue.level).Pairwise (fun a b => a ≤ b) ∧
      (∀ (e : Int) (l : Bool) (r : Result), "Sally Field" ≠ "Kevin Bacon" →
        Registered exGraph "Sally Field" →
        calculateBaconScore exGraph e "Sally Field" l = some r →
        r.g = { actors := run.actors, movies := exGraph.movies })) :=
  ⟨⟨heap0, false, exLines, [], _, rfl, rfl⟩, by decide,
    search_loop_terminates exGraph ⟨heap0, false, exLines, [], _, rfl, rfl⟩ "Sally Field"
      exStart.1 exStart.2 (by decide)⟩

/-! ## The search loop with the log of its discoveries -/

theorem visitLinkedLog_fst (cur l m : Nat) (s : (List Actor × List Queue) × List Discovery)
    (i : Nat) :
    (visitLinkedLog cur l m s i).map Prod.fst = visitLinked cur l s.1 i := by
  unfold visitLinkedLog visitLinked
  cases s.1.1[i]? with
  | none => rfl
  | some a =>
    by_cases hv : a.visited = true
    · simp [hv]
    · simp [hv]

theorem visitCastLog_fst (cur l m : Nat) (cast : List Nat) :
    ∀ s : (List Actor × List Queue) × List Discovery,
      (visitCastLog cur l m cast s).map Prod.fst = visitCast cur l cast s.1 := by
  induction cast with
  | nil => intro s; rfl
  | cons i rest ih =>
    intro s
    have h1 := visitLinkedLog_fst cur l m s i
    simp only [visitCastLog, visitCast]
    cases h : visitLinkedLog cur l m s i with
    | none =>
      rw [h] at h1
      rw [← h1]
      rfl
    | some s1 =>
      rw [h] at h1
      rw [← h1]
      exact ih s1

theorem visitMoviesLog_fst (movies : List Movie) (cur l : Nat) (ml : List Nat) :
    ∀ s : (List Actor × List Queue) × List Discovery,
      (visitMoviesLog movies cur l ml s).map Prod.fst = visitMovies movies cur l ml s.1 := by
  induction ml with
  | nil => intro s; rfl
  | cons m rest ih =>
    intro s
    simp only [visitMoviesLog, visitMovies]
    cases hm : movies[m]? with
    | none => rfl
    | some mv =>
      have h1 := visitCastLog_fst cur l m mv.cast s
      simp only
      cases h : visitCastLog cur l m mv.cast s with
      | none =>
        rw [h] at h1
        rw [← h1]
        rfl
      | some s1 =>
        rw [h] at h1
        rw [← h1]
        exact ih s1

theorem fst_of_log {α β : Type} {x : Option (α × β)} {y : Option α} {s1 : α × β}
    (h : x.map Prod.fst = y) (hx : x = some s1) : y = some s1.1 := by
  rw [← h, hx]
  rfl

theorem visitLinkedLog_log {cur l m i : Nat} {s s1 : (List Actor × List Queue) × List Discovery}
    (h : visitLinkedLog cur l m s i = some s1) :
    (Vis s.1.1 i ∧ s1.2 = s.2) ∨
    (¬ Vis s.1.1 i ∧ s1.2 = s.2 ++ [{ actor := i, parent := cur, movie := m }]) := by
  unfold visitLinkedLog at h
  cases ha : s.1.1[i]? with
  | none => rw [ha] at h; cases h
  | some a =>
    rw [ha] at h
    by_cases hv : a.visited = true
    · simp only [hv, if_true, Option.some.injEq] at h
      rw [← h]
      exact Or.inl ⟨⟨a, ha, hv⟩, rfl⟩
    · simp only [hv, Bool.false_eq_true, if_false, Option.some.injEq] at h
      rw [← h]
      refine Or.inr ⟨?_, rfl⟩
      rintro ⟨b, hb, hbv⟩
      rw [ha] at hb
      cases hb
      exact hv hbv

theorem visitCastLog_log {cur l m : Nat} (cast : List Nat) :
    ∀ {s s1 : (List Actor × List Queue) × List Discovery},
      visitCastLog cur l m cast s = some s1 →
      ∃ new, s1.2 = s.2 ++ new ∧ (new.map Discovery.actor).Nodup ∧
        (∀ d ∈ new, d.parent = cur ∧ d.movie = m ∧ ¬ Vis s.1.1 d.actor ∧ Vis s1.1.1 d.actor) ∧
        ∀ v, ¬ Vis s.1.1 v → Vis s1.1.1 v → ∃ d ∈ new, d.actor = v := by
  induction cast with
  | nil =>
    intro s s1 h
    simp only [visitCastLog, Option.some.injEq] at h
    subst h
    exact ⟨[], by simp, by simp, by simp, fun v hn hv => absurd hv hn⟩
  | cons i rest ih =>
    intro s s1 h
    simp only [visitCastLog] at h
    cases h1 : visitLinkedLog cur l m s i with
    | none => rw [h1] at h; cases h
    | some s2 =>
      rw [h1] at h
      simp only at h
      have e1 := fst_of_log (visitLinkedLog_fst cur l m s i) h1
      have e2 := fst_of_log (visitCastLog_fst cur l m rest s2) h
      have hvis := visitLinked_vis e1
      have hmono := (visitCast_grows rest e2).1.mono
      obtain ⟨new2, hlog2, hnd2, hev2, hco2⟩ := ih h
      rcases visitLinkedLog_log h1 with ⟨hvi, hl⟩ | ⟨hnvi, hl⟩
      · refine ⟨new2, by rw [hlog2, hl], hnd2, ?_, ?_⟩
        · intro d hd
          obtain ⟨h1d, h2d, h3d, h4d⟩ := hev2 d hd
          exact ⟨h1d, h2d, fun hv => h3d ((hvis _).mpr (Or.inr hv)), h4d⟩
        · intro v hn hv
          by_cases hv2 : Vis s2.1.1 v
          · rcases (hvis v).mp hv2 with rfl | hv0
            · exact absurd hvi hn
            · exact absurd hv0 hn
          · exact hco2 v hv2 hv
      · refine ⟨{ actor := i, parent := cur, movie := m } :: new2, ?_, ?_, ?_, ?_⟩
        · rw [hlog2, hl, List.append_assoc]
          rfl
        · rw [List.map_cons, List.nodup_cons]
          refine ⟨?_, hnd2⟩
          intro hmem
          obtain ⟨d, hd, hdi⟩ := List.mem_map.mp hmem
          have := (hev2 d hd).2.2.1
          rw [hdi] at this
          exact this ((hvis i).mpr (Or.inl rfl))
        · intro d hd
          rcases List.mem_cons.mp hd with rfl | hd
          · exact ⟨rfl, rfl, hnvi, hmono _ ((hvis i).mpr (Or.inl rfl))⟩
          · obtain ⟨h1d, h2d, h3d, h4d⟩ := hev2 d hd
            exact ⟨h1d, h2d, fun hv => h3d ((hvis _).mpr (Or.inr hv)), h4d⟩
        · intro v hn hv
          by_cases hv2 : Vis s2.1.1 v
          · rcases (hvis v).mp hv2 with rfl | hv0
            · exact ⟨_, List.mem_cons_self _ _, rfl⟩
            · exact absurd hv0 hn
          · obtain ⟨d, hd, hdv⟩ := hco2 v hv2 hv
            exact ⟨d, List.mem_cons_of_mem _ hd, hdv⟩

theorem visitMoviesLog_log {movies : List Movie} {cur l : Nat} (ml : List Nat) :
    ∀ {s s1 : (List Actor × List Queue) × List Discovery},
      visitMoviesLog movies cur l ml s = some s1 →
      ∃ new, s1.2 = s.2 ++ new ∧ ExpandLog movies cur ml s.1 s1.1 new := by
  induction ml with
  | nil =>
    intro s s1 h
    simp only [visitMoviesLog, Option.some.injEq] at h
    subst h
    refine ⟨[], by simp, ⟨by simp, by simp, fun v hn hv => absurd hv hn, ?_⟩⟩
    intro v _ m1 hm1
    cases hm1
  | cons m rest ih =>
    intro s s1 h
    simp only [visitMoviesLog] at h
    cases hm : movies[m]? with
    | none => rw [hm] at h; cases h
    | some mv =>
      rw [hm] at h
      simp only at h
      cases h1 : visitCastLog cur l m mv.cast s with
      | none => rw [h1] at h; cases h
      | some s2 =>
        rw [h1] at h
        simp only at h
        have e1 := fst_of_log (visitCastLog_fst cur l m mv.cast s) h1
        have e2 := fst_of_log (visitMoviesLog_fst movies cur l rest s2) h
        have hvis := (visitCast_grows mv.cast e1).2
        have hmono := (visitMovies_grows rest e2).mono
        obtain ⟨new1, hlog1, hnd1, hev1, hco1⟩ := visitCastLog_log mv.cast h1
        obtain ⟨new2, hlog2, hx2⟩ := ih h
        refine ⟨new1 ++ new2, by rw [hlog2, hlog1, List.append_assoc], ⟨?_, ?_, ?_, ?_⟩⟩
        · rw [List.map_append, List.nodup_append]
          refine ⟨hnd1, hx2.nodup, ?_⟩
          intro v hv1 hv2
          obtain ⟨d1, hd1, rfl⟩ := List.mem_map.mp hv1
          obtain ⟨d2, hd2, h12⟩ := List.mem_map.mp hv2
          have := (hx2.events d2 hd2).2.1
          rw [h12] at this
          exact this (hev1 d1 hd1).2.2.2
        · intro d hd
          rcases List.mem_append.mp hd with hd | hd
          · obtain ⟨h1d, h2d, h3d, h4d⟩ := hev1 d hd
            refine ⟨h1d, h3d, hmono _ h4d, [], rest, mv, by rw [h2d]; rfl, by rw [h2d]; exact hm,
              ?_, by simp⟩
            rcases (hvis d.actor).mp h4d with hc | hc
            · exact hc
            · exact absurd hc h3d
          · obtain ⟨h1d, h2d, h3d, pre, post, mv2, hml, hm2, hmem, hpre⟩ := hx2.events d hd
            refine ⟨h1d, fun hv => h2d ((hvis _).mpr (Or.inr hv)), h3d, m :: pre, post, mv2,
              by rw [hml]; rfl, hm2, hmem, ?_⟩
            intro m1 hm1
            rcases List.mem_cons.mp hm1 with rfl | hm1
            · exact ⟨mv, hm, fun hc => h2d ((hvis _).mpr (Or.inl hc))⟩
            · exact hpre m1 hm1
        · intro v hn hv
          by_cases hv2 : Vis s2.1.1 v
          · obtain ⟨d, hd, hdv⟩ := hco1 v hn hv2
            exact ⟨d, List.mem_append_left _ hd, hdv⟩
          · obtain ⟨d, hd, hdv⟩ := hx2.complete v hv2 hv
            exact ⟨d, List.mem_append_right _ hd, hdv⟩
        · intro v hn m1 hm1
          rcases List.mem_cons.mp hm1 with rfl | hm1
          · exact ⟨mv, hm, fun hc => hn (hmono _ ((hvis v).mpr (Or.inl hc)))⟩
          · exact hx2.covers v hn m1 hm1

theorem bfsTrace_nil (movies : List Movie) (q : String) (fuel : Nat) (actors : List Actor) :
    bfsTrace movies q fuel actors [] =
      some { actors := actors, search := .exhausted, expanded := [], log := [] } := by
  cases fuel <;> rfl

theorem TracePost_stop (movies : List Movie) (actors : List Actor) (search : Search) :
    TracePost movies actors
      { actors := actors, search := search, expanded := [], log := [] } where
  nodup := by simp
  frozen := fun v a ha _ => ha
  complete := fun A b hb hbv hn => absurd ⟨b, hb, hbv⟩ hn
  events := by
    intro d hd
    cases hd

theorem bfsTrace_spec {movies : List Movie} {q : String} {src n : Nat} :
    ∀ (fuel μ : Nat) (lev : Nat → Nat) (actors : List Actor) (queue : List Queue),
      Outer movies q src n μ lev actors queue → μ ≤ fuel →
      ∃ tr, bfsTrace movies q fuel actors queue = some tr ∧
        bfsLoop movies q fuel actors queue = some (tr.actors, tr.search) ∧
        TracePost movies actors tr := by
  intro fuel
  induction fuel with
  | zero =>
    intro μ lev actors queue h hμ
    cases queue with
    | nil => exact ⟨_, rfl, rfl, TracePost_stop movies actors .exhausted⟩
    | cons e rest =>
      have := h.core.measure
      simp only [List.length_cons] at this
      omega
  | succ fuel ih =>
    intro μ lev actors queue h hμ
    cases queue with
    | nil => exact ⟨_, rfl, rfl, TracePost_stop movies actors .exhausted⟩
    | cons e rest =>
      obtain ⟨curA, hcur, hcurv⟩ := (h.core.q_vis e (List.mem_cons_self _ _)).1
      by_cases hname : curA.name = q
      · refine ⟨Trace.mk actors (.found e.actor e.level) [] [], ?_, ?_,
          TracePost_stop movies actors _⟩
        · simp [bfsTrace, hcur, hname]
        · simp [bfsLoop, hcur, hname]
      · obtain ⟨s1, lev1, hs1, ho1⟩ := expand_outer h hcur hname
        have hg := visitMovies_grows curA.movies hs1
        have hmeas := h.core.measure
        simp only [List.length_cons] at hmeas
        obtain ⟨sl, hsl, hsl1⟩ : ∃ sl, visitMoviesLog movies e.actor e.level curA.movies
            ((actors, rest), []) = some sl ∧ sl.1 = s1 := by
          have hf := visitMoviesLog_fst movies e.actor e.level curA.movies ((actors, rest), [])
          cases hx : visitMoviesLog movies e.actor e.level curA.movies ((actors, rest), []) with
          | none =>
            rw [hx, hs1] at hf
            cases hf
          | some sl =>
            rw [hx, hs1] at hf
            exact ⟨sl, rfl, Option.some.inj hf⟩
        obtain ⟨new, hnew, hx⟩ := visitMoviesLog_log curA.movies hsl
        rw [hsl1] at hx
        simp only [List.nil_append] at hnew
        obtain ⟨tr1, ht1, hl1, hp1⟩ := ih (μ - 1) lev1 s1.1 s1.2 ho1 (by omega)
        have hcell : tr1.actors[e.actor]? = some curA :=
          hp1.frozen _ _ (hg.frozen _ _ hcur hcurv) hcurv
        refine ⟨Trace.mk tr1.actors tr1.search (e.actor :: tr1.expanded) (new ++ tr1.log),
          ?_, ?_, ?_⟩
        · simp only [bfsTrace, hcur, hname, if_false, hsl, hsl1, ht1, hnew]
        · simp only [bfsLoop, hcur, hname, if_false, hs1]
          exact hl1
        · constructor
          · show ((new ++ tr1.log).map Discovery.actor).Nodup
            rw [List.map_append, List.nodup_append]
            refine ⟨hx.nodup, hp1.nodup, ?_⟩
            intro v hv1 hv2
            obtain ⟨d1, hd1, rfl⟩ := List.mem_map.mp hv1
            obtain ⟨d2, hd2, h12⟩ := List.mem_map.mp hv2
            have := (hp1.events d2 hd2).1
            rw [h12] at this
            exact this (hx.events d1 hd1).2.2.1
          · exact fun v a ha hav => hp1.frozen v a (hg.frozen v a ha hav) hav
          · intro A b hb hbv hnA
            show ∃ d ∈ new ++ tr1.log, d.actor = A
            by_cases hA : Vis s1.1 A
            · obtain ⟨d, hd, hdA⟩ := hx.complete A hnA hA
              exact ⟨d, List.mem_append_left _ hd, hdA⟩
            · obtain ⟨d, hd, hdA⟩ := hp1.complete A b hb hbv hA
              exact ⟨d, List.mem_append_right _ hd, hdA⟩
          · intro d hd
            have hd1 : d ∈ new ++ tr1.log := hd
            rcases List.mem_append.mp hd1 with hd | hd
            · obtain ⟨hdp, hdn, ⟨b, hb, hbv⟩, hfirst⟩ := hx.events d hd
              refine ⟨hdn, b, curA, hp1.frozen _ _ hb hbv, ?_, ?_, ?_, hfirst, ?_⟩
              · rw [hdp]
                exact hg.fresh _ b hb hdn hbv
              · rw [hdp]
                exact hcell
              · rw [hdp]
                exact List.mem_cons_self _ _
              · intro pre1 post1 hsplit hnot P1 hP1
                cases pre1 with
                | nil => cases hP1
                | cons x pre2 =>
                  have hx0 : e.actor = x := by
                    have := congrArg List.head? hsplit
                    simpa using this
                  exact absurd (by rw [hdp, hx0]; exact List.mem_cons_self _ _) hnot
            · obtain ⟨hdn, a, pa, ha, hap, hpa, hexp, hfirst, htie⟩ := hp1.events d hd
              refine ⟨fun hv => hdn (hg.mono _ hv), a, pa, ha, hap, hpa,
                List.mem_cons_of_mem _ hexp, hfirst, ?_⟩
              intro pre1 post1 hsplit hnot P1 hP1 c hc
              cases pre1 with
              | nil => cases hP1
              | cons x pre2 =>
                have hsplit1 : e.actor :: tr1.expanded = x :: (pre2 ++ d.parent :: post1) :=
                  hsplit
                obtain ⟨hx0, hrest⟩ := List.cons.inj hsplit1
                rcases List.mem_cons.mp hP1 with hP | hP
                · have hc1 : tr1.actors[P1]? = some c := hc
                  rw [hP, ← hx0, hcell] at hc1
                  rw [← Option.some.inj hc1]
                  exact hx.covers d.actor hdn
                · exact htie pre2 post1 hrest (fun hm => hnot (List.mem_cons_of_mem _ hm)) P1 hP
                    c hc

/-- C18: on the heap left by any input file and any earlier queries, when the
search loop is entered, the run is traced with a log entry written in the body of
the test of the visited flag: the actor marked, the actor under expansion made its
parent, and the movie whose cast was being iterated. No actor is logged twice, and
an actor that ends the run with a parent P has an entry with that parent. For every
entry (A, P, m): the heap at the end has P as the parent of A; m is the first
movie of the movie list of P that has A in its cast; the two loops of printPath
return that movie, and printPath at A writes the hop line of A with the title of m
and goes on at P; and, for the tie-breaking, P is the first actor expanded that
has A in the cast of one of its movies: no actor expanded before P has. With path
printing on, the lines the query writes after the score are those of printPath on
the heap the run leaves. -/
theorem printed_movie_is_discovery_movie (g : Graph) (hg : Reached g) (q : String)
    (actors3 : List Actor) (queue3 : List Queue)
    (hs : searchStart g = some (actors3, queue3)) :
    ∃ tr, bfsTrace g.movies q actors3.length actors3 queue3 = some tr ∧
      bfsLoop g.movies q actors3.length actors3 queue3 = some (tr.actors, tr.search) ∧
      (tr.log.map Discovery.actor).Nodup ∧
      (∀ (A P : Nat) (a : Actor), tr.actors[A]? = some a → a.parent = some P →
        ∃ d ∈ tr.log, d.actor = A ∧ d.parent = P) ∧
      (∀ d ∈ tr.log, ∃ (a pa : Actor) (mv : Movie),
        tr.actors[d.actor]? = some a ∧ a.parent = some d.parent ∧
        tr.actors[d.parent]? = some pa ∧ g.movies[d.movie]? = some mv ∧
        d.parent ∈ tr.expanded ∧
        FirstWith g.movies d.actor pa.movies d.movie ∧
        connectingMovie g.movies d.actor pa.movies = some (some mv) ∧
        (∀ fuel, printPath { actors := tr.actors, movies := g.movies } (fuel + 1)
            (some d.actor)
          = (printPath { actors := tr.actors, movies := g.movies } fuel (some d.parent)).map
              (fun rest => Printed.hop a.name mv.title :: rest)) ∧
        (∀ (pre1 post1 : List Nat), tr.expanded = pre1 ++ d.parent :: post1 →
          d.parent ∉ pre1 → ∀ P1 ∈ pre1, ∀ c, tr.actors[P1]? = some c →
            NoneWith g.movies d.actor c.movies)) ∧
      (∀ (e : Int) (r : Result) (t lv : Nat), q ≠ "Kevin Bacon" → Registered g q →
        calculateBaconScore g e q true = some r → tr.search = .found t lv →
        ∃ path, printPath { actors := tr.actors, movies := g.movies } tr.actors.length
            (some t) = some path ∧
          r.out = Printed.score lv :: (path ++ [Printed.kevinBacon])) := by
  have hw := Reached_WF hg
  obtain ⟨kb, run, hq3, hrun, hloop, hpost, hlen4, hlen3, hpar, hvis, hkb⟩ :=
    search_run hw q hs
  obtain ⟨kb1, _, ho, _, _, _, _, _⟩ := searchStart_spec hw q hs
  obtain ⟨tr, htr, hloop1, htp⟩ :=
    bfsTrace_spec actors3.length g.actors.length _ actors3 queue3 ho (by omega)
  have hsame : tr.actors = run.actors := by
    rw [hloop1] at hloop
    simp only [Option.some.injEq, Prod.mk.injEq] at hloop
    exact hloop.1
  refine ⟨tr, htr, hloop1, htp.nodup, ?_, ?_, ?_⟩
  · intro A P a ha hap
    have ha1 : run.actors[A]? = some a := by rw [← hsame]; exact ha
    have hav : a.visited = true := by
      by_contra hnv
      have hf : a.visited = false := by
        cases hv : a.visited with
        | true => exact absurd hv hnv
        | false => rfl
      have := hpar A a (hpost.untouched A a ha1 hf)
      rw [this] at hap
      cases hap
    have hnA : ¬ Vis actors3 A := by
      rintro ⟨c, hc, hcv⟩
      have h1 := hpost.frozen A c hc hcv
      rw [ha1] at h1
      cases h1
      have := hpar A a hc
      rw [this] at hap
      cases hap
    obtain ⟨d, hd, hdA⟩ := htp.complete A a ha hav hnA
    obtain ⟨_, a1, pa, ha2, hap2, _⟩ := htp.events d hd
    rw [hdA, ha] at ha2
    rw [← Option.some.inj ha2, hap] at hap2
    exact ⟨d, hd, hdA, (Option.some.inj hap2).symm⟩
  · intro d hd
    obtain ⟨_, a, pa, ha, hap, hpa, hexp, hfirst, htie⟩ := htp.events d hd
    obtain ⟨pre, post, mv, hml, hm, hmem, hpre⟩ := hfirst
    have hconn : connectingMovie g.movies d.actor pa.movies = some (some mv) := by
      rw [hml]
      exact connectingMovie_first pre post hpre hm hmem
    refine ⟨a, pa, mv, ha, hap, hpa, hm, hexp, ⟨pre, post, mv, hml, hm, hmem, hpre⟩, hconn,
      ?_, htie⟩
    intro fuel
    simp only [printPath, ha, hap, hpa, hconn]
    cases printPath { actors := tr.actors, movies := g.movies } fuel (some d.parent) <;> rfl
  · intro e r t lv hq hr hc hsr
    rw [hsr] at hloop1
    exact calc_path g e q hq hr hs hloop1 hc

theorem printed_movie_is_discovery_movie_witness :
    Reached twoMovieGraph ∧ searchStart twoMovieGraph = some twoMovieStart ∧
    (bfsTrace twoMovieGraph.movies "Ann" twoMovieStart.1.length twoMovieStart.1
        twoMovieStart.2).map Trace.log = some [{ actor := 1, parent := 0, movie := 1 }] ∧
    (calculateBaconScore twoMovieGraph 0 "Ann" true).map (fun r => renderAll r.out)
      = some "Score: 1\nAnn\nwas in Second with\nKevin Bacon\n" ∧
    ∃ tr, bfsTrace twoMovieGraph.movies "Ann" twoMovieStart.1.length twoMovieStart.1
        twoMovieStart.2 = some tr ∧
      bfsLoop twoMovieGraph.movies "Ann" twoMovieStart.1.length twoMovieStart.1
        twoMovieStart.2 = some (tr.actors, tr.search) ∧
      (tr.log.map Discovery.actor).Nodup ∧
      (∀ (A P : Nat) (a : Actor), tr.actors[A]? = some a → a.parent = some P →
        ∃ d ∈ tr.log, d.actor = A ∧ d.parent = P) ∧
      (∀ d ∈ tr.log, ∃ (a pa : Actor) (mv : Movie),
        tr.actors[d.actor]? = some a ∧ a.parent = some d.parent ∧
        tr.actors[d.parent]? = some pa ∧ twoMovieGraph.movies[d.movie]? = some mv ∧
        d.parent ∈ tr.expanded ∧
        FirstWith twoMovieGraph.movies d.actor pa.movies d.movie ∧
        connectingMovie twoMovieGraph.movies d.actor pa.movies = some (some mv) ∧
        (∀ fuel, printPath { actors := tr.actors, movies := twoMovieGraph.movies } (fuel + 1)
            (some d.actor)
          = (printPath { actors := tr.actors, movies := twoMovieGraph.movies } fuel
              (some d.parent)).map (fun rest => Printed.hop a.name mv.title :: rest)) ∧
        (∀ (pre1 post1 : List Nat), tr.expanded = pre1 ++ d.parent :: post1 →
          d.parent ∉ pre1 → ∀ P1 ∈ pre1, ∀ c, tr.actors[P1]? = some c →
            NoneWith twoMovieGraph.movies d.actor c.movies)) ∧
      (∀ (e : Int) (r : Result) (t lv : Nat), "Ann" ≠ "Kevin Bacon" →
        Registered twoMovieGraph "Ann" →
        calculateBaconScore twoMovieGraph e "Ann" true = some r →
        tr.search = .found t lv →
        ∃ path, printPath { actors := tr.actors, movies := twoMovieGraph.movies }
            tr.actors.length (some t) = some path ∧
          r.out = Printed.score lv :: (path ++ [Printed.kevinBacon])) :=
  ⟨⟨heap0, false, twoMovieLines, [], _, rfl, rfl⟩, by decide, by decide, by decide,
    printed_movie_is_discovery_movie twoMovieGraph
      ⟨heap0, false, twoMovieLines, [], _, rfl, rfl⟩ "Ann" twoMovieStart.1 twoMovieStart.2
      (by decide)⟩

end Bacon
